import Mathlib

set_option maxHeartbeats 1000000

/-!
Verification of the alcapush diff-to-request pipeline.

JavaScript strings are modelled as lists of characters (`Str`); each
definition below is a direct transcription of the corresponding TypeScript
function, with the JavaScript string methods it uses (`split`, `substring`,
`indexOf`, `lastIndexOf`, `trim`, `replace`, `includes`, `startsWith`)
modelled by the explicit recursive helpers defined first.

The exact tokenizer (`@dqbd/tiktoken`) is an external binary dependency of
`src/utils/tokenCount.ts`; it is modelled as an abstract parameter
`enc : Option (Str → Nat)` where `none` selects the source's own documented
fallback `Math.ceil(text.length / 4)`.  Theorems about exact token counts are
stated for the fallback mode, the only token counter defined in the
repository itself.
-/

abbrev Str := List Char

/-- Boolean prefix test on character lists (models JS `String.startsWith` and
the literal part of anchored regexes). -/
def isPre : Str → Str → Bool
  | [], _ => true
  | _ :: _, [] => false
  | a :: as, b :: bs => a = b && isPre as bs

/-- Boolean substring test (models JS `String.includes`). -/
def containsSeq (pat : Str) (l : Str) : Bool :=
  l.tails.any (fun s => isPre pat s)

/-- Models JS `String.trim`: drop whitespace from both ends. -/
def jsTrim (l : Str) : Str :=
  ((l.dropWhile Char.isWhitespace).reverse.dropWhile Char.isWhitespace).reverse

/-- Models JS `String.indexOf(char)`: index of the first occurrence, `-1` if
absent. -/
def jsIndexOf (l : Str) (c : Char) : Int :=
  if c ∈ l then (l.indexOf c : Int) else -1

/-- Models JS `String.lastIndexOf(char, pos)`: the largest index `≤ pos`
holding `c`, `-1` if there is none. -/
def lastIndexOfLe (l : Str) (c : Char) : Nat → Int
  | 0 => if l.get? 0 = some c then (0 : Int) else -1
  | n + 1 => if l.get? (n + 1) = some c then ((n + 1 : Nat) : Int) else lastIndexOfLe l c n

/-- Splits off the text before the first occurrence of `sep`, returning
`(before, after)`; `none` when `sep` does not occur.  Helper for the model of
JS `String.split` and `String.replace`. -/
def splitFirst (sep : Str) : Str → Option (Str × Str)
  | [] => if sep = [] then some ([], []) else none
  | c :: cs =>
    if isPre sep (c :: cs) then some ([], (c :: cs).drop sep.length)
    else (splitFirst sep cs).map (fun p => (c :: p.1, p.2))

/-- Fuel-driven worker for the model of JS `String.split(sep)`: for a
non-empty separator each step strictly shortens the remainder, so fuel
`l.length` never runs out and the zero-fuel branch is unreachable. -/
def jsSplitAux (sep : Str) : Nat → Str → List Str
  | 0, l => [l]
  | fuel + 1, l =>
    match splitFirst sep l with
    | none => [l]
    | some (b, a) => b :: jsSplitAux sep fuel a

/-- Models JS `String.split(sep)` for a non-empty separator `sep`. -/
def jsSplit (sep : Str) (l : Str) : List Str := jsSplitAux sep l.length l

/-- Models JS `String.replace(sep, repl)` with a plain-string pattern:
replace the first occurrence only. -/
def jsReplaceFirst (sep repl l : Str) : Str :=
  match splitFirst sep l with
  | none => l
  | some (b, a) => b ++ repl ++ a

/-- Models JS `Array.join(s)`. -/
def joinWith (s : Str) : List Str → Str
  | [] => []
  | [x] => x
  | x :: y :: rest => x ++ s ++ joinWith s (y :: rest)

/-! ## Token accounting (`src/utils/tokenCount.ts`) -/

/-- Models the fallback `Math.ceil(text.length / 4)` of `tokenCount`. -/
def approxTokens (s : Str) : Nat := (s.length + 3) / 4

/-- Models `tokenCount`: the external tiktoken encoder when it loads
(abstracted as `enc`), the rough approximation otherwise. -/
def tokenCountWith (enc : Option (Str → Nat)) (text : Str) : Nat :=
  match enc with
  | some e => e text
  | none => approxTokens text

/-- Models `tokenCount` in the repository's own fallback mode (no external
encoder); this is the exact token counter used for all concrete theorems. -/
def tokenCount (text : Str) : Nat := tokenCountWith none text

/-! ## Request Composer (`src/utils/mergeDiffs.ts`) -/

/-- Models the per-diff token estimate of `mergeDiffs` (lines 25-27): quick
approximation for diffs under 1000 characters, full count above. -/
def perDiffTokens (enc : Option (Str → Nat)) (diff : Str) : Nat :=
  if diff.length < 1000 then approxTokens diff else tokenCountWith enc diff

/-- Models `estimateTokens` of `src/utils/batchCommit.ts` (lines 247-252). -/
def estimateTokens (enc : Option (Str → Nat)) (diff : Str) : Nat :=
  if diff.length < 1000 then approxTokens diff else tokenCountWith enc diff

/-- Models the `for (const diff of diffs)` loop of `mergeDiffs` together with
the final `if (current) merged.push(current)`. -/
def mergeDiffsLoop (enc : Option (Str → Nat)) (maxTokenLength : Int) :
    List Str → List Str → Str → Nat → List Str
  | [], merged, current, _ =>
    if current ≠ [] then merged ++ [current] else merged
  | diff :: rest, merged, current, currentTokens =>
    let diffTokens := perDiffTokens enc diff
    if ((currentTokens + diffTokens : Nat) : Int) ≤ maxTokenLength then
      mergeDiffsLoop enc maxTokenLength rest merged
        (current ++ (if current ≠ [] then '\n' :: diff else diff))
        (currentTokens + diffTokens)
    else
      mergeDiffsLoop enc maxTokenLength rest
        (if current ≠ [] then merged ++ [current] else merged) diff diffTokens

/-- Models `mergeDiffs` of `src/utils/mergeDiffs.ts`. -/
def mergeDiffs (enc : Option (Str → Nat)) (diffs : List Str) (maxTokenLength : Int) :
    List Str :=
  if diffs.length = 0 then []
  else if diffs.length = 1 then diffs
  else mergeDiffsLoop enc maxTokenLength diffs [] [] 0

/-- The newline-join that the composer loop performs step by step:
`current += (current ? '\n' : '') + diff`. -/
def joinNL (parts : List Str) : Str :=
  parts.foldl (fun cur d => cur ++ (if cur ≠ [] then '\n' :: d else d)) []

/-- Group shape produced by the composer: a nonempty consecutive group of
input diffs whose estimated token counts sum within the maximum, or a single
diff whose own estimate exceeds it. -/
def GroupOK (enc : Option (Str → Nat)) (maxT : Int) (g : List Str) : Prop :=
  g ≠ [] ∧
    ((((g.map (perDiffTokens enc)).sum : Nat) : Int) ≤ maxT ∨
      ∃ d, g = [d] ∧ maxT < ((perDiffTokens enc d : Nat) : Int))

/-- The literal truncation-notice text appended by the Truncator. -/
def TRUNC_NOTICE : Str := "... (truncated due to token limit)".toList

/-- The `diff --git ` separator on which diffs are split into per-file
sections. -/
def DIFF_SEP : Str := "diff --git ".toList

/-- Fuel-driven worker for the `while (left <= right)` binary search of
`truncateDiffByBinarySearch` (lines 104-119): each step shrinks the interval,
so fuel `(right + 1 - left).toNat` never runs out and the zero-fuel branch is
unreachable. -/
def bsLoopAux (text : Str) (maxTokens : Nat) : Nat → Int → Int → Nat → Nat
  | 0, _, _, best => best
  | fuel + 1, left, right, best =>
    if left ≤ right then
      let mid := (left + right) / 2
      let truncated := text.take mid.toNat
      let tokens := tokenCount truncated
      if tokens ≤ maxTokens then bsLoopAux text maxTokens fuel (mid + 1) right mid.toNat
      else bsLoopAux text maxTokens fuel left (mid - 1) best
    else best

/-- Models the binary search loop, returning the final `bestLength`. -/
def bsLoop (text : Str) (maxTokens : Nat) (left right : Int) (best : Nat) : Nat :=
  bsLoopAux text maxTokens (right + 1 - left).toNat left right best

/-- Models `truncateDiffByBinarySearch` (lines 98-130). -/
def truncateDiffByBinarySearch (text : Str) (maxTokens : Nat) : Str :=
  if tokenCount text ≤ maxTokens then text
  else
    let bestLength := bsLoop text maxTokens 0 (text.length : Int) 0
    if bestLength = 0 then TRUNC_NOTICE
    else
      let lastNewline := lastIndexOfLe text '\n' bestLength
      let finalLength := if 0 < lastNewline then lastNewline.toNat else bestLength
      text.take finalLength ++ '\n' :: '\n' :: TRUNC_NOTICE

/-- Models the inner line-by-line loop of `truncateDiffByTokens`
(lines 59-69).  `Math.floor(remainingTokens * 0.9)` is modelled in exact
arithmetic as `remainingTokens * 9 / 10` (floor division). -/
def lineLoop (remainingTokens : Int) : List Str → Str → Nat → Str
  | [], truncatedFile, _ => truncatedFile
  | line :: rest, truncatedFile, fileTokenCount =>
    let lineTokens := tokenCount (line ++ ['\n'])
    let lineLimit := remainingTokens * 9 / 10
    if ((fileTokenCount + lineTokens : Nat) : Int) ≤ lineLimit then
      lineLoop remainingTokens rest
        (truncatedFile ++ (if truncatedFile ≠ [] then '\n' :: line else line))
        (fileTokenCount + lineTokens)
    else truncatedFile

/-- Models the per-file loop of `truncateDiffByTokens` (lines 40-78),
including the break-with-partial-file branch. -/
def fileLoop (effectiveMaxTokens : Nat) : List Str → Str → Nat → Str
  | [], truncated, _ => truncated
  | fileDiff :: rest, truncated, currentTokens =>
    let fileDiffWithSeparator := DIFF_SEP ++ fileDiff
    let fileTokens := tokenCount fileDiffWithSeparator
    let remainingTokens : Int := (effectiveMaxTokens : Int) - currentTokens
    let conservativeLimit := remainingTokens * 9 / 10
    if ((fileTokens : Nat) : Int) ≤ conservativeLimit then
      fileLoop effectiveMaxTokens rest
        (truncated ++
          (if truncated ≠ [] then '\n' :: fileDiffWithSeparator else fileDiffWithSeparator))
        (currentTokens + fileTokens)
    else
      if 100 < remainingTokens then
        let lines := jsSplit ['\n'] fileDiff
        let truncatedFile := lineLoop remainingTokens lines [] (tokenCount DIFF_SEP)
        if truncatedFile ≠ [] then
          (truncated ++
            (if truncated ≠ [] then '\n' :: (DIFF_SEP ++ truncatedFile)
             else DIFF_SEP ++ truncatedFile)) ++ '\n' :: '\n' :: TRUNC_NOTICE
        else truncated
      else truncated

/-- Models `truncateDiffByTokens` (lines 16-93). -/
def truncateDiffByTokens (diff : Str) (maxTokens : Int) : Str :=
  if maxTokens ≤ 0 then TRUNC_NOTICE
  else
    let effectiveMaxTokens := (maxTokens - 50).toNat
    let diffTokens := tokenCount diff
    if diffTokens ≤ effectiveMaxTokens then diff
    else
      let fileDiffs := jsSplit DIFF_SEP diff
      if 1 < fileDiffs.length then
        let truncated := fileLoop effectiveMaxTokens (fileDiffs.drop 1) [] 0
        if truncated ≠ [] then
          if effectiveMaxTokens < tokenCount truncated then
            truncateDiffByBinarySearch truncated effectiveMaxTokens
          else truncated
        else truncateDiffByBinarySearch diff effectiveMaxTokens
      else truncateDiffByBinarySearch diff effectiveMaxTokens

/-- A chat message: role tag and string content. -/
structure ChatMessage where
  role : Str
  content : Str
deriving DecidableEq

/-- Decimal rendering of a count, as JS template interpolation does. -/
def natToStr (n : Nat) : Str := (toString n).toList

/-- Decimal rendering of a (possibly negative) number. -/
def intToStr (i : Int) : Str := (toString i).toList

/-- Models the inner `calculateTotalTokens`: content tokens plus 4 per
message, counted only for truthy (non-empty) content. -/
def calculateTotalTokens (msgs : List ChatMessage) : Nat :=
  msgs.foldl (fun total msg =>
    if msg.content ≠ [] then total + (tokenCount msg.content + 4) else total) 0

/-- The literal before the captured diff in the user-prompt regex
(line 233). -/
def DIFF_MATCH_PRE : Str :=
  "Here is the git diff showing changes across multiple files:\n\n".toList

/-- The literal after the captured diff in the user-prompt regex. -/
def DIFF_MATCH_POST : Str := "\n\nGenerate a comprehensive commit message".toList

/-- Models `content.match(/Here is the git diff...\n\n([\s\S]*?)\n\nGenerate
a comprehensive commit message/)`: the lazy group captures the text between
the first occurrence of the leading literal and the next occurrence of the
trailing literal. -/
def diffMatch (content : Str) : Option Str :=
  match splitFirst DIFF_MATCH_PRE content with
  | none => none
  | some (_, rest) =>
    match splitFirst DIFF_MATCH_POST rest with
    | none => none
    | some (cap, _) => some cap

/-- Models one pass of the `while (iterations < maxIterations)` truncation
loop (lines 198-250): `fuel` plays the role of
`maxIterations - iterations`. -/
def truncationIterate (systemTokens : Nat) (availableTokens : Int)
    (effectiveMaxTokens maxTokensInput : Int) (messages : List ChatMessage)
    (userMessageIndex : Nat) (userMessage : ChatMessage) :
    Nat → Str → Except Str Str
  | 0, truncatedUserContent => .ok truncatedUserContent
  | fuel + 1, truncatedUserContent =>
    let truncatedMessages :=
      messages.set userMessageIndex { userMessage with content := truncatedUserContent }
    let currentTotalTokens := calculateTotalTokens truncatedMessages
    if (currentTotalTokens : Int) ≤ effectiveMaxTokens ∧
        (currentTotalTokens : Int) ≤ maxTokensInput then
      .ok truncatedUserContent
    else
      let overage := (currentTotalTokens : Int) - effectiveMaxTokens
      let currentUserTokens := tokenCount truncatedUserContent + 4
      let newUserTokenLimit := max 0 ((currentUserTokens : Int) - overage - 50)
      if newUserTokenLimit ≤ 0 then
        .error ("Request too large: cannot truncate further. System prompt uses ".toList ++
          natToStr systemTokens ++ " tokens, leaving only ".toList ++
          intToStr availableTokens ++ " tokens for diff, but need ".toList ++
          natToStr currentUserTokens ++
          " tokens. Please increase ACP_TOKENS_MAX_INPUT or reduce the diff size.".toList)
      else
        match diffMatch truncatedUserContent with
        | some originalDiff =>
          if originalDiff ≠ [] then
            let promptWithoutDiff := jsReplaceFirst originalDiff [] truncatedUserContent
            let promptWrapperTokens := tokenCount promptWithoutDiff
            let diffAvailableTokens :=
              max 0 (newUserTokenLimit - promptWrapperTokens - 20)
            let truncatedDiff := truncateDiffByTokens originalDiff diffAvailableTokens
            truncationIterate systemTokens availableTokens effectiveMaxTokens
              maxTokensInput messages userMessageIndex userMessage fuel
              (jsReplaceFirst originalDiff truncatedDiff truncatedUserContent)
          else
            truncationIterate systemTokens availableTokens effectiveMaxTokens
              maxTokensInput messages userMessageIndex userMessage fuel
              (truncateDiffByTokens truncatedUserContent newUserTokenLimit)
        | none =>
          truncationIterate systemTokens availableTokens effectiveMaxTokens
            maxTokensInput messages userMessageIndex userMessage fuel
            (truncateDiffByTokens truncatedUserContent newUserTokenLimit)

/-- Models `validateAndTruncateMessages` (lines 136-285); a thrown `Error`
becomes `Except.error` carrying the message text. -/
def validateAndTruncateMessages (messages : List ChatMessage)
    (maxTokensInput : Int) : Except Str (List ChatMessage) :=
  let effectiveMaxTokens := maxTokensInput - 100
  let totalTokens := calculateTotalTokens messages
  if (totalTokens : Int) ≤ effectiveMaxTokens then .ok messages
  else
    match messages.findIdx? (fun m => m.role == "user".toList) with
    | none =>
      if maxTokensInput < (totalTokens : Int) then
        .error ("Request too large: ".toList ++ natToStr totalTokens ++
          " tokens exceeds limit of ".toList ++ intToStr maxTokensInput ++
          " tokens".toList)
      else .ok messages
    | some userMessageIndex =>
      let systemMessages :=
        ((messages.enum.filter (fun p => p.1 != userMessageIndex)).map Prod.snd)
      let systemTokens := calculateTotalTokens systemMessages
      if effectiveMaxTokens < (systemTokens : Int) then
        .error ("Request too large: system prompt (".toList ++
          natToStr systemTokens ++ " tokens) exceeds available limit (".toList ++
          intToStr maxTokensInput ++ " tokens)".toList)
      else
        let userMessage := messages.getD userMessageIndex ⟨[], []⟩
        let availableTokens := effectiveMaxTokens - systemTokens
        if availableTokens ≤ 0 then
          .error
            "Request too large: no tokens available for diff content after system prompt".toList
        else
          match truncationIterate systemTokens availableTokens effectiveMaxTokens
              maxTokensInput messages userMessageIndex userMessage 5
              userMessage.content with
          | .error e => .error e
          | .ok truncatedUserContent =>
            let truncatedMessages :=
              messages.set userMessageIndex
                { userMessage with content := truncatedUserContent }
            let finalTotalTokens := calculateTotalTokens truncatedMessages
            if maxTokensInput < (finalTotalTokens : Int) then
              let overage := (finalTotalTokens : Int) - effectiveMaxTokens
              let currentUserContentTokens := tokenCount truncatedUserContent
              let finalUserContentTokenLimit :=
                max 0 ((currentUserContentTokens : Int) - overage - 100)
              let truncatedUserContent2 :=
                truncateDiffByBinarySearch truncatedUserContent
                  finalUserContentTokenLimit.toNat
              let truncatedMessages2 :=
                messages.set userMessageIndex
                  { userMessage with content := truncatedUserContent2 }
              let veryFinalTotalTokens := calculateTotalTokens truncatedMessages2
              if maxTokensInput < (veryFinalTotalTokens : Int) then
                .error ("Request too large: After aggressive truncation, still ".toList ++
                  natToStr veryFinalTotalTokens ++ " tokens (limit: ".toList ++
                  intToStr maxTokensInput ++ "). System prompt uses ".toList ++
                  natToStr systemTokens ++
                  " tokens. Please increase ACP_TOKENS_MAX_INPUT.".toList)
              else .ok truncatedMessages2
            else .ok truncatedMessages

/-- The budget/error contract of the message validator: a returned array
stays within the ceiling, a thrown error begins with `Request too large`. -/
def ValidateOK (maxTokensInput : Int) : Except Str (List ChatMessage) → Prop
  | .ok out => ((calculateTotalTokens out : Nat) : Int) ≤ maxTokensInput
  | .error e => isPre "Request too large".toList e = true

/-- The claim's total-token formula: content tokens plus 4 for *every*
message.  Stated from the claim's words, for comparison with the code's
`calculateTotalTokens`, which skips the +4 overhead for empty content. -/
def claimTotalTokens (msgs : List ChatMessage) : Nat :=
  msgs.foldl (fun total msg => total + (tokenCount msg.content + 4)) 0

/-- Per-file diff record of `src/utils/batchCommit.ts`. -/
structure FileDiff where
  filePath : Str
  diff : Str
  size : Nat
deriving DecidableEq

/-- Named group of file diffs of `src/utils/batchCommit.ts`. -/
structure FileGroup where
  id : Str
  name : Str
  description : Option Str
  files : List FileDiff
  totalSize : Nat
deriving DecidableEq

instance decRelSizeAsc :
    DecidableRel (fun (a b : FileGroup) => a.totalSize ≤ b.totalSize) :=
  fun _ _ => Nat.decLe _ _

instance decRelSizeDesc :
    DecidableRel (fun (a b : FileGroup) => b.totalSize ≤ a.totalSize) :=
  fun _ _ => Nat.decLe _ _

/-- Models `groups.sort((a, b) => a.totalSize - b.totalSize)`: JS `sort` is
stable, and a stable sort by a total key is exactly insertion sort with the
non-strict comparison. -/
def sortBySizeAsc (groups : List FileGroup) : List FileGroup :=
  List.insertionSort (fun a b => a.totalSize ≤ b.totalSize) groups

/-- Models `groups.sort((a, b) => b.totalSize - a.totalSize)`. -/
def sortBySizeDesc (groups : List FileGroup) : List FileGroup :=
  List.insertionSort (fun a b => b.totalSize ≤ a.totalSize) groups

/-- Models `description || name`: JS `||` falls back on an absent or empty
description. -/
def descOrName (g : FileGroup) : Str :=
  match g.description with
  | some d => if d = [] then g.name else d
  | none => g.name

/-- Models the merged group literal of lines 169-175.  The source id is
`merged-${Date.now()}`; the timestamp is an external input no claim depends
on, modelled as the constant suffix `t`. -/
def mkMergedGroup (smallest second : FileGroup) : FileGroup :=
  { id := "merged-t".toList
    name := smallest.name ++ " + ".toList ++ second.name
    description := some ("Merged: ".toList ++ descOrName smallest ++ " and ".toList ++
      descOrName second)
    files := smallest.files ++ second.files
    totalSize := smallest.totalSize + second.totalSize }

/-- One pass of the merge-path loop body (lines 165-177): sort ascending by
size, replace the two smallest groups by their merge. -/
def mergeIteration (groups : List FileGroup) : List FileGroup :=
  match sortBySizeAsc groups with
  | smallest :: second :: rest => mkMergedGroup smallest second :: rest
  | other => other

/-- Fuel-driven worker for the merge loop: each pass removes one group, so
fuel `groups.length` never runs out and the zero-fuel branch is
unreachable. -/
def mergeLoopAux (commitCount : Nat) : Nat → List FileGroup → List FileGroup
  | 0, groups => groups
  | fuel + 1, groups =>
    if commitCount < groups.length ∧ 1 < groups.length then
      mergeLoopAux commitCount fuel (mergeIteration groups)
    else groups

/-- Models the `while (groups.length > commitCount && groups.length > 1)`
merge loop. -/
def mergeLoopGroups (commitCount : Nat) (groups : List FileGroup) : List FileGroup :=
  mergeLoopAux commitCount groups.length groups

/-- First half of a split group (lines 186-196). -/
def splitPart1 (largest : FileGroup) : FileGroup :=
  { id := largest.id ++ "-1".toList
    name := largest.name ++ " (part 1)".toList
    description := largest.description
    files := largest.files.take (largest.files.length / 2)
    totalSize := (largest.files.take (largest.files.length / 2)).foldl
      (fun sum f => sum + f.size) 0 }

/-- Second half of a split group (lines 198-204). -/
def splitPart2 (largest : FileGroup) : FileGroup :=
  { id := largest.id ++ "-2".toList
    name := largest.name ++ " (part 2)".toList
    description := largest.description
    files := largest.files.drop (largest.files.length / 2)
    totalSize := (largest.files.drop (largest.files.length / 2)).foldl
      (fun sum f => sum + f.size) 0 }

/-- Fuel-driven worker for the split loop, including the `break` when the
largest group is a singleton: each pass adds one group, so fuel
`commitCount - groups.length` never runs out and the zero-fuel branch is
unreachable. -/
def splitLoopAux (commitCount : Nat) : Nat → List FileGroup → List FileGroup
  | 0, groups => groups
  | fuel + 1, groups =>
    if groups.length < commitCount ∧ 0 < groups.length then
      match sortBySizeDesc groups with
      | largest :: rest =>
        if largest.files.length ≤ 1 then largest :: rest
        else
          splitLoopAux commitCount fuel (splitPart1 largest :: rest ++ [splitPart2 largest])
      | [] => []
    else groups

/-- Models the `while (groups.length < commitCount && groups.length > 0)`
split loop. -/
def splitLoopGroups (commitCount : Nat) (groups : List FileGroup) : List FileGroup :=
  splitLoopAux commitCount (commitCount - groups.length) groups

/-- Models the group-count adjustment of the batch command (lines 160-207):
merge down or split up to the target count. -/
def adjustGroupCount (commitCount : Nat) (groups : List FileGroup) : List FileGroup :=
  if groups.length ≠ commitCount then
    if commitCount < groups.length then mergeLoopGroups commitCount groups
    else if groups.length < commitCount then splitLoopGroups commitCount groups
    else groups
  else groups

/-- The combined multiset of file paths across a list of groups. -/
def allPaths : List FileGroup → Multiset Str
  | [] => 0
  | g :: gs => (↑(g.files.map (fun f => f.filePath)) : Multiset Str) + allPaths gs

instance : IsTotal FileGroup (fun a b => b.totalSize ≤ a.totalSize) :=
  ⟨fun a b => le_total b.totalSize a.totalSize⟩

instance : IsTrans FileGroup (fun a b => b.totalSize ≤ a.totalSize) :=
  ⟨fun _ _ _ hab hbc => le_trans hbc hab⟩

/-- A sample file diff for concrete grouping checks. -/
def exF (p : String) (n : Nat) : FileDiff := ⟨p.toList, p.toList, n⟩

/-- A singleton group of total size 100. -/
def exG1 : FileGroup := ⟨"g1".toList, "g1".toList, none, [exF "a" 100], 100⟩

/-- A two-file group of total size 0. -/
def exG2 : FileGroup := ⟨"g2".toList, "g2".toList, none, [exF "b" 0, exF "c" 0], 0⟩

/-- A two-file group of total size 10. -/
def exG3 : FileGroup := ⟨"g3".toList, "g3".toList, none, [exF "d" 5, exF "e" 5], 10⟩

/-- Scanner for the lazy group pair of the header regex
`/^diff --git a\/(.+?) b\/(.+?)$/` after the literal prefix: find the first
position ≥ 1 where ` b/` occurs with a non-empty remainder, and return that
remainder (the second capture).  `seen` records whether at least one
character precedes the current position (the first group must be
non-empty). -/
def bSplit (seen : Bool) : Str → Option Str
  | [] => none
  | c :: cs =>
    if seen ∧ c = ' ' ∧ cs.take 2 = ['b', '/'] ∧ cs.drop 2 ≠ [] then some (cs.drop 2)
    else bSplit true cs

/-- Models `headerLine.match(/^diff --git a\/(.+?) b\/(.+?)$/)` returning the
second capture group (the `b` path). -/
def parseBPath (headerLine : Str) : Option Str :=
  if isPre "diff --git a/".toList headerLine then
    bSplit false (headerLine.drop 13)
  else none

/-- Models the path validation of `splitDiffByFiles` (lines 94-101):
`true` means the path is accepted. -/
def validatePath (filePath : Str) : Bool :=
  !(filePath.contains '\n' ||
    decide (500 < filePath.length) ||
    decide (filePath.length = 0) ||
    isPre "a/".toList filePath ||
    (containsSeq ['$', '\x7b'] filePath || filePath.contains '\x60') ||
    (containsSeq "content".toList filePath && decide (filePath.length < 20)) ||
    (decide (filePath ≠ []) && filePath.all (fun c => c.isDigit || c.isWhitespace)))

/-- Models the `fileMap` update (lines 110-122): merge a duplicate path by
appending the new full diff after a newline and recomputing the size,
otherwise append a fresh record (JS `Map` preserves insertion order, modelled
as an ordered association list). -/
def insertFile (fileMap : List FileDiff) (filePath fullDiff : Str) : List FileDiff :=
  if fileMap.any (fun fd => fd.filePath == filePath) then
    fileMap.map (fun fd =>
      if fd.filePath == filePath then
        { fd with diff := fd.diff ++ '\n' :: fullDiff,
                  size := (fd.diff ++ '\n' :: fullDiff).length }
      else fd)
  else fileMap ++ [⟨filePath, fullDiff, fullDiff.length⟩]

/-- Models the loop body of `splitDiffByFiles` for one chunk (lines 78-125).
`validFileSet` models the changed-file list obtained from the external git
collaborator: `none` when git reported nothing (e.g. in tests), `some`
otherwise. -/
def processChunk (validFileSet : Option (List Str)) (fileMap : List FileDiff)
    (chunk : Str) : List FileDiff :=
  let fullDiff := DIFF_SEP ++ chunk
  let firstNewline := jsIndexOf chunk '\n'
  if 0 < firstNewline then
    let headerLine := DIFF_SEP ++ chunk.take firstNewline.toNat
    match parseBPath headerLine with
    | some raw =>
      let filePath := jsTrim raw
      if validatePath filePath then
        match validFileSet with
        | some vs =>
          if vs.contains filePath then insertFile fileMap filePath fullDiff else fileMap
        | none => insertFile fileMap filePath fullDiff
      else fileMap
    | none => fileMap
  else fileMap

/-- Models `splitDiffByFiles` (lines 62-128). -/
def splitDiffByFiles (validFileSet : Option (List Str)) (diff : Str) : List FileDiff :=
  if jsTrim diff = [] then []
  else ((jsSplit DIFF_SEP diff).drop 1).foldl (processChunk validFileSet) []

/-- The part of a file header after the introducer: `a/<p> b/<p>`. -/
def headerOf (p : Str) : Str := 'a' :: '/' :: (p ++ ' ' :: 'b' :: '/' :: p)

/-- The chunk text of one section as seen after splitting: header tail,
newline, body. -/
def chunkTail (p b : Str) : Str := headerOf p ++ '\n' :: b

/-- A full per-file diff section: `diff --git a/<p> b/<p>\n<body>`. -/
def sectionOf (p b : Str) : Str := DIFF_SEP ++ chunkTail p b

/-- A diff built from a list of (path, body) sections. -/
def buildDiff (sections : List (Str × Str)) : Str :=
  (sections.map (fun sec => sectionOf sec.1 sec.2)).join

/-- A path usable in a constructed header: non-empty, whitespace-free (so the
header parses unambiguously) and accepted by the code's validation. -/
def PathOK (p : Str) : Prop :=
  p ≠ [] ∧ (∀ c ∈ p, c.isWhitespace = false) ∧ validatePath p = true

/-- A body that does not contain the header introducer, so it cannot spawn
spurious chunks. -/
def BodyOK (b : Str) : Prop := ∀ s ∈ b.tails, isPre DIFF_SEP s = false

/-- A well-formed section. -/
def SectionOK (sec : Str × Str) : Prop := PathOK sec.1 ∧ BodyOK sec.2

instance : DecidablePred PathOK := fun p => by
  unfold PathOK
  infer_instance

instance : DecidablePred BodyOK := fun b => by
  unfold BodyOK
  infer_instance

instance : DecidablePred SectionOK := fun sec => by
  unfold SectionOK
  infer_instance

/-- The record `splitDiffByFiles` produces for a fresh section. -/
def chunkRecord (sec : Str × Str) : FileDiff :=
  ⟨sec.1, sectionOf sec.1 sec.2, (sectionOf sec.1 sec.2).length⟩

/-- Modelled from the spec (section 4.1), for comparison with the code's
`validatePath`: the spec's validation rejects a path that contains a line
break, contains template/interpolation characters, has length ≥ 500 or
length 0, starts with `a/`, or is all digits and whitespace — it does not
list the code's `content` rule. -/
def specValidatePath (p : Str) : Bool :=
  !(p.contains '\n' ||
    decide (500 ≤ p.length) ||
    decide (p.length = 0) ||
    isPre "a/".toList p ||
    (containsSeq ['$', '\x7b'] p || p.contains '\x60') ||
    (decide (p ≠ []) && p.all (fun c => c.isDigit || c.isWhitespace)))

/-- Models `MAX_LINES_PER_FILE` (line 4). -/
def MAX_LINES_PER_FILE : Nat := 500

/-- Models `MAX_CONTEXT_LINES` (line 9). -/
def MAX_CONTEXT_LINES : Nat := 50

/-- Models the ubiquitous `diff.split('\n')`. -/
def splitLines (s : Str) : List Str := jsSplit ['\n'] s

/-- Models `lines.join('\n')`. -/
def joinLines : List Str → Str := joinWith ['\n']

/-- The header predicate of `truncateFileDiff` (lines 22-24): a line starting
with `@@`, `---` or `+++`. -/
def isHeaderLine (line : Str) : Bool :=
  isPre "@@".toList line || isPre "---".toList line || isPre "+++".toList line

/-- The template literal of line 39; note its leading `\n`, which survives the
subsequent `join('\n')`. -/
def truncMarker (removedCount : Nat) : Str :=
  "\n... (".toList ++ natToStr removedCount ++
    " more lines truncated to reduce token usage) ...".toList

/-- Models `truncateFileDiff` (lines 14-43).  `headerEndIndex` is the JS
`findIndex` result (`-1` when absent), and `slice(0, i+1)` / `slice(i+1)`
become `take`/`drop`. -/
def truncateFileDiff (fileDiff : Str) : Str :=
  let lines := splitLines fileDiff
  if lines.length ≤ MAX_LINES_PER_FILE then fileDiff
  else
    let headerEndIndex : Int :=
      match lines.findIdx? isHeaderLine with
      | some i => (i : Int)
      | none => -1
    let headerLines := if 0 ≤ headerEndIndex then lines.take (headerEndIndex + 1).toNat else []
    let contentLines := lines.drop (headerEndIndex + 1).toNat
    if contentLines.length ≤ MAX_LINES_PER_FILE then fileDiff
    else
      let keptLines := contentLines.take MAX_LINES_PER_FILE
      let removedCount := contentLines.length - MAX_LINES_PER_FILE
      joinLines (headerLines ++ keptLines ++ [truncMarker removedCount])

/-- The summary line of `summarizeContextLines` (lines 71 and 86):
`keepCount = Math.floor(MAX_CONTEXT_LINES / 2)` and the count shown is
`contextLines.length - keepCount * 2`. -/
def ctxMarker (len : Nat) : Str :=
  "... (".toList ++ natToStr (len - (MAX_CONTEXT_LINES / 2) * 2) ++ " context lines) ...".toList

/-- The flush of an accumulated context block (lines 67-75 and 82-91): blocks
over `MAX_CONTEXT_LINES` keep the first and last `keepCount` lines around a
summary line (`slice(-keepCount)` keeps the last `keepCount`). -/
def flushContext (ctx : List Str) : List Str :=
  if MAX_CONTEXT_LINES < ctx.length then
    ctx.take (MAX_CONTEXT_LINES / 2) ++ [ctxMarker ctx.length] ++
      ctx.drop (ctx.length - MAX_CONTEXT_LINES / 2)
  else ctx

/-- One iteration of the `summarizeContextLines` loop (lines 53-79), on the
state (result, contextLines).  A context line (starts with a space, not with
`@@`) is buffered; any other line first flushes the buffer. -/
def summarizeStep (st : List Str × List Str) (line : Str) : List Str × List Str :=
  if isPre [' '] line && !(isPre "@@".toList line) then
    (st.1, st.2 ++ [line])
  else
    (st.1 ++ flushContext st.2 ++ [line], [])

/-- Models `summarizeContextLines` (lines 48-94): run the loop, flush what
remains, join. -/
def summarizeContextLines (diff : Str) : Str :=
  let st := (splitLines diff).foldl summarizeStep ([], [])
  joinLines (st.1 ++ flushContext st.2)

/-- The filter predicate of `removeBinaryIndicators` (lines 102-106): the
trimmed line starts with `Binary files` and ends with `differ`. -/
def isBinaryIndicator (line : Str) : Bool :=
  let trimmed := jsTrim line
  isPre "Binary files".toList trimmed && isPre "differ".toList.reverse trimmed.reverse

/-- Models `removeBinaryIndicators` (lines 99-108). -/
def removeBinaryIndicators (diff : Str) : Str :=
  joinLines ((splitLines diff).filter (fun line => !(isBinaryIndicator line)))

/-- The summary line of `compressWhitespaceChanges` (lines 127 and 137). -/
def wsMarker (len : Nat) : Str :=
  "... (".toList ++ natToStr len ++ " whitespace-only lines) ...".toList

/-- The predicate of lines 119-120: a `+`/`-` line whose remainder trims to
nothing. -/
def isWhitespaceOnly (line : Str) : Bool :=
  (isPre ['+'] line || isPre ['-'] line) && (jsTrim (line.drop 1)).length = 0

/-- The flush of a whitespace-only block (lines 125-131 and 136-140): blocks
longer than 5 collapse to a summary line. -/
def flushWs (block : List Str) : List Str :=
  if 5 < block.length then [wsMarker block.length] else block

/-- One iteration of the `compressWhitespaceChanges` loop (lines 118-134). -/
def compressStep (st : List Str × List Str) (line : Str) : List Str × List Str :=
  if isWhitespaceOnly line then (st.1, st.2 ++ [line])
  else (st.1 ++ flushWs st.2 ++ [line], [])

/-- Models `compressWhitespaceChanges` (lines 113-143). -/
def compressWhitespaceChanges (diff : Str) : Str :=
  let st := (splitLines diff).foldl compressStep ([], [])
  joinLines (st.1 ++ flushWs st.2)

/-- The four-stage pipeline applied by `optimizeDiff` to a chunk (lines
165-168 and 180-183), in source order. -/
def optimizePipeline (d : Str) : Str :=
  compressWhitespaceChanges (summarizeContextLines (truncateFileDiff (removeBinaryIndicators d)))

/-- One iteration of the per-chunk loop of `optimizeDiff` (lines 175-198):
chunks over 2000 characters run the full pipeline, smaller ones only drop
binary indicators; a chunk that trims down to the bare separator is dropped,
otherwise its first `diff --git ` occurrence is removed before pushing. -/
def optimizeChunkStep (acc : List Str) (chunk : Str) : List Str :=
  let fileDiff := DIFF_SEP ++ chunk
  if 2000 < fileDiff.length then
    let optimized := optimizePipeline fileDiff
    if jsTrim optimized = jsTrim DIFF_SEP then acc
    else acc ++ [jsReplaceFirst DIFF_SEP [] optimized]
  else
    let optimized := removeBinaryIndicators fileDiff
    if jsTrim optimized ≠ jsTrim DIFF_SEP then acc ++ [jsReplaceFirst DIFF_SEP [] optimized]
    else acc

/-- Models `optimizeDiff` (lines 149-201): empty or blank diffs and diffs
under 5000 characters pass through; a diff with no `diff --git ` separator is
piped whole; otherwise the first chunk is kept and the rest are processed
per-chunk and re-joined with the separator. -/
def optimizeDiff (diff : Str) : Str :=
  if diff = [] ∨ (jsTrim diff).length = 0 then diff
  else if diff.length < 5000 then diff
  else
    let chunks := jsSplit DIFF_SEP diff
    if chunks.length ≤ 1 then optimizePipeline diff
    else joinWith DIFF_SEP (chunks.tail.foldl optimizeChunkStep [chunks.headD []])

/-- The common prefix `... (` of every summary line the optimiser inserts
(`truncMarker` after its leading newline, `ctxMarker`, `wsMarker`). -/
def SUMMARY_PRE : Str := "... (".toList

/-- An element safe to `join('\n')` without disturbing the line analysis: a
line of the source, or a newline-free summary line. -/
def JoinEl (src l : Str) : Prop :=
  l ∈ splitLines src ∨ (isPre SUMMARY_PRE l = true ∧ '\n' ∉ l)

/-- The per-line guarantee of the optimiser: a line of the source diff, a
summary line, or an empty line. -/
def OptLineOK (diff line : Str) : Prop :=
  line ∈ splitLines diff ∨ isPre SUMMARY_PRE line = true ∨ line = []

/-- Shape of a processed chunk as pushed by the per-chunk loop: its first
line re-prefixed with `diff --git ` is a line of the source diff and every
later line satisfies the per-line guarantee. -/
def OutLast (diff b : Str) : Prop :=
  ∃ f U, splitLines b = f :: U ∧ (DIFF_SEP ++ f) ∈ splitLines diff ∧
    ∀ u ∈ U, OptLineOK diff u

/-- Shape of a processed non-final chunk: as `OutLast`, and additionally the
last line is empty (the chunk still ends with a newline) or a summary
line — the two shapes that keep the rejoin boundaries safe. -/
def OutMid (diff b : Str) : Prop :=
  ∃ f U ul, splitLines b = f :: U ++ [ul] ∧ (DIFF_SEP ++ f) ∈ splitLines diff ∧
    (∀ u ∈ U, OptLineOK diff u) ∧ (ul = [] ∨ isPre SUMMARY_PRE ul = true)

/-- A header line for the oversized synthetic diff below. -/
def artifactHeader : Str := "@@ -1 +1 @@".toList

/-- The repeated addition line of the synthetic diff. -/
def artifactLine : Str := "+aaaaaaaaa".toList

/-- The visible text of the truncation marker for one removed line, i.e.
`truncMarker 1` after its leading newline. -/
def artifactMarkerLine : Str :=
  "... (1 more lines truncated to reduce token usage) ...".toList

/-- A 5522-character diff with 502 newline-free lines: a single `@@` header
followed by 501 identical 10-character addition lines. -/
def artifactDiff : Str :=
  artifactHeader ++ (List.replicate 501 ('\n' :: artifactLine)).flatten

/-- The head of a synthetic diff whose second and third `diff --git `
separator occurrences sit mid-line (after `differ` and after `+y`). -/
def spliceFront : Str :=
  "diff --git a/f b/f\n+x\nBinary files q differdiff --git a/g b/g\n+ydiff --git a/h b/h".toList

/-- 450 addition lines of padding (4950 characters). -/
def splicePad : Str := (List.replicate 450 ('\n' :: artifactLine)).flatten

/-- A 5032-character diff with mid-line `diff --git ` occurrences: the head
above padded with 450 addition lines so the size guards do not fire. -/
def spliceDiff : Str := spliceFront ++ splicePad

/-- First chunk of `spliceDiff`: ends in a `Binary files ... differ`
fragment cut short by the mid-line separator. -/
def spliceC1 : Str := "a/f b/f\n+x\nBinary files q differ".toList

/-- Second chunk of `spliceDiff`. -/
def spliceC2 : Str := "a/g b/g\n+y".toList

/-- Third chunk of `spliceDiff`: the header fragment plus the padding. -/
def spliceC3 : Str := "a/h b/h".toList ++ splicePad

/-- The spliced line `optimizeDiff` produces at the first rejoin boundary of
`spliceDiff`: the kept `+x` fragment fused with the next chunk's header. -/
def spliceLine : Str := "+xdiff --git a/g b/g".toList

/-! ## Theorems -/

theorem isPre_iff {p l : Str} : isPre p l = true ↔ ∃ t, l = p ++ t := by
  induction p generalizing l with
  | nil => simp [isPre]
  | cons a as ih =>
    cases l with
    | nil => simp [isPre]
    | cons b bs =>
      simp only [isPre, Bool.and_eq_true, decide_eq_true_eq, ih, List.cons_append]
      constructor
      · rintro ⟨rfl, t, rfl⟩; exact ⟨t, rfl⟩
      · rintro ⟨t, ht⟩
        injection ht with h1 h2
        exact ⟨h1.symm, t, h2⟩

theorem splitFirst_eq_append {sep l b a : Str} (h : splitFirst sep l = some (b, a)) :
    l = b ++ sep ++ a := by
  induction l generalizing b with
  | nil =>
    by_cases hs : sep = ([] : Str) <;> simp [splitFirst, hs] at h
    obtain ⟨hb, ha⟩ := h
    subst hb; subst ha
    simp [hs]
  | cons c cs ih =>
    rw [splitFirst] at h
    by_cases hp : isPre sep (c :: cs)
    · simp only [hp, if_pos] at h
      obtain ⟨t, ht⟩ := isPre_iff.mp hp
      injection h with h'
      injection h' with hb ha
      subst hb
      rw [ht, List.drop_left] at ha
      rw [ht, ← ha]
      simp
    · simp only [hp, if_neg, Bool.false_eq_true, not_false_iff, Option.map_eq_some'] at h
      obtain ⟨⟨b', a'⟩, hsp, hba⟩ := h
      simp only [Prod.mk.injEq] at hba
      obtain ⟨hb, ha⟩ := hba
      subst hb; subst ha
      have := ih hsp
      simp [this]

theorem splitFirst_length_lt {sep l b a : Str} (hsep : sep ≠ [])
    (h : splitFirst sep l = some (b, a)) : a.length < l.length := by
  have := splitFirst_eq_append h
  subst this
  have : 0 < sep.length := List.length_pos.mpr hsep
  simp [List.length_append]
  omega

theorem jsSplitAux_nil {sep : Str} (hsep : sep ≠ []) :
    ∀ f : Nat, jsSplitAux sep f ([] : Str) = [[]] := by
  intro f
  cases f with
  | zero => rfl
  | succ m =>
    rw [jsSplitAux]
    simp [splitFirst, hsep]

theorem jsSplitAux_fuel {sep : Str} (hsep : sep ≠ []) :
    ∀ (f₁ f₂ : Nat) (l : Str), l.length ≤ f₁ → l.length ≤ f₂ →
      jsSplitAux sep f₁ l = jsSplitAux sep f₂ l := by
  intro f₁
  induction f₁ with
  | zero =>
    intro f₂ l h1 h2
    have hl : l = [] := List.length_eq_zero.mp (by omega)
    subst hl
    rw [jsSplitAux_nil hsep, jsSplitAux_nil hsep]
  | succ n ih =>
    intro f₂ l h1 h2
    cases f₂ with
    | zero =>
      have hl : l = [] := List.length_eq_zero.mp (by omega)
      subst hl
      rw [jsSplitAux_nil hsep, jsSplitAux_nil hsep]
    | succ m =>
      rw [jsSplitAux, jsSplitAux]
      cases hsp : splitFirst sep l with
      | none => rfl
      | some p =>
        obtain ⟨b, a⟩ := p
        have := splitFirst_length_lt hsep hsp
        show b :: jsSplitAux sep n a = b :: jsSplitAux sep m a
        rw [ih m a (by omega) (by omega)]

theorem jsSplit_of_splitFirst {sep l b a : Str} (hsep : sep ≠ [])
    (h : splitFirst sep l = some (b, a)) : jsSplit sep l = b :: jsSplit sep a := by
  have hlt := splitFirst_length_lt hsep h
  rw [jsSplit, jsSplit]
  obtain ⟨n, hn⟩ : ∃ n, l.length = n + 1 := ⟨l.length - 1, by omega⟩
  rw [hn, jsSplitAux, h]
  show b :: jsSplitAux sep n a = b :: jsSplitAux sep a.length a
  rw [jsSplitAux_fuel hsep n a.length a (by omega) le_rfl]

theorem jsSplit_of_none {sep l : Str} (h : splitFirst sep l = none) :
    jsSplit sep l = [l] := by
  rw [jsSplit]
  cases hl : l.length with
  | zero => rfl
  | succ n => rw [jsSplitAux, h]

theorem joinNL_append_one (ps : List Str) (d : Str) :
    joinNL (ps ++ [d]) = joinNL ps ++ (if joinNL ps ≠ [] then '\n' :: d else d) := by
  simp [joinNL, List.foldl_append]

theorem joinNL_nil : joinNL [] = [] := rfl

theorem joinNL_single (d : Str) : joinNL [d] = d := by
  simp [joinNL]

theorem joinNL_ne_nil {ps : List Str} (h0 : ps ≠ []) (h : ∀ p ∈ ps, p ≠ []) :
    joinNL ps ≠ [] := by
  obtain ⟨ps', d, rfl⟩ : ∃ ps' d, ps = ps' ++ [d] :=
    ⟨ps.dropLast, ps.getLast h0, (List.dropLast_append_getLast h0).symm⟩
  rw [joinNL_append_one]
  intro hnil
  rcases List.append_eq_nil.mp hnil with ⟨h1, h2⟩
  by_cases hj : joinNL ps' ≠ []
  · exact hj h1
  · rw [if_neg hj] at h2
    exact h d (by simp) h2

theorem mergeDiffsLoop_groups (enc : Option (Str → Nat)) (maxT : Int) :
    ∀ (todo : List Str) (mg : List (List Str)) (cg : List Str),
      (∀ d ∈ todo, d ≠ []) →
      (∀ p ∈ cg, p ≠ []) →
      (cg ≠ [] → GroupOK enc maxT cg) →
      ∃ groups : List (List Str),
        groups.flatten = cg ++ todo ∧
        mergeDiffsLoop enc maxT todo (mg.map joinNL) (joinNL cg)
            ((cg.map (perDiffTokens enc)).sum) =
          (mg ++ groups).map joinNL ∧
        ∀ g ∈ groups, GroupOK enc maxT g := by
  intro todo
  induction todo with
  | nil =>
    intro mg cg _ hps hgok
    by_cases hcg : cg = []
    · subst hcg
      refine ⟨[], by simp, ?_, by simp⟩
      rw [mergeDiffsLoop, if_neg (by rw [joinNL_nil]; simp)]
      simp
    · refine ⟨[cg], by simp, ?_, ?_⟩
      · rw [mergeDiffsLoop, if_pos (joinNL_ne_nil hcg hps)]
        simp
      · intro g hg
        rw [List.mem_singleton.mp hg]
        exact hgok hcg
  | cons d rest ih =>
    intro mg cg htodo hps hgok
    have hd : d ≠ [] := htodo d (List.mem_cons_self _ _)
    have hrest : ∀ x ∈ rest, x ≠ [] := fun x hx => htodo x (List.mem_cons_of_mem _ hx)
    rw [mergeDiffsLoop]
    by_cases hle :
        (((cg.map (perDiffTokens enc)).sum + perDiffTokens enc d : Nat) : Int) ≤ maxT
    · rw [if_pos hle, ← joinNL_append_one]
      have hsum' : (cg.map (perDiffTokens enc)).sum + perDiffTokens enc d =
          (((cg ++ [d]).map (perDiffTokens enc)).sum) := by
        simp
      rw [hsum']
      obtain ⟨groups, hflat, heq, hgood⟩ := ih mg (cg ++ [d]) hrest
        (by
          intro p hp
          rcases List.mem_append.mp hp with h' | h'
          · exact hps p h'
          · rw [List.mem_singleton.mp h']
            exact hd)
        (fun _ => ⟨by simp, Or.inl (by rw [← hsum']; exact hle)⟩)
      exact ⟨groups, by rw [hflat]; simp, heq, hgood⟩
    · rw [if_neg hle]
      by_cases hcg : cg = []
      · subst hcg
        rw [if_neg (by rw [joinNL_nil]; simp)]
        obtain ⟨groups, hflat, heq, hgood⟩ := ih mg [d] hrest
          (by
            intro p hp
            rw [List.mem_singleton.mp hp]
            exact hd)
          (fun _ => ⟨by simp, by
            rcases le_or_lt ((perDiffTokens enc d : Nat) : Int) maxT with h | h
            · exact Or.inl (by simpa using h)
            · exact Or.inr ⟨d, rfl, h⟩⟩)
        rw [joinNL_single] at heq
        have hs : (([d] : List Str).map (perDiffTokens enc)).sum = perDiffTokens enc d := by
          simp
        rw [hs] at heq
        exact ⟨groups, by simpa using hflat, heq, hgood⟩
      · rw [if_pos (joinNL_ne_nil hcg hps)]
        have hm' : (mg.map joinNL) ++ [joinNL cg] = ((mg ++ [cg]).map joinNL) := by
          simp
        rw [hm']
        obtain ⟨groups, hflat, heq, hgood⟩ := ih (mg ++ [cg]) [d] hrest
          (by
            intro p hp
            rw [List.mem_singleton.mp hp]
            exact hd)
          (fun _ => ⟨by simp, by
            rcases le_or_lt ((perDiffTokens enc d : Nat) : Int) maxT with h | h
            · exact Or.inl (by simpa using h)
            · exact Or.inr ⟨d, rfl, h⟩⟩)
        rw [joinNL_single] at heq
        have hs : (([d] : List Str).map (perDiffTokens enc)).sum = perDiffTokens enc d := by
          simp
        rw [hs] at heq
        refine ⟨cg :: groups, ?_, ?_, ?_⟩
        · rw [List.flatten_cons, hflat]
          simp
        · rw [heq]
          simp
        · intro g hg
          rcases List.mem_cons.mp hg with rfl | hg'
          · exact hgok hcg
          · exact hgood g hg'

/-- C1: the claim as stated is false.  With the maximum set to 2 tokens and
two four-character diffs of 1 estimated token each, `mergeDiffs` joins them
with a newline it never accounts for: the emitted chunk has an exact token
count of 3 > 2, yet it is not a single file whose own diff exceeds the
maximum (each input diff alone counts 1 ≤ 2 tokens). -/
theorem C1_counterexample :
    mergeDiffs none ["abcd".toList, "efgh".toList] 2 = ["abcd\nefgh".toList] ∧
    2 < tokenCount "abcd\nefgh".toList ∧
    "abcd\nefgh".toList ∉ ["abcd".toList, "efgh".toList] ∧
    tokenCount "abcd".toList ≤ 2 ∧ tokenCount "efgh".toList ≤ 2 := by
  refine ⟨?_, ?_, ?_, ?_, ?_⟩ <;> decide

/-- C1 (amended): for nonempty input diffs, `mergeDiffs` partitions the
input list into consecutive nonempty groups, returns exactly the
newline-joins of those groups in order, and every group's per-file
*estimated* token counts (approximate below 1000 characters, exact above)
sum to at most the supplied maximum — the newline separators and the gap
between estimate and exact count are not accounted — except a group made of
a single diff whose own estimate exceeds the maximum, which is emitted as
its own oversized chunk. -/
theorem C1_amended (enc : Option (Str → Nat)) (diffs : List Str) (maxT : Int)
    (hne : ∀ d ∈ diffs, d ≠ []) :
    ∃ groups : List (List Str),
      groups.flatten = diffs ∧
      mergeDiffs enc diffs maxT = groups.map joinNL ∧
      ∀ g ∈ groups, GroupOK enc maxT g := by
  rw [mergeDiffs]
  by_cases h0 : diffs.length = 0
  · obtain rfl := List.length_eq_zero.mp h0
    exact ⟨[], rfl, rfl, by simp⟩
  · rw [if_neg h0]
    by_cases h1 : diffs.length = 1
    · rw [if_pos h1]
      obtain ⟨d, rfl⟩ := List.length_eq_one.mp h1
      refine ⟨[[d]], by simp, by simp [joinNL_single], ?_⟩
      intro g hg
      rw [List.mem_singleton.mp hg]
      refine ⟨by simp, ?_⟩
      rcases le_or_lt (((([d].map (perDiffTokens enc)).sum : Nat)) : Int) maxT with h | h
      · exact Or.inl h
      · exact Or.inr ⟨d, rfl, by simpa using h⟩
    · rw [if_neg h1]
      obtain ⟨groups, hflat, heq, hgood⟩ :=
        mergeDiffsLoop_groups enc maxT diffs [] [] hne (by simp)
          (fun h => absurd rfl h)
      rw [joinNL_nil] at heq
      simp only [List.map_nil, List.sum_nil, List.nil_append] at heq hflat
      exact ⟨groups, by simpa using hflat, heq, hgood⟩

/-- Witness for C1 (amended) at the counterexample input: both diffs go into
one group with estimate sum 2 ≤ 2 and the chunk is their newline-join. -/
theorem C1_amended_witness :
    ∃ groups : List (List Str),
      groups.flatten = ["abcd".toList, "efgh".toList] ∧
      mergeDiffs none ["abcd".toList, "efgh".toList] 2 = groups.map joinNL ∧
      ∀ g ∈ groups, GroupOK none 2 g :=
  C1_amended none ["abcd".toList, "efgh".toList] 2 (by decide)

/-- C8: the claim as stated is false — the threshold test runs the other way
round.  For an input longer than the 1000-character threshold the helpers
invoke the exact tokenizer instead of returning `ceil(length / 4)`: with an
encoder that returns 0, a 1001-character diff yields 0, not 251. -/
theorem C8_counterexample :
    estimateTokens (some (fun _ => 0)) (List.replicate 1001 'a') = 0 ∧
    perDiffTokens (some (fun _ => 0)) (List.replicate 1001 'a') = 0 ∧
    approxTokens (List.replicate 1001 'a') = 251 := by
  have hlen : (List.replicate 1001 'a').length = 1001 := List.length_replicate 1001 'a'
  have hn : ¬ (List.replicate 1001 'a').length < 1000 := by omega
  refine ⟨?_, ?_, ?_⟩
  · rw [estimateTokens, if_neg hn]; rfl
  · rw [perDiffTokens, if_neg hn]; rfl
  · rw [approxTokens, hlen]

/-- C8 (amended): the token-counting helpers used by the Request Composer
(`mergeDiffs`, via its per-diff estimate) and `estimateTokens` return the
approximate count `ceil(length / 4)` for every input *shorter than* the
1000-character threshold; the exact tokenizer is invoked only for inputs at
or above the threshold. -/
theorem C8_amended (enc : Option (Str → Nat)) (d : Str) :
    (d.length < 1000 →
      estimateTokens enc d = approxTokens d ∧ perDiffTokens enc d = approxTokens d) ∧
    (1000 ≤ d.length →
      estimateTokens enc d = tokenCountWith enc d ∧
      perDiffTokens enc d = tokenCountWith enc d) := by
  constructor
  · intro h
    rw [estimateTokens, if_pos h, perDiffTokens, if_pos h]
    exact ⟨rfl, rfl⟩
  · intro h
    have h' : ¬ d.length < 1000 := by omega
    rw [estimateTokens, if_neg h', perDiffTokens, if_neg h']
    exact ⟨rfl, rfl⟩

/-- Witness for C8 (amended) at concrete inputs on both sides of the
threshold. -/
theorem C8_amended_witness :
    estimateTokens none "abcd".toList = approxTokens "abcd".toList ∧
    estimateTokens none (List.replicate 1000 'a') =
      tokenCountWith none (List.replicate 1000 'a') := by
  constructor
  · exact ((C8_amended none "abcd".toList).1 (by decide)).1
  · exact ((C8_amended none (List.replicate 1000 'a')).2
      (le_of_eq (List.length_replicate 1000 'a').symm)).1

/-! ## Truncator (`src/generateCommitMessage.ts`) -/

theorem tokenCount_take_le {l : Str} {m n : Nat} (h : m ≤ n) :
    tokenCount (l.take m) ≤ tokenCount (l.take n) := by
  simp only [tokenCount, tokenCountWith, approxTokens, List.length_take]
  omega

theorem lastIndexOfLe_le (l : Str) (c : Char) : ∀ n, lastIndexOfLe l c n ≤ (n : Int) := by
  intro n
  induction n with
  | zero =>
    rw [lastIndexOfLe]
    split
    · exact le_refl 0
    · omega
  | succ m ih =>
    rw [lastIndexOfLe]
    split
    · exact le_refl _
    · calc lastIndexOfLe l c m ≤ (m : Int) := ih
        _ ≤ ((m + 1 : Nat) : Int) := by push_cast; omega

theorem bsLoopAux_invariant (text : Str) (M : Nat) :
    ∀ (fuel : Nat) (left right : Int) (best : Nat),
      tokenCount (text.take best) ≤ M →
      tokenCount (text.take (bsLoopAux text M fuel left right best)) ≤ M := by
  intro fuel
  induction fuel with
  | zero =>
    intro left right best h
    exact h
  | succ n ih =>
    intro left right best h
    rw [bsLoopAux]
    split
    case isTrue hlr =>
      dsimp only
      split
      case isTrue htok => exact ih _ _ _ htok
      case isFalse htok => exact ih _ _ _ h
    case isFalse hlr => exact h

theorem bsLoop_invariant (text : Str) (M : Nat) (left right : Int) (best : Nat)
    (h : tokenCount (text.take best) ≤ M) :
    tokenCount (text.take (bsLoop text M left right best)) ≤ M :=
  bsLoopAux_invariant text M _ left right best h

theorem tokenCount_notice : tokenCount TRUNC_NOTICE = 9 := by decide

theorem truncateDiffByBinarySearch_le (text : Str) (M : Nat) :
    tokenCount (truncateDiffByBinarySearch text M) ≤ M + 9 := by
  rw [truncateDiffByBinarySearch]
  split
  case isTrue h => omega
  case isFalse h =>
    have hb : tokenCount (text.take (bsLoop text M 0 (text.length : Int) 0)) ≤ M := by
      refine bsLoop_invariant text M 0 _ 0 ?_
      simp [tokenCount, tokenCountWith, approxTokens]
    dsimp only
    split
    case isTrue hz =>
      have := tokenCount_notice
      omega
    case isFalse hz =>
      have hln := lastIndexOfLe_le text '\n' (bsLoop text M 0 (text.length : Int) 0)
      set best := bsLoop text M 0 (text.length : Int) 0 with hbest
      have hfin :
          (if 0 < lastIndexOfLe text '\n' best then (lastIndexOfLe text '\n' best).toNat
           else best) ≤ best := by
        split
        · omega
        · exact le_refl best
      have h1 := le_trans (tokenCount_take_le (l := text) hfin) hb
      have h2 : (('\n' :: '\n' :: TRUNC_NOTICE : Str)).length = 36 := by decide
      simp only [tokenCount, tokenCountWith, approxTokens, List.length_append] at h1 ⊢
      omega

/-- C2: for every diff string and every token budget, `truncateDiffByTokens`
returns exactly the literal truncation-notice text when the budget is ≤ 0,
and otherwise returns content whose exact token count stays within the
declared 50-token safety buffer of the requested budget (at most budget + 50;
in fact at most `max(budget - 50, 0) + 9`).  Token counts are those of the
repository's own fallback counter. -/
theorem C2_theorem (diff : Str) (maxTokens : Int) :
    (maxTokens ≤ 0 → truncateDiffByTokens diff maxTokens = TRUNC_NOTICE) ∧
    (0 < maxTokens →
      ((tokenCount (truncateDiffByTokens diff maxTokens) : Nat) : Int) ≤ maxTokens + 50) := by
  constructor
  · intro h
    rw [truncateDiffByTokens, if_pos h]
  · intro h
    rw [truncateDiffByTokens, if_neg (by omega)]
    dsimp only
    have hkey : tokenCount (truncateDiffByTokens diff maxTokens) ≤ (maxTokens - 50).toNat + 9 →
        ((tokenCount (truncateDiffByTokens diff maxTokens) : Nat) : Int) ≤ maxTokens + 50 := by
      intro hx
      omega
    split
    case isTrue h2 => omega
    case isFalse h2 =>
      split
      case isTrue h3 =>
        split
        case isTrue h4 =>
          split
          case isTrue h5 =>
            have := truncateDiffByBinarySearch_le
              (fileLoop (maxTokens - 50).toNat ((jsSplit DIFF_SEP diff).drop 1) [] 0)
              (maxTokens - 50).toNat
            omega
          case isFalse h5 => omega
        case isFalse h4 =>
          have := truncateDiffByBinarySearch_le diff (maxTokens - 50).toNat
          omega
      case isFalse h3 =>
        have := truncateDiffByBinarySearch_le diff (maxTokens - 50).toNat
        omega

/-- Witness for C2 at concrete inputs: a negative budget returns the notice
literally; a positive budget keeps the result within budget + 50. -/
theorem C2_theorem_witness :
    truncateDiffByTokens "hello".toList (-1) = TRUNC_NOTICE ∧
    ((tokenCount (truncateDiffByTokens "hello world".toList 100) : Nat) : Int) ≤ 150 := by
  constructor
  · exact (C2_theorem ("hello".toList) (-1)).1 (by decide)
  · exact (C2_theorem ("hello world".toList) 100).2 (by decide)

/-! ## Message validation (`validateAndTruncateMessages`, lines 136-285) -/

theorem isPre_append {p q : Str} (r : Str) (h : isPre p q = true) :
    isPre p (q ++ r) = true := by
  obtain ⟨t, rfl⟩ := isPre_iff.mp h
  rw [isPre_iff]
  exact ⟨t ++ r, by simp⟩

theorem truncationIterate_error_pre {systemTokens : Nat} {availableTokens : Int}
    {effectiveMaxTokens maxTokensInput : Int} {messages : List ChatMessage}
    {userMessageIndex : Nat} {userMessage : ChatMessage} :
    ∀ (fuel : Nat) (content e : Str),
      truncationIterate systemTokens availableTokens effectiveMaxTokens maxTokensInput
        messages userMessageIndex userMessage fuel content = .error e →
      isPre "Request too large".toList e = true := by
  intro fuel
  induction fuel with
  | zero =>
    intro content e h
    exact absurd h (by simp [truncationIterate])
  | succ n ih =>
    intro content e h
    rw [truncationIterate] at h
    dsimp only at h
    split at h
    · exact absurd h (by simp)
    · split at h
      · rw [Except.error.injEq] at h
        subst h
        repeat refine isPre_append _ ?_
        decide
      · split at h
        · split at h
          · exact ih _ _ h
          · exact ih _ _ h
        · exact ih _ _ h

theorem validateOK_ok {maxTokensInput : Int} {out : List ChatMessage}
    (h : ((calculateTotalTokens out : Nat) : Int) ≤ maxTokensInput) :
    ValidateOK maxTokensInput (.ok out) := h

theorem validateOK_error {maxTokensInput : Int} {e : Str}
    (h : isPre "Request too large".toList e = true) :
    ValidateOK maxTokensInput (.error e) := h

/-- C3 (amended): `validateAndTruncateMessages` either returns a messages
array whose total token count (content tokens plus 4 per message with
non-empty content, as the code counts) is at most `maxTokensInput`, or
throws an error whose text begins with the literal `Request too large`; it
never returns a result whose total exceeds the ceiling. -/
theorem C3_amended (messages : List ChatMessage) (maxTokensInput : Int) :
    ValidateOK maxTokensInput (validateAndTruncateMessages messages maxTokensInput) := by
  rw [validateAndTruncateMessages]
  dsimp only
  split
  case isTrue h => exact validateOK_ok (by omega)
  case isFalse h =>
    split
    case h_1 =>
      split
      case isTrue h2 =>
        refine validateOK_error ?_
        repeat refine isPre_append _ ?_
        decide
      case isFalse h2 => exact validateOK_ok (by omega)
    case h_2 userMessageIndex heq =>
      split
      case isTrue h2 =>
        refine validateOK_error ?_
        repeat refine isPre_append _ ?_
        decide
      case isFalse h2 =>
        split
        case isTrue h3 =>
          refine validateOK_error ?_
          decide
        case isFalse h3 =>
          split
          case h_1 e herr => exact validateOK_error (truncationIterate_error_pre _ _ _ herr)
          case h_2 truncatedUserContent hok =>
            split
            case isTrue h4 =>
              split
              case isTrue h5 =>
                refine validateOK_error ?_
                repeat refine isPre_append _ ?_
                decide
              case isFalse h5 => exact validateOK_ok (by omega)
            case isFalse h4 => exact validateOK_ok (by omega)

/-- C3: the claim as stated is false on two counts.  (a) The guard error
thrown when no user message exists names the token counts but does not
instruct the caller to raise the configured ceiling (no mention of
increasing anything, nor of `ACP_TOKENS_MAX_INPUT`).  (b) Because the code
skips the per-message overhead of 4 for empty content, it can return an
array whose total under the claim's own formula (content tokens plus 4 per
message) exceeds the ceiling: 26 empty messages cost 104 > 100 by the
claim's count yet are returned untouched. -/
theorem C3_counterexample :
    (validateAndTruncateMessages [⟨"system".toList, List.replicate 40 'a'⟩] 10 =
        .error "Request too large: 14 tokens exceeds limit of 10 tokens".toList ∧
      containsSeq "increase".toList
        "Request too large: 14 tokens exceeds limit of 10 tokens".toList = false ∧
      containsSeq "ACP_TOKENS_MAX_INPUT".toList
        "Request too large: 14 tokens exceeds limit of 10 tokens".toList = false) ∧
    (validateAndTruncateMessages (List.replicate 26 ⟨"system".toList, []⟩) 100 =
        .ok (List.replicate 26 ⟨"system".toList, []⟩) ∧
      100 < claimTotalTokens (List.replicate 26 ⟨"system".toList, []⟩)) := by
  refine ⟨⟨?_, ?_, ?_⟩, ?_, ?_⟩
  · rfl
  · decide
  · decide
  · rfl
  · decide

/-! ## Grouping Reconciler (batch command, `src/commands/batch.ts` lines 160-207) -/

theorem mergeIteration_length {groups : List FileGroup} (h : 1 < groups.length) :
    (mergeIteration groups).length = groups.length - 1 := by
  rw [mergeIteration]
  have hl : (sortBySizeAsc groups).length = groups.length :=
    List.length_insertionSort _ groups
  match hs : sortBySizeAsc groups with
  | [] => rw [hs] at hl; simp at hl; omega
  | [g] => rw [hs] at hl; simp at hl; omega
  | smallest :: second :: rest =>
    rw [hs] at hl
    simp at hl ⊢
    omega

theorem allPaths_append (gs₁ gs₂ : List FileGroup) :
    allPaths (gs₁ ++ gs₂) = allPaths gs₁ + allPaths gs₂ := by
  induction gs₁ with
  | nil => simp [allPaths]
  | cons g gs ih => simp [allPaths, ih, add_assoc]

theorem allPaths_perm {gs₁ gs₂ : List FileGroup} (h : List.Perm gs₁ gs₂) :
    allPaths gs₁ = allPaths gs₂ := by
  induction h with
  | nil => rfl
  | cons x _ ih => simp [allPaths, ih]
  | swap x y l => simp [allPaths, add_left_comm]
  | trans _ _ ih₁ ih₂ => exact ih₁.trans ih₂

theorem allPaths_sortAsc (gs : List FileGroup) : allPaths (sortBySizeAsc gs) = allPaths gs :=
  allPaths_perm (List.perm_insertionSort _ gs)

theorem allPaths_sortDesc (gs : List FileGroup) : allPaths (sortBySizeDesc gs) = allPaths gs :=
  allPaths_perm (List.perm_insertionSort _ gs)

theorem allPaths_mergeIteration (gs : List FileGroup) :
    allPaths (mergeIteration gs) = allPaths gs := by
  rw [mergeIteration]
  match hs : sortBySizeAsc gs with
  | [] => rw [← allPaths_sortAsc gs, hs]
  | [g] => rw [← allPaths_sortAsc gs, hs]
  | smallest :: second :: rest =>
    rw [← allPaths_sortAsc gs, hs]
    simp [allPaths, mkMergedGroup, ← Multiset.coe_add, add_assoc]

theorem allPaths_splitParts (largest : FileGroup) (rest : List FileGroup) :
    allPaths (splitPart1 largest :: rest ++ [splitPart2 largest]) =
      allPaths (largest :: rest) := by
  have hfiles : (splitPart1 largest).files ++ (splitPart2 largest).files = largest.files := by
    simp [splitPart1, splitPart2]
  simp only [allPaths, allPaths_append]
  rw [← hfiles]
  simp [allPaths, allPaths_append, ← Multiset.coe_add, add_comm, add_left_comm, add_assoc]

theorem allPaths_mergeLoopAux (commitCount : Nat) :
    ∀ (fuel : Nat) (gs : List FileGroup),
      allPaths (mergeLoopAux commitCount fuel gs) = allPaths gs := by
  intro fuel
  induction fuel with
  | zero => intro gs; rfl
  | succ m ih =>
    intro gs
    rw [mergeLoopAux]
    split
    case isTrue h => rw [ih]; exact allPaths_mergeIteration gs
    case isFalse h => rfl

theorem allPaths_splitLoopAux (commitCount : Nat) :
    ∀ (fuel : Nat) (gs : List FileGroup),
      allPaths (splitLoopAux commitCount fuel gs) = allPaths gs := by
  intro fuel
  induction fuel with
  | zero => intro gs; rfl
  | succ m ih =>
    intro gs
    rw [splitLoopAux]
    split
    case isTrue hg =>
      split
      case h_1 largest rest hs =>
        split
        case isTrue hone => rw [← allPaths_sortDesc gs, hs]
        case isFalse hone =>
          rw [ih, allPaths_splitParts, ← allPaths_sortDesc gs, hs]
      case h_2 hs =>
        rw [← allPaths_sortDesc gs, hs]
    case isFalse hg => rfl

/-- C4: for every suggested partition and every target count, the batch
command's group-count adjustment (merge path and split path alike) preserves
the multiset of file paths across all groups exactly: no file is duplicated
or dropped. -/
theorem C4_theorem (commitCount : Nat) (groups : List FileGroup) :
    allPaths (adjustGroupCount commitCount groups) = allPaths groups := by
  rw [adjustGroupCount]
  split
  case isTrue h =>
    split
    case isTrue h2 => exact allPaths_mergeLoopAux commitCount groups.length groups
    case isFalse h2 =>
      split
      case isTrue h3 =>
        exact allPaths_splitLoopAux commitCount (commitCount - groups.length) groups
      case isFalse h3 => rfl
  case isFalse h => rfl

theorem sorted_sortBySizeDesc (gs : List FileGroup) :
    List.Sorted (fun a b => b.totalSize ≤ a.totalSize) (sortBySizeDesc gs) :=
  List.sorted_insertionSort _ gs

theorem splitLoopAux_stop (commitCount : Nat) :
    ∀ (n : Nat) (gs : List FileGroup), commitCount - gs.length ≤ n →
      gs.length ≤ commitCount →
      (splitLoopAux commitCount n gs).length = commitCount ∨
      splitLoopAux commitCount n gs = [] ∨
      ∃ g ∈ splitLoopAux commitCount n gs, g.files.length ≤ 1 ∧
        ∀ g' ∈ splitLoopAux commitCount n gs, g'.totalSize ≤ g.totalSize := by
  intro n
  induction n with
  | zero =>
    intro gs hn hle
    left
    show gs.length = commitCount
    omega
  | succ m ih =>
    intro gs hn hle
    rw [splitLoopAux]
    split
    case isTrue hg =>
      split
      case h_1 largest rest hs =>
        have hl : (sortBySizeDesc gs).length = gs.length :=
          List.length_insertionSort _ gs
        rw [hs] at hl
        simp only [List.length_cons] at hl
        split
        case isTrue hone =>
          right; right
          refine ⟨largest, List.mem_cons_self largest rest, hone, ?_⟩
          have hsorted := sorted_sortBySizeDesc gs
          rw [hs, List.sorted_cons] at hsorted
          intro g' hg'
          rcases List.mem_cons.mp hg' with h | h
          · subst h; exact le_refl _
          · exact hsorted.1 g' h
        case isFalse hone =>
          refine ih _ ?_ ?_
          · simp only [List.length_cons, List.length_append, List.length_nil]
            omega
          · simp only [List.length_cons, List.length_append, List.length_nil]
            omega
      case h_2 hs =>
        right; left
        rfl
    case isFalse hg =>
      by_cases hz : gs.length = commitCount
      · left; exact hz
      · right; left
        have : gs.length = 0 := by omega
        exact List.length_eq_zero.mp this

theorem splitLoop_stop (commitCount : Nat) (gs : List FileGroup)
    (hle : gs.length ≤ commitCount) :
    (splitLoopGroups commitCount gs).length = commitCount ∨
    splitLoopGroups commitCount gs = [] ∨
    ∃ g ∈ splitLoopGroups commitCount gs, g.files.length ≤ 1 ∧
      ∀ g' ∈ splitLoopGroups commitCount gs, g'.totalSize ≤ g.totalSize :=
  splitLoopAux_stop commitCount (commitCount - gs.length) gs le_rfl hle

/-- C5 (amended): every iteration of the batch command's merge loop
decreases the number of groups by exactly 1, and every iteration of the
split loop increases it by exactly 1; the split loop stops short of the
target only when the group it would split next — one of maximal total size —
contains at most one file (or no groups exist at all), even if some other,
smaller group could still be split. -/
theorem C5_amended (commitCount : Nat) :
    (∀ groups : List FileGroup, 1 < groups.length →
      (mergeIteration groups).length = groups.length - 1 ∧
      (commitCount < groups.length →
        mergeLoopGroups commitCount groups =
          mergeLoopGroups commitCount (mergeIteration groups))) ∧
    (∀ (groups : List FileGroup) (largest : FileGroup) (rest : List FileGroup),
      sortBySizeDesc groups = largest :: rest → 1 < largest.files.length →
      groups.length < commitCount →
      (splitPart1 largest :: rest ++ [splitPart2 largest]).length = groups.length + 1 ∧
      splitLoopGroups commitCount groups =
        splitLoopGroups commitCount
          (splitPart1 largest :: rest ++ [splitPart2 largest])) ∧
    (∀ groups : List FileGroup, groups.length ≤ commitCount →
      (splitLoopGroups commitCount groups).length = commitCount ∨
      splitLoopGroups commitCount groups = [] ∨
      ∃ g ∈ splitLoopGroups commitCount groups, g.files.length ≤ 1 ∧
        ∀ g' ∈ splitLoopGroups commitCount groups, g'.totalSize ≤ g.totalSize) := by
  refine ⟨?_, ?_, ?_⟩
  · intro groups h
    refine ⟨mergeIteration_length h, ?_⟩
    intro h2
    rw [mergeLoopGroups, mergeLoopGroups, mergeIteration_length h]
    obtain ⟨n, hn⟩ : ∃ n, groups.length = n + 1 := ⟨groups.length - 1, by omega⟩
    rw [hn, mergeLoopAux, if_pos ⟨h2, h⟩]
    rfl
  · intro groups largest rest hs hfiles hlt
    have hl : (sortBySizeDesc groups).length = groups.length :=
      List.length_insertionSort _ groups
    rw [hs] at hl
    simp only [List.length_cons] at hl
    constructor
    · simp only [List.length_cons, List.length_append, List.length_nil]
      omega
    · rw [splitLoopGroups, splitLoopGroups]
      obtain ⟨k, hk⟩ : ∃ k, commitCount - groups.length = k + 1 :=
        ⟨commitCount - groups.length - 1, by omega⟩
      rw [hk, splitLoopAux, if_pos ⟨hlt, by omega⟩]
      split
      case h_1 l' r' hs' =>
        rw [hs] at hs'
        injection hs' with h1 h2
        subst h1
        subst h2
        rw [if_neg (by omega)]
        have hfuel :
            commitCount - (splitPart1 largest :: rest ++ [splitPart2 largest]).length = k := by
          simp only [List.length_cons, List.length_append, List.length_nil]
          omega
        rw [hfuel]
      case h_2 hs' =>
        rw [hs] at hs'
        exact absurd hs' (by simp)
  · intro groups hle
    exact splitLoop_stop commitCount groups hle

/-- C5: the claim as stated is false in its stopping condition.  Splitting
`[exG1 (1 file, size 100), exG2 (2 files, size 0)]` towards target 3 stops
at 2 groups because the *largest-by-size* group is a singleton, even though
`exG2` still has two files and could be split — the state is not
all-singleton. -/
theorem C5_counterexample :
    (adjustGroupCount 3 [exG1, exG2]).length < 3 ∧
    ∃ g ∈ adjustGroupCount 3 [exG1, exG2], 1 < g.files.length := by
  constructor <;> decide

/-- Witness for C5 (amended) at concrete inputs: one split iteration on a
splittable largest group grows the count by exactly 1, one merge iteration
shrinks it by exactly 1. -/
theorem C5_amended_witness :
    ((splitPart1 exG3 :: ([] : List FileGroup) ++ [splitPart2 exG3]).length =
        [exG3].length + 1 ∧
      splitLoopGroups 2 [exG3] =
        splitLoopGroups 2 (splitPart1 exG3 :: ([] : List FileGroup) ++ [splitPart2 exG3])) ∧
    (mergeIteration [exG1, exG2]).length = [exG1, exG2].length - 1 :=
  ⟨(C5_amended 2).2.1 [exG3] exG3 [] (by decide) (by decide) (by decide),
   ((C5_amended 1).1 [exG1, exG2] (by decide)).1⟩

/-! ## Diff Splitter (`src/utils/batchCommit.ts`, `splitDiffByFiles`) -/

theorem insertFile_filePath_map (m : List FileDiff) (p full : Str) :
    (insertFile m p full).map (fun fd => fd.filePath) =
      if m.any (fun fd => fd.filePath == p) then m.map (fun fd => fd.filePath)
      else m.map (fun fd => fd.filePath) ++ [p] := by
  rw [insertFile]
  split
  case isTrue h =>
    rw [List.map_map]
    apply List.map_congr_left
    intro fd _
    show (if (fd.filePath == p) = true then _ else fd).filePath = fd.filePath
    split <;> rfl
  case isFalse h =>
    simp

theorem processChunk_paths {vfs : Option (List Str)} {m : List FileDiff} {c : Str} :
    ∀ q ∈ (processChunk vfs m c).map (fun fd => fd.filePath),
      q ∈ m.map (fun fd => fd.filePath) ∨ validatePath q = true := by
  intro q hq
  rw [processChunk] at hq
  dsimp only at hq
  split at hq
  case isTrue =>
    split at hq
    case h_1 raw hraw =>
      split at hq
      case isTrue hval =>
        have hins : ∀ full, q ∈ (insertFile m (jsTrim raw) full).map (fun fd => fd.filePath) →
            q ∈ m.map (fun fd => fd.filePath) ∨ validatePath q = true := by
          intro full hq'
          rw [insertFile_filePath_map] at hq'
          split at hq'
          · exact Or.inl hq'
          · rcases List.mem_append.mp hq' with h | h
            · exact Or.inl h
            · rw [List.mem_singleton] at h
              subst h
              exact Or.inr hval
        split at hq
        case h_1 vs hvs =>
          split at hq
          case isTrue => exact hins _ hq
          case isFalse => exact Or.inl hq
        case h_2 hvs => exact hins _ hq
      case isFalse hval => exact Or.inl hq
    case h_2 hraw => exact Or.inl hq
  case isFalse => exact Or.inl hq

theorem foldl_processChunk_paths (vfs : Option (List Str)) :
    ∀ (chunks : List Str) (m : List FileDiff),
      ∀ q ∈ (chunks.foldl (processChunk vfs) m).map (fun fd => fd.filePath),
        q ∈ m.map (fun fd => fd.filePath) ∨ validatePath q = true := by
  intro chunks
  induction chunks with
  | nil => intro m q hq; exact Or.inl hq
  | cons c cs ih =>
    intro m q hq
    rw [List.foldl_cons] at hq
    rcases ih (processChunk vfs m c) q hq with h | h
    · exact processChunk_paths q h
    · exact Or.inr h

theorem splitDiffByFiles_paths_validate (vfs : Option (List Str)) (diff : Str) :
    ∀ q ∈ (splitDiffByFiles vfs diff).map (fun fd => fd.filePath),
      validatePath q = true := by
  intro q hq
  rw [splitDiffByFiles] at hq
  split at hq
  case isTrue => simp at hq
  case isFalse =>
    rcases foldl_processChunk_paths vfs _ [] q hq with h | h
    · simp at h
    · exact h

theorem validatePath_content {p : Str} (h1 : containsSeq "content".toList p = true)
    (h2 : p.length < 20) : validatePath p = false := by
  have hand : (containsSeq "content".toList p && decide (p.length < 20)) = true := by
    rw [h1]
    simp [h2]
  rw [validatePath, hand]
  simp

/-- C10: `splitDiffByFiles` rejects any parsed b-path that contains the
substring `content` and is shorter than 20 characters — such a path never
appears among the returned records, for any diff and any changed-file
list. -/
theorem C10_theorem (validFileSet : Option (List Str)) (diff p : Str)
    (h1 : containsSeq "content".toList p = true) (h2 : p.length < 20) :
    p ∉ (splitDiffByFiles validFileSet diff).map (fun fd => fd.filePath) := by
  intro hmem
  have hv := splitDiffByFiles_paths_validate validFileSet diff p hmem
  rw [validatePath_content h1 h2] at hv
  exact Bool.false_ne_true hv

/-- Witness for C10 at the claim's own example: a diff whose single header
resolves to `src/content.ts` (well-formed, passes every other rule) yields
no record for that path. -/
theorem C10_theorem_witness :
    "src/content.ts".toList ∉
      (splitDiffByFiles none
        "diff --git a/src/content.ts b/src/content.ts\n+x\n".toList).map
        (fun fd => fd.filePath) :=
  C10_theorem none "diff --git a/src/content.ts b/src/content.ts\n+x\n".toList
    "src/content.ts".toList (by decide) (by decide)

theorem isPre_length {p l : Str} (h : isPre p l = true) : p.length ≤ l.length := by
  obtain ⟨t, rfl⟩ := isPre_iff.mp h
  simp

theorem isPre_get? {p l : Str} (h : isPre p l = true) {i : Nat} (hi : i < p.length) :
    l.get? i = p.get? i := by
  obtain ⟨t, rfl⟩ := isPre_iff.mp h
  exact List.get?_append hi

theorem isPre_of_append_long {p u w : Str} (h : isPre p (u ++ w) = true)
    (hl : p.length ≤ u.length) : isPre p u = true := by
  obtain ⟨t, ht⟩ := isPre_iff.mp h
  rw [isPre_iff]
  have htake : (u ++ w).take p.length = p := by
    rw [ht, List.take_append_of_le_length le_rfl, List.take_length]
  rw [List.take_append_of_le_length hl] at htake
  refine ⟨u.drop p.length, ?_⟩
  conv_lhs => rw [← List.take_append_drop p.length u]
  rw [htake]

theorem isPre_count {p l : Str} (h : isPre p l = true) (c : Char) :
    p.count c ≤ l.count c := by
  obtain ⟨t, rfl⟩ := isPre_iff.mp h
  rw [List.count_append]
  omega

theorem isPre_self_append (u t : Str) : isPre u (u ++ t) = true :=
  isPre_iff.mpr ⟨t, rfl⟩

theorem suffix_append_cases {α : Type} {s x y : List α} (h : s <:+ x ++ y) :
    s <:+ y ∨ ∃ s', s' <:+ x ∧ s' ≠ [] ∧ s = s' ++ y := by
  induction x with
  | nil => exact Or.inl (by simpa using h)
  | cons c x' ih =>
    rw [List.cons_append, List.suffix_cons_iff] at h
    rcases h with rfl | h
    · exact Or.inr ⟨c :: x', List.suffix_refl _, by simp, by simp⟩
    · rcases ih h with h' | ⟨s', hs', hne, rfl⟩
      · exact Or.inl h'
      · exact Or.inr ⟨s', hs'.trans (List.suffix_cons c x'), hne, rfl⟩

/-! ### Construction of well-formed diffs from per-file sections -/

theorem DIFF_SEP_ne : DIFF_SEP ≠ [] := by decide

theorem DIFF_SEP_length : DIFF_SEP.length = 11 := by decide

theorem DIFF_SEP_get_zero : DIFF_SEP.get? 0 = some 'd' := by decide

theorem DIFF_SEP_no_newline : ∀ i, i < 11 → DIFF_SEP.get? i ≠ some '\n' := by decide

theorem DIFF_SEP_no_inner_d : ∀ i, 1 ≤ i → i < 11 → DIFF_SEP.get? i ≠ some 'd' := by decide

theorem DIFF_SEP_count_space : DIFF_SEP.count ' ' = 2 := by decide

theorem pathOK_no_space {p : Str} (hp : PathOK p) : ' ' ∉ p := by
  intro h
  have := hp.2.1 ' ' h
  simp at this

theorem pathOK_no_newline {p : Str} (hp : PathOK p) : '\n' ∉ p := by
  intro h
  have := hp.2.1 '\n' h
  simp at this

theorem pathOK_count_space {p : Str} (hp : PathOK p) : p.count ' ' = 0 :=
  List.count_eq_zero.mpr (pathOK_no_space hp)

theorem headerOf_count_space {p : Str} (hp : PathOK p) : (headerOf p).count ' ' = 1 := by
  simp [headerOf, List.count_append, List.count_cons, pathOK_count_space hp]

theorem no_sep_in_chunkTail {p b : Str} (hp : PathOK p) (hb : BodyOK b) {w : Str}
    (hw : w = [] ∨ isPre DIFF_SEP w = true) :
    ∀ s, s <:+ chunkTail p b → s ≠ [] → isPre DIFF_SEP (s ++ w) = false := by
  intro s hsuf hne
  by_contra hcon'
  have hcon : isPre DIFF_SEP (s ++ w) = true := by
    cases hval : isPre DIFF_SEP (s ++ w)
    · exact absurd hval hcon'
    · rfl
  rw [chunkTail] at hsuf
  rcases suffix_append_cases hsuf with hs_body | ⟨s', hs', hne', rfl⟩
  · rcases List.suffix_cons_iff.mp hs_body with rfl | hs_b
    · -- s = '\n' :: b : first character mismatch with 'd'
      have hg := isPre_get? hcon (i := 0) (by rw [DIFF_SEP_length]; omega)
      rw [DIFF_SEP_get_zero] at hg
      simp at hg
    · -- s is a non-empty suffix of the body
      by_cases hlen : DIFF_SEP.length ≤ s.length
      · have hpre : isPre DIFF_SEP s = true := isPre_of_append_long hcon hlen
        rw [hb s ((List.mem_tails s b).mpr hs_b)] at hpre
        exact Bool.false_ne_true hpre
      · rcases hw with rfl | hwsep
        · rw [List.append_nil] at hcon
          have := isPre_length hcon
          omega
        · obtain ⟨t, rfl⟩ := isPre_iff.mp hwsep
          have hg := isPre_get? hcon (i := s.length)
            (by rw [DIFF_SEP_length] at hlen ⊢; omega)
          rw [List.get?_append_right le_rfl, Nat.sub_self] at hg
          have hz : (DIFF_SEP ++ t).get? 0 = some 'd' := by
            rw [List.get?_append (by rw [DIFF_SEP_length]; omega), DIFF_SEP_get_zero]
          rw [hz] at hg
          have hs_pos : 1 ≤ s.length := by
            cases s
            · exact absurd rfl hne
            · simp
          exact DIFF_SEP_no_inner_d s.length hs_pos
            (by rw [DIFF_SEP_length] at hlen; omega) hg.symm
  · -- s = s' ++ '\n' :: b with s' a non-empty suffix of the header
    by_cases hlen : DIFF_SEP.length ≤ s'.length
    · have hassoc : (s' ++ '\n' :: b) ++ w = s' ++ ('\n' :: b ++ w) := by simp
      rw [hassoc] at hcon
      have hpre : isPre DIFF_SEP s' = true := isPre_of_append_long hcon hlen
      have hc2 := isPre_count hpre ' '
      rw [DIFF_SEP_count_space] at hc2
      have hcsub := (hs'.sublist.count_le ' ')
      rw [headerOf_count_space hp] at hcsub
      omega
    · have hassoc : (s' ++ '\n' :: b) ++ w = s' ++ ('\n' :: (b ++ w)) := by simp
      rw [hassoc] at hcon
      have hg := isPre_get? hcon (i := s'.length)
        (by rw [DIFF_SEP_length] at hlen ⊢; omega)
      rw [List.get?_append_right le_rfl, Nat.sub_self] at hg
      exact DIFF_SEP_no_newline s'.length
        (by rw [DIFF_SEP_length] at hlen; omega) hg.symm

theorem splitFirst_sep_pre {sep : Str} (hsep : sep ≠ []) (y : Str) :
    splitFirst sep (sep ++ y) = some ([], y) := by
  obtain ⟨c, cs, rfl⟩ : ∃ c cs, sep = c :: cs := by
    cases sep with
    | nil => exact absurd rfl hsep
    | cons c cs => exact ⟨c, cs, rfl⟩
  rw [List.cons_append, splitFirst, if_pos (by rw [← List.cons_append]; exact isPre_self_append _ y)]
  rw [← List.cons_append, List.drop_left]

theorem splitFirst_none_of_no_occurrence {sep : Str} (hsep : sep ≠ []) :
    ∀ l : Str, (∀ s, s <:+ l → s ≠ [] → isPre sep s = false) → splitFirst sep l = none := by
  intro l
  induction l with
  | nil => intro _; rw [splitFirst, if_neg hsep]
  | cons c cs ih =>
    intro h
    rw [splitFirst]
    have h0 : isPre sep (c :: cs) = false := h _ (List.suffix_refl _) (by simp)
    rw [if_neg (by rw [h0]; simp)]
    rw [ih (fun s hs hne => h s (hs.trans (List.suffix_cons c cs)) hne)]
    rfl

theorem splitFirst_prepend {sep : Str} :
    ∀ (x y : Str), (∀ s, s <:+ x → s ≠ [] → isPre sep (s ++ y) = false) →
      splitFirst sep (x ++ y) = (splitFirst sep y).map (fun q => (x ++ q.1, q.2)) := by
  intro x
  induction x with
  | nil =>
    intro y _
    rw [List.nil_append]
    cases splitFirst sep y with
    | none => rfl
    | some q => cases q; rfl
  | cons c x' ih =>
    intro y h
    rw [List.cons_append, splitFirst]
    have h0 : isPre sep (c :: (x' ++ y)) = false :=
      h (c :: x') (List.suffix_refl _) (by simp)
    rw [if_neg (by rw [h0]; simp)]
    rw [ih y (fun s hs hne => h s (hs.trans (List.suffix_cons c x')) hne)]
    cases splitFirst sep y with
    | none => rfl
    | some q => cases q; rfl

theorem jsSplit_inner :
    ∀ (sections : List (Str × Str)) (p b : Str), PathOK p → BodyOK b →
      (∀ sec ∈ sections, SectionOK sec) →
      jsSplit DIFF_SEP (chunkTail p b ++ buildDiff sections) =
        chunkTail p b :: sections.map (fun sec => chunkTail sec.1 sec.2) := by
  intro sections
  induction sections with
  | nil =>
    intro p b hp hb _
    have hbd : buildDiff [] = [] := rfl
    rw [hbd, List.append_nil]
    apply jsSplit_of_none
    apply splitFirst_none_of_no_occurrence DIFF_SEP_ne
    intro s hs hne
    have := no_sep_in_chunkTail hp hb (Or.inl rfl) s hs hne
    rw [List.append_nil] at this
    exact this
  | cons sec rest ih =>
    intro p b hp hb hall
    have hbd : buildDiff (sec :: rest) =
        DIFF_SEP ++ (chunkTail sec.1 sec.2 ++ buildDiff rest) := by
      simp [buildDiff, sectionOf, List.append_assoc]
    rw [hbd]
    have hno : ∀ s, s <:+ chunkTail p b → s ≠ [] →
        isPre DIFF_SEP
          (s ++ (DIFF_SEP ++ (chunkTail sec.1 sec.2 ++ buildDiff rest))) = false :=
      fun s hs hne => no_sep_in_chunkTail hp hb (Or.inr (isPre_self_append _ _)) s hs hne
    have hsp : splitFirst DIFF_SEP
        (chunkTail p b ++ (DIFF_SEP ++ (chunkTail sec.1 sec.2 ++ buildDiff rest))) =
        some (chunkTail p b, chunkTail sec.1 sec.2 ++ buildDiff rest) := by
      rw [splitFirst_prepend _ _ hno, splitFirst_sep_pre DIFF_SEP_ne]
      simp
    rw [jsSplit_of_splitFirst DIFF_SEP_ne hsp]
    rw [ih sec.1 sec.2 (hall sec (List.mem_cons_self _ _)).1
        (hall sec (List.mem_cons_self _ _)).2
        (fun q hq => hall q (List.mem_cons_of_mem _ hq))]
    rfl

theorem jsSplit_buildDiff (sections : List (Str × Str))
    (hall : ∀ sec ∈ sections, SectionOK sec) :
    jsSplit DIFF_SEP (buildDiff sections) =
      [] :: sections.map (fun sec => chunkTail sec.1 sec.2) := by
  cases sections with
  | nil =>
    apply jsSplit_of_none
    show splitFirst DIFF_SEP [] = none
    rw [splitFirst, if_neg DIFF_SEP_ne]
  | cons sec rest =>
    have hbd : buildDiff (sec :: rest) =
        DIFF_SEP ++ (chunkTail sec.1 sec.2 ++ buildDiff rest) := by
      simp [buildDiff, sectionOf, List.append_assoc]
    rw [hbd, jsSplit_of_splitFirst DIFF_SEP_ne (splitFirst_sep_pre DIFF_SEP_ne _)]
    rw [jsSplit_inner rest sec.1 sec.2 (hall sec (List.mem_cons_self _ _)).1
      (hall sec (List.mem_cons_self _ _)).2
      (fun q hq => hall q (List.mem_cons_of_mem _ hq))]
    rfl

theorem dropWhile_eq_self_of {pred : Char → Bool} :
    ∀ {l : Str}, (∀ c ∈ l, pred c = false) → l.dropWhile pred = l := by
  intro l h
  cases l with
  | nil => rfl
  | cons c cs =>
    rw [List.dropWhile_cons, if_neg (by rw [h c (List.mem_cons_self c cs)]; simp)]

theorem jsTrim_of_no_ws {p : Str} (hp : ∀ c ∈ p, c.isWhitespace = false) : jsTrim p = p := by
  rw [jsTrim, dropWhile_eq_self_of hp,
    dropWhile_eq_self_of (fun c hc => hp c (List.mem_reverse.mp hc)), List.reverse_reverse]

theorem newline_not_mem_headerOf {p : Str} (hp : PathOK p) : '\n' ∉ headerOf p := by
  intro hmem
  have hnp := pathOK_no_newline hp
  rw [headerOf] at hmem
  simp only [List.mem_cons, List.mem_append] at hmem
  rcases hmem with h | h
  · exact absurd h (by decide)
  rcases h with h | h
  · exact absurd h (by decide)
  rcases h with h | h
  · exact hnp h
  rcases h with h | h
  · exact absurd h (by decide)
  rcases h with h | h
  · exact absurd h (by decide)
  rcases h with h | h
  · exact absurd h (by decide)
  · exact hnp h

theorem indexOf_boundary {x y : Str} {c : Char} (hx : c ∉ x) :
    (x ++ c :: y).indexOf c = x.length := by
  induction x with
  | nil => simp [List.indexOf_cons]
  | cons d ds ih =>
    rw [List.cons_append, List.indexOf_cons]
    have hd : (d == c) = false := by
      have : d ≠ c := fun h => hx (h ▸ List.mem_cons_self d ds)
      simp [this]
    rw [hd]
    simp only [cond_false]
    rw [ih (fun h => hx (List.mem_cons_of_mem d h))]
    rfl

theorem jsIndexOf_chunkTail {p b : Str} (hp : PathOK p) :
    jsIndexOf (chunkTail p b) '\n' = ((headerOf p).length : Int) := by
  have hmem : '\n' ∈ chunkTail p b := by
    rw [chunkTail]
    exact List.mem_append.mpr (Or.inr (List.mem_cons_self _ _))
  rw [jsIndexOf, if_pos hmem, chunkTail, indexOf_boundary (newline_not_mem_headerOf hp)]

theorem parseBPath_header {p : Str} (hp : PathOK p) :
    parseBPath (DIFF_SEP ++ headerOf p) = some p := by
  have hshape : DIFF_SEP ++ headerOf p =
      "diff --git a/".toList ++ (p ++ ' ' :: 'b' :: '/' :: p) := rfl
  rw [parseBPath, hshape, if_pos (isPre_self_append _ _)]
  have h13 : (13 : Nat) = ("diff --git a/".toList).length := rfl
  rw [h13, List.drop_left]
  have hmark : ∀ x rest : Str, ∀ seen : Bool, (∀ c ∈ x, c ≠ ' ') → rest ≠ [] →
      (x ≠ [] ∨ seen = true) → bSplit seen (x ++ ' ' :: 'b' :: '/' :: rest) = some rest := by
    intro x
    induction x with
    | nil =>
      intro rest seen _ hrest hseen
      have hs : seen = true := by
        rcases hseen with h | h
        · exact absurd rfl h
        · exact h
      subst hs
      rw [List.nil_append, bSplit, if_pos ⟨rfl, rfl, rfl, hrest⟩]
      rfl
    | cons c x' ih =>
      intro rest seen hx hrest _
      rw [List.cons_append, bSplit,
        if_neg (fun hcond => hx c (List.mem_cons_self c x') hcond.2.1)]
      exact ih rest true (fun d hd => hx d (List.mem_cons_of_mem c hd)) hrest (Or.inr rfl)
  exact hmark p p false
    (fun c hc h => by have := hp.2.1 c hc; subst h; simp at this)
    hp.1 (Or.inl hp.1)

theorem processChunk_chunkTail (m : List FileDiff) {p : Str} (b : Str) (hp : PathOK p) :
    processChunk none m (chunkTail p b) = insertFile m p (DIFF_SEP ++ chunkTail p b) := by
  rw [processChunk]
  dsimp only
  rw [jsIndexOf_chunkTail hp]
  have hpos : (0 : Int) < ((headerOf p).length : Int) := by
    rw [headerOf]
    simp only [List.length_cons, List.length_append]
    push_cast
    omega
  rw [if_pos hpos, Int.toNat_natCast]
  have htake : (chunkTail p b).take (headerOf p).length = headerOf p := by
    rw [chunkTail, List.take_left]
  rw [htake, parseBPath_header hp]
  dsimp only
  rw [jsTrim_of_no_ws hp.2.1, if_pos hp.2.2]

theorem insertFile_fresh {m : List FileDiff} {p : Str} (full : Str)
    (h : ∀ fd ∈ m, fd.filePath ≠ p) :
    insertFile m p full = m ++ [⟨p, full, full.length⟩] := by
  rw [insertFile, if_neg ?hn]
  case hn =>
    simp only [List.any_eq_true, beq_iff_eq]
    rintro ⟨fd, hfd, heq⟩
    exact h fd hfd heq

theorem mem_takeWhile_ws {pred : Char → Bool} :
    ∀ {l : Str} {c : Char}, c ∈ l.takeWhile pred → pred c = true := by
  intro l
  induction l with
  | nil => intro c h; simp [List.takeWhile] at h
  | cons d ds ih =>
    intro c h
    rw [List.takeWhile] at h
    cases hd : pred d with
    | false => rw [hd] at h; simp at h
    | true =>
      rw [hd] at h
      rcases List.mem_cons.mp h with rfl | h
      · exact hd
      · exact ih h

theorem jsTrim_ne_nil {l : Str} {c : Char} (hc : c ∈ l) (hw : c.isWhitespace = false) :
    jsTrim l ≠ [] := by
  intro h
  rw [jsTrim, List.reverse_eq_nil_iff, List.dropWhile_eq_nil_iff] at h
  have hc1 : c ∈ l.dropWhile Char.isWhitespace := by
    rcases List.mem_append.mp
        (by rw [List.takeWhile_append_dropWhile]; exact hc :
          c ∈ l.takeWhile Char.isWhitespace ++ l.dropWhile Char.isWhitespace) with h1 | h1
    · rw [mem_takeWhile_ws h1] at hw
      exact absurd hw (by simp)
    · exact h1
  have := h c (List.mem_reverse.mpr hc1)
  rw [this] at hw
  exact absurd hw (by simp)

theorem buildDiff_trim_ne {sections : List (Str × Str)} (h : sections ≠ []) :
    jsTrim (buildDiff sections) ≠ [] := by
  obtain ⟨sec, rest, rfl⟩ : ∃ sec rest, sections = sec :: rest := by
    cases sections with
    | nil => exact absurd rfl h
    | cons sec rest => exact ⟨sec, rest, rfl⟩
  have hbd : buildDiff (sec :: rest) =
      DIFF_SEP ++ (chunkTail sec.1 sec.2 ++ buildDiff rest) := by
    simp [buildDiff, sectionOf, List.append_assoc]
  rw [hbd]
  exact jsTrim_ne_nil (c := 'd') (List.mem_append.mpr (Or.inl (by decide))) (by decide)

theorem foldl_fresh_sections :
    ∀ (sections : List (Str × Str)) (m : List FileDiff),
      (∀ sec ∈ sections, PathOK sec.1) →
      (∀ sec ∈ sections, ∀ fd ∈ m, fd.filePath ≠ sec.1) →
      (sections.map Prod.fst).Nodup →
      (sections.map (fun sec => chunkTail sec.1 sec.2)).foldl (processChunk none) m =
        m ++ sections.map chunkRecord := by
  intro sections
  induction sections with
  | nil => intro m _ _ _; simp
  | cons sec rest ih =>
    intro m hok hdis hnodup
    rw [List.map_cons, List.foldl_cons,
      processChunk_chunkTail m sec.2 (hok sec (List.mem_cons_self _ _)),
      insertFile_fresh _ (hdis sec (List.mem_cons_self _ _))]
    rw [List.map_cons] at hnodup
    have hrest := ih (m ++ [⟨sec.1, DIFF_SEP ++ chunkTail sec.1 sec.2,
        (DIFF_SEP ++ chunkTail sec.1 sec.2).length⟩])
      (fun q hq => hok q (List.mem_cons_of_mem _ hq))
      (fun q hq fd hfd => by
        rcases List.mem_append.mp hfd with h1 | h1
        · exact hdis q (List.mem_cons_of_mem _ hq) fd h1
        · rw [List.mem_singleton] at h1
          subst h1
          show sec.1 ≠ q.1
          intro hcontra
          exact (List.nodup_cons.mp hnodup).1 (hcontra ▸ List.mem_map_of_mem Prod.fst hq))
      (List.nodup_cons.mp hnodup).2
    rw [hrest]
    rw [List.map_cons, List.append_assoc]
    rfl

/-- C6 (amended): for every diff built from N sections whose b-paths are
distinct, non-empty, whitespace-free and pass the code's validation rules
(including the `content` rule the spec omits), and whose bodies do not
contain the header introducer, `splitDiffByFiles` returns exactly N records,
one per path, in first-seen order, each carrying its full section text. -/
theorem C6_amended (sections : List (Str × Str))
    (hok : ∀ sec ∈ sections, SectionOK sec)
    (hnodup : (sections.map Prod.fst).Nodup) :
    splitDiffByFiles none (buildDiff sections) = sections.map chunkRecord := by
  rw [splitDiffByFiles]
  cases hsec : sections with
  | nil =>
    rw [if_pos (show jsTrim (buildDiff []) = [] from rfl)]
    rfl
  | cons sec rest =>
    rw [if_neg (buildDiff_trim_ne (by simp))]
    rw [jsSplit_buildDiff (sec :: rest) (hsec ▸ hok)]
    rw [List.drop_one, List.tail_cons]
    exact foldl_fresh_sections (sec :: rest) [] (fun q hq => ((hsec ▸ hok) q hq).1)
      (fun q _ fd hfd => absurd hfd (List.not_mem_nil fd)) (hsec ▸ hnodup)

/-- C6: the claim as stated is false.  The path `src/content.ts` passes
every validation rule the spec lists, yet a diff built from that single
well-formed header yields 0 records instead of 1 — the code additionally
drops any path containing `content` that is shorter than 20 characters. -/
theorem C6_counterexample :
    specValidatePath "src/content.ts".toList = true ∧
    splitDiffByFiles none
      (buildDiff [("src/content.ts".toList, "+x".toList)]) = [] := by
  constructor <;> decide

/-- Witness for C6 (amended) at a concrete two-file diff. -/
theorem C6_amended_witness :
    splitDiffByFiles none
      (buildDiff [("src/a.ts".toList, "+x".toList), ("lib/b.ts".toList, "+y".toList)]) =
      [("src/a.ts".toList, "+x".toList), ("lib/b.ts".toList, "+y".toList)].map chunkRecord :=
  C6_amended [("src/a.ts".toList, "+x".toList), ("lib/b.ts".toList, "+y".toList)]
    (by decide) (by decide)

/-- C7: a diff made of two sections that resolve to the same valid path
yields a single FileDiff whose diff text is the first section, a single
newline, then the second section, and whose size is the length of that
combined text. -/
theorem C7_theorem (p b1 b2 : Str) (hp : PathOK p) (hb1 : BodyOK b1) (hb2 : BodyOK b2) :
    splitDiffByFiles none (buildDiff [(p, b1), (p, b2)]) =
      [⟨p, sectionOf p b1 ++ '\n' :: sectionOf p b2,
        (sectionOf p b1 ++ '\n' :: sectionOf p b2).length⟩] := by
  rw [splitDiffByFiles, if_neg (buildDiff_trim_ne (by simp))]
  rw [jsSplit_buildDiff [(p, b1), (p, b2)]
    (by
      intro sec hsec
      rcases List.mem_cons.mp hsec with rfl | hsec
      · exact ⟨hp, hb1⟩
      · rw [List.mem_singleton] at hsec
        subst hsec
        exact ⟨hp, hb2⟩)]
  rw [List.drop_one, List.tail_cons, List.map_cons, List.map_cons, List.map_nil]
  rw [List.foldl_cons, processChunk_chunkTail [] b1 hp,
    insertFile_fresh _ (fun fd hfd => absurd hfd (List.not_mem_nil fd))]
  rw [List.nil_append, List.foldl_cons, processChunk_chunkTail _ b2 hp]
  rw [insertFile, if_pos (by simp)]
  simp only [List.map_cons, List.map_nil, List.foldl_cons, List.foldl_nil]
  rw [if_pos (by simp)]
  rfl

/-! ## Diff optimisation (`src/utils/diffOptimizer.ts`) -/

theorem splitFirst_single_none {c : Char} :
    ∀ {l : Str}, c ∉ l → splitFirst [c] l = none := by
  intro l
  induction l with
  | nil => intro _; rw [splitFirst]; simp
  | cons d t ih =>
    intro h
    rw [splitFirst]
    have hne : ¬c = d := fun hcd => h (hcd ▸ List.mem_cons_self d t)
    rw [if_neg (by simp [isPre, hne]), ih (fun hm => h (List.mem_cons_of_mem d hm))]
    rfl

theorem splitFirst_single_before {c : Char} :
    ∀ {l b a : Str}, splitFirst [c] l = some (b, a) → c ∉ b := by
  intro l
  induction l with
  | nil =>
    intro b a h
    rw [splitFirst] at h
    simp at h
  | cons d t ih =>
    intro b a h
    rw [splitFirst] at h
    by_cases hp : isPre [c] (d :: t) = true
    · rw [if_pos hp] at h
      injection h with h'
      have hb : b = [] := congrArg Prod.fst h'.symm
      subst hb
      exact List.not_mem_nil c
    · rw [if_neg hp] at h
      cases hs : splitFirst [c] t with
      | none => rw [hs] at h; simp at h
      | some q =>
        rw [hs] at h
        obtain ⟨b', a'⟩ := q
        simp only [Option.map_some'] at h
        injection h with h'
        have hb : b = d :: b' := congrArg Prod.fst h'.symm
        subst hb
        intro hm
        rcases List.mem_cons.mp hm with rfl | hm'
        · exact hp (by simp [isPre])
        · exact ih hs hm'

theorem jsSplit_single_nil (c : Char) : jsSplit [c] ([] : Str) = [[]] := rfl

theorem jsSplit_single_no_occurrence {c : Char} {l : Str} (h : c ∉ l) :
    jsSplit [c] l = [l] :=
  jsSplit_of_none (splitFirst_single_none h)

theorem splitFirst_single_mem {c : Char} :
    ∀ {l : Str}, c ∈ l → splitFirst [c] l ≠ none := by
  intro l
  induction l with
  | nil => intro h; exact absurd h (List.not_mem_nil c)
  | cons d t ih =>
    intro h
    rw [splitFirst]
    by_cases hp : isPre [c] (d :: t) = true
    · rw [if_pos hp]; simp
    · rw [if_neg hp]
      have hne : ¬c = d := fun hcd => hp (by simp [isPre, hcd])
      have hct : c ∈ t := by
        rcases List.mem_cons.mp h with h' | h'
        · exact absurd h' hne
        · exact h'
      cases hs : splitFirst [c] t with
      | none => exact absurd hs (ih hct)
      | some q => simp

theorem mem_jsSplitAux_single {c : Char} :
    ∀ (f : Nat) (l x : Str), l.length ≤ f → x ∈ jsSplitAux [c] f l → c ∉ x := by
  intro f
  induction f with
  | zero =>
    intro l x hf hx
    have hl : l = [] := List.length_eq_zero.mp (Nat.le_zero.mp hf)
    subst hl
    rw [jsSplitAux] at hx
    rw [List.mem_singleton.mp hx]
    exact List.not_mem_nil c
  | succ n ih =>
    intro l x hf hx
    rw [jsSplitAux] at hx
    cases hs : splitFirst [c] l with
    | none =>
      rw [hs] at hx
      rw [List.mem_singleton.mp hx]
      intro hcl
      exact splitFirst_single_mem hcl hs
    | some q =>
      obtain ⟨b, a⟩ := q
      rw [hs] at hx
      rcases List.mem_cons.mp hx with rfl | hx'
      · exact splitFirst_single_before hs
      · have hlt : a.length < l.length := splitFirst_length_lt (by simp) hs
        exact ih a x (by omega) hx'

theorem mem_jsSplit_single {c : Char} {l x : Str} (h : x ∈ jsSplit [c] l) : c ∉ x :=
  mem_jsSplitAux_single l.length l x (Nat.le_refl _) h

theorem jsSplit_single_cons {c x : Char} (hx : ¬x = c) (t : Str) :
    ∃ h r, jsSplit [c] t = h :: r ∧ jsSplit [c] (x :: t) = (x :: h) :: r := by
  have hpre : isPre [c] (x :: t) = false := by
    simp [isPre]
    intro hcx
    exact absurd hcx.symm hx
  cases hs : splitFirst [c] t with
  | none =>
    refine ⟨t, [], jsSplit_of_none hs, ?_⟩
    have hnone : splitFirst [c] (x :: t) = none := by
      rw [splitFirst, if_neg (by rw [hpre]; simp), hs]
      rfl
    exact jsSplit_of_none hnone
  | some q =>
    obtain ⟨b, a⟩ := q
    refine ⟨b, jsSplit [c] a, jsSplit_of_splitFirst (by simp) hs, ?_⟩
    have hsome : splitFirst [c] (x :: t) = some (x :: b, a) := by
      rw [splitFirst, if_neg (by rw [hpre]; simp), hs]
      rfl
    rw [jsSplit_of_splitFirst (by simp) hsome]

theorem jsSplit_single_append (c : Char) :
    ∀ (a b : Str), jsSplit [c] (a ++ c :: b) = jsSplit [c] a ++ jsSplit [c] b := by
  intro a
  induction a with
  | nil =>
    intro b
    have hs : splitFirst [c] (c :: b) = some ([], b) := by
      rw [splitFirst, if_pos (by simp [isPre])]
      rfl
    rw [List.nil_append, jsSplit_of_splitFirst (by simp) hs, jsSplit_single_nil]
    rfl
  | cons x a' ih =>
    intro b
    by_cases hx : x = c
    · subst hx
      have hs : splitFirst [x] (x :: (a' ++ x :: b)) = some ([], a' ++ x :: b) := by
        rw [splitFirst, if_pos (by simp [isPre])]
        rfl
      have hs' : splitFirst [x] (x :: a') = some ([], a') := by
        rw [splitFirst, if_pos (by simp [isPre])]
        rfl
      rw [List.cons_append, jsSplit_of_splitFirst (by simp) hs, ih,
        jsSplit_of_splitFirst (by simp) hs']
      rfl
    · obtain ⟨h, r, ht, hxt⟩ := jsSplit_single_cons hx (a' ++ c :: b)
      obtain ⟨h', r', ha', hxa'⟩ := jsSplit_single_cons hx a'
      rw [ih, ha'] at ht
      rw [List.cons_append, hxt, hxa']
      rw [List.cons_append] at ht
      injection ht with h1 h2
      rw [List.cons_append, h1, h2]

theorem splitLines_append (a b : Str) :
    splitLines (a ++ '\n' :: b) = splitLines a ++ splitLines b :=
  jsSplit_single_append '\n' a b

theorem splitLines_no_newline {l : Str} (h : '\n' ∉ l) : splitLines l = [l] :=
  jsSplit_single_no_occurrence h

theorem splitLines_joinLines_flat :
    ∀ ls : List Str, ls ≠ [] → splitLines (joinLines ls) = ls.flatMap splitLines := by
  intro ls
  induction ls with
  | nil => intro h; exact absurd rfl h
  | cons x rest ih =>
    intro _
    cases rest with
    | nil => simp [joinLines, joinWith, List.flatMap]
    | cons y rest' =>
      have hstep : joinLines (x :: y :: rest') = x ++ '\n' :: joinLines (y :: rest') := by
        rw [joinLines, joinWith]
        rw [List.append_assoc]
        rfl
      rw [hstep, splitLines_append, ih (by simp)]
      simp [List.flatMap]

theorem mem_splitLines_joinLines {ls : List Str} {line : Str}
    (h : line ∈ splitLines (joinLines ls)) :
    (∃ x ∈ ls, line ∈ splitLines x) ∨ line = [] := by
  cases ls with
  | nil =>
    right
    have : splitLines (joinLines []) = [[]] := rfl
    rw [this] at h
    exact List.mem_singleton.mp h
  | cons x rest =>
    left
    rw [splitLines_joinLines_flat (x :: rest) (by simp)] at h
    exact List.mem_flatMap.mp h

theorem digitChar_ne_newline (m : Nat) : Nat.digitChar m ≠ '\n' := by
  rcases Nat.lt_or_ge m 16 with hm | hm
  · interval_cases m <;> decide
  · have h : Nat.digitChar m = '*' := by
      unfold Nat.digitChar
      repeat rw [if_neg (by omega)]
    rw [h]
    decide

theorem toDigitsCore_mem {b : Nat} {c : Char} :
    ∀ (f n : Nat) (ds : List Char), c ∈ Nat.toDigitsCore b f n ds →
      c ∈ ds ∨ ∃ m, c = Nat.digitChar m := by
  intro f
  induction f with
  | zero => intro n ds h; rw [Nat.toDigitsCore] at h; exact Or.inl h
  | succ k ih =>
    intro n ds h
    simp only [Nat.toDigitsCore] at h
    by_cases hz : n / b = 0
    · rw [if_pos hz] at h
      rcases List.mem_cons.mp h with rfl | h'
      · exact Or.inr ⟨n % b, rfl⟩
      · exact Or.inl h'
    · rw [if_neg hz] at h
      rcases ih _ _ h with h' | h'
      · rcases List.mem_cons.mp h' with rfl | h''
        · exact Or.inr ⟨n % b, rfl⟩
        · exact Or.inl h''
      · exact Or.inr h'

theorem natToStr_no_newline (n : Nat) : '\n' ∉ natToStr n := by
  intro h
  have heq : natToStr n = Nat.toDigits 10 n := rfl
  rw [heq, Nat.toDigits] at h
  rcases toDigitsCore_mem _ _ _ h with h' | ⟨m, hm⟩
  · exact List.not_mem_nil _ h'
  · exact digitChar_ne_newline m hm.symm

theorem line_of_mem_lines {src x line : Str} (hx : x ∈ splitLines src)
    (h : line ∈ splitLines x) : line = x := by
  rw [splitLines_no_newline (mem_jsSplit_single hx)] at h
  exact List.mem_singleton.mp h

theorem ctxMarker_ok (n : Nat) :
    isPre SUMMARY_PRE (ctxMarker n) = true ∧ '\n' ∉ ctxMarker n := by
  constructor
  · rw [ctxMarker, List.append_assoc]
    exact isPre_self_append _ _
  · intro h
    rw [ctxMarker] at h
    rcases List.mem_append.mp h with h' | h'
    · rcases List.mem_append.mp h' with h'' | h''
      · exact absurd h'' (by decide)
      · exact natToStr_no_newline _ h''
    · exact absurd h' (by decide)

theorem wsMarker_ok (n : Nat) :
    isPre SUMMARY_PRE (wsMarker n) = true ∧ '\n' ∉ wsMarker n := by
  constructor
  · rw [wsMarker, List.append_assoc]
    exact isPre_self_append _ _
  · intro h
    rw [wsMarker] at h
    rcases List.mem_append.mp h with h' | h'
    · rcases List.mem_append.mp h' with h'' | h''
      · exact absurd h'' (by decide)
      · exact natToStr_no_newline _ h''
    · exact absurd h' (by decide)

theorem truncMarker_eq (n : Nat) :
    truncMarker n = '\n' :: (SUMMARY_PRE ++ natToStr n ++
      " more lines truncated to reduce token usage) ...".toList) := by
  rw [truncMarker]
  rfl

theorem truncMarker_lines {n : Nat} {line : Str}
    (h : line ∈ splitLines (truncMarker n)) :
    line = [] ∨ (isPre SUMMARY_PRE line = true ∧ '\n' ∉ line) := by
  rw [truncMarker_eq] at h
  have hsplit : splitLines ('\n' :: (SUMMARY_PRE ++ natToStr n ++
      " more lines truncated to reduce token usage) ...".toList)) =
      [[], SUMMARY_PRE ++ natToStr n ++
        " more lines truncated to reduce token usage) ...".toList] := by
    have h1 := splitLines_append [] (SUMMARY_PRE ++ natToStr n ++
      " more lines truncated to reduce token usage) ...".toList)
    rw [List.nil_append] at h1
    rw [h1]
    have hnl : '\n' ∉ SUMMARY_PRE ++ natToStr n ++
        " more lines truncated to reduce token usage) ...".toList := by
      intro hm
      rcases List.mem_append.mp hm with h' | h'
      · rcases List.mem_append.mp h' with h'' | h''
        · exact absurd h'' (by decide)
        · exact natToStr_no_newline _ h''
      · exact absurd h' (by decide)
    rw [splitLines_no_newline hnl]
    rfl
  rw [hsplit] at h
  rcases List.mem_cons.mp h with rfl | h'
  · exact Or.inl rfl
  · right
    rw [List.mem_singleton.mp h']
    refine ⟨?_, ?_⟩
    · rw [List.append_assoc]
      exact isPre_self_append _ _
    · intro hm
      rcases List.mem_append.mp hm with h'' | h''
      · rcases List.mem_append.mp h'' with h3 | h3
        · exact absurd h3 (by decide)
        · exact natToStr_no_newline _ h3
      · exact absurd h'' (by decide)

theorem removeBinaryIndicators_lines {d line : Str}
    (h : line ∈ splitLines (removeBinaryIndicators d)) :
    line ∈ splitLines d ∨ line = [] := by
  rw [removeBinaryIndicators] at h
  rcases mem_splitLines_joinLines h with ⟨x, hx, hlx⟩ | h0
  · left
    have hxd : x ∈ splitLines d := (List.mem_filter.mp hx).1
    rw [line_of_mem_lines hxd hlx]
    exact hxd
  · exact Or.inr h0

theorem truncateFileDiff_lines {d line : Str}
    (h : line ∈ splitLines (truncateFileDiff d)) :
    line ∈ splitLines d ∨ isPre SUMMARY_PRE line = true ∨ line = [] := by
  rw [truncateFileDiff] at h
  dsimp only at h
  split at h
  · exact Or.inl h
  · split at h
    · exact Or.inl h
    · rcases mem_splitLines_joinLines h with ⟨x, hx, hlx⟩ | h0
      · rcases List.mem_append.mp hx with hx' | hx'
        · rcases List.mem_append.mp hx' with hx'' | hx''
          · have hxd : x ∈ splitLines d := by
              split at hx''
              · exact List.mem_of_mem_take hx''
              · exact absurd hx'' (List.not_mem_nil x)
            rw [line_of_mem_lines hxd hlx]
            exact Or.inl hxd
          · have hxd : x ∈ splitLines d :=
              List.mem_of_mem_drop (List.mem_of_mem_take hx'')
            rw [line_of_mem_lines hxd hlx]
            exact Or.inl hxd
        · rw [List.mem_singleton.mp hx'] at hlx
          rcases truncMarker_lines hlx with h' | h'
          · exact Or.inr (Or.inr h')
          · exact Or.inr (Or.inl h'.1)
      · exact Or.inr (Or.inr h0)

theorem flushContext_joinEl {src : Str} {ctx : List Str}
    (hctx : ∀ l ∈ ctx, l ∈ splitLines src) :
    ∀ l ∈ flushContext ctx, JoinEl src l := by
  intro l hl
  rw [flushContext] at hl
  split at hl
  · rcases List.mem_append.mp hl with h' | h'
    · rcases List.mem_append.mp h' with h'' | h''
      · exact Or.inl (hctx l (List.mem_of_mem_take h''))
      · rw [List.mem_singleton.mp h'']
        exact Or.inr (ctxMarker_ok _)
    · exact Or.inl (hctx l (List.mem_of_mem_drop h'))
  · exact Or.inl (hctx l hl)

theorem flushWs_joinEl {src : Str} {block : List Str}
    (hblock : ∀ l ∈ block, l ∈ splitLines src) :
    ∀ l ∈ flushWs block, JoinEl src l := by
  intro l hl
  rw [flushWs] at hl
  split at hl
  · rw [List.mem_singleton.mp hl]
    exact Or.inr (wsMarker_ok _)
  · exact Or.inl (hblock l hl)

theorem summarize_foldl_joinEl {src : Str} :
    ∀ (lines res ctx : List Str),
      (∀ l ∈ lines, l ∈ splitLines src) →
      (∀ l ∈ res, JoinEl src l) →
      (∀ l ∈ ctx, l ∈ splitLines src) →
      ∀ l ∈ (lines.foldl summarizeStep (res, ctx)).1 ++
        flushContext (lines.foldl summarizeStep (res, ctx)).2, JoinEl src l := by
  intro lines
  induction lines with
  | nil =>
    intro res ctx _ hres hctx l hl
    simp only [List.foldl_nil] at hl
    rcases List.mem_append.mp hl with h' | h'
    · exact hres l h'
    · exact flushContext_joinEl hctx l h'
  | cons ln rest ih =>
    intro res ctx hlines hres hctx l hl
    have hln : ln ∈ splitLines src := hlines ln (List.mem_cons_self _ _)
    have hrest : ∀ l ∈ rest, l ∈ splitLines src :=
      fun x hx => hlines x (List.mem_cons_of_mem _ hx)
    simp only [List.foldl_cons, summarizeStep] at hl
    split at hl
    · refine ih res (ctx ++ [ln]) hrest hres ?_ l hl
      intro x hx
      rcases List.mem_append.mp hx with h' | h'
      · exact hctx x h'
      · rw [List.mem_singleton.mp h']
        exact hln
    · refine ih (res ++ flushContext ctx ++ [ln]) [] hrest ?_ (by simp) l hl
      intro x hx
      rcases List.mem_append.mp hx with h' | h'
      · rcases List.mem_append.mp h' with h'' | h''
        · exact hres x h''
        · exact flushContext_joinEl hctx x h''
      · rw [List.mem_singleton.mp h']
        exact Or.inl hln

theorem compress_foldl_joinEl {src : Str} :
    ∀ (lines res ctx : List Str),
      (∀ l ∈ lines, l ∈ splitLines src) →
      (∀ l ∈ res, JoinEl src l) →
      (∀ l ∈ ctx, l ∈ splitLines src) →
      ∀ l ∈ (lines.foldl compressStep (res, ctx)).1 ++
        flushWs (lines.foldl compressStep (res, ctx)).2, JoinEl src l := by
  intro lines
  induction lines with
  | nil =>
    intro res ctx _ hres hctx l hl
    simp only [List.foldl_nil] at hl
    rcases List.mem_append.mp hl with h' | h'
    · exact hres l h'
    · exact flushWs_joinEl hctx l h'
  | cons ln rest ih =>
    intro res ctx hlines hres hctx l hl
    have hln : ln ∈ splitLines src := hlines ln (List.mem_cons_self _ _)
    have hrest : ∀ l ∈ rest, l ∈ splitLines src :=
      fun x hx => hlines x (List.mem_cons_of_mem _ hx)
    simp only [List.foldl_cons, compressStep] at hl
    split at hl
    · refine ih res (ctx ++ [ln]) hrest hres ?_ l hl
      intro x hx
      rcases List.mem_append.mp hx with h' | h'
      · exact hctx x h'
      · rw [List.mem_singleton.mp h']
        exact hln
    · refine ih (res ++ flushWs ctx ++ [ln]) [] hrest ?_ (by simp) l hl
      intro x hx
      rcases List.mem_append.mp hx with h' | h'
      · rcases List.mem_append.mp h' with h'' | h''
        · exact hres x h''
        · exact flushWs_joinEl hctx x h''
      · rw [List.mem_singleton.mp h']
        exact Or.inl hln

theorem summarizeContextLines_lines {d line : Str}
    (h : line ∈ splitLines (summarizeContextLines d)) :
    line ∈ splitLines d ∨ isPre SUMMARY_PRE line = true ∨ line = [] := by
  rw [summarizeContextLines] at h
  rcases mem_splitLines_joinLines h with ⟨x, hx, hlx⟩ | h0
  · have hj : JoinEl d x :=
      summarize_foldl_joinEl (splitLines d) [] [] (fun _ hm => hm) (by simp) (by simp) x hx
    rcases hj with hj | ⟨hpre, hnl⟩
    · rw [line_of_mem_lines hj hlx]
      exact Or.inl hj
    · rw [splitLines_no_newline hnl] at hlx
      rw [List.mem_singleton.mp hlx]
      exact Or.inr (Or.inl hpre)
  · exact Or.inr (Or.inr h0)

theorem compressWhitespaceChanges_lines {d line : Str}
    (h : line ∈ splitLines (compressWhitespaceChanges d)) :
    line ∈ splitLines d ∨ isPre SUMMARY_PRE line = true ∨ line = [] := by
  rw [compressWhitespaceChanges] at h
  rcases mem_splitLines_joinLines h with ⟨x, hx, hlx⟩ | h0
  · have hj : JoinEl d x :=
      compress_foldl_joinEl (splitLines d) [] [] (fun _ hm => hm) (by simp) (by simp) x hx
    rcases hj with hj | ⟨hpre, hnl⟩
    · rw [line_of_mem_lines hj hlx]
      exact Or.inl hj
    · rw [splitLines_no_newline hnl] at hlx
      rw [List.mem_singleton.mp hlx]
      exact Or.inr (Or.inl hpre)
  · exact Or.inr (Or.inr h0)

theorem optimizePipeline_lines {d line : Str}
    (h : line ∈ splitLines (optimizePipeline d)) :
    line ∈ splitLines d ∨ isPre SUMMARY_PRE line = true ∨ line = [] := by
  rw [optimizePipeline] at h
  rcases compressWhitespaceChanges_lines h with h1 | h1
  · rcases summarizeContextLines_lines h1 with h2 | h2
    · rcases truncateFileDiff_lines h2 with h3 | h3
      · rcases removeBinaryIndicators_lines h3 with h4 | h4
        · exact Or.inl h4
        · exact Or.inr (Or.inr h4)
      · exact Or.inr h3
    · exact Or.inr h2
  · exact Or.inr h1


theorem length_flatten_replicate (y : Str) :
    ∀ n : Nat, (List.replicate n y).flatten.length = n * y.length := by
  intro n
  induction n with
  | zero => simp
  | succ k ih =>
    rw [List.replicate_succ, List.flatten_cons, List.length_append, ih, Nat.succ_mul]
    omega

theorem splitLines_head_replicate {h x : Str} (hh : '\n' ∉ h) (hx : '\n' ∉ x) :
    ∀ n, splitLines (h ++ (List.replicate n ('\n' :: x)).flatten) =
      h :: List.replicate n x := by
  intro n
  induction n generalizing h with
  | zero => rw [List.replicate, List.flatten_nil, List.append_nil, splitLines_no_newline hh]; rfl
  | succ k ih =>
    rw [List.replicate_succ, List.flatten_cons, ← List.append_assoc]
    have hmid : h ++ ('\n' :: x) ++ (List.replicate k ('\n' :: x)).flatten =
        h ++ '\n' :: (x ++ (List.replicate k ('\n' :: x)).flatten) := by
      rw [List.append_assoc]
      rfl
    rw [hmid, splitLines_append, splitLines_no_newline hh, ih hx]
    rfl

theorem flatMap_splitLines_nlfree :
    ∀ {ls : List Str}, (∀ x ∈ ls, '\n' ∉ x) → ls.flatMap splitLines = ls := by
  intro ls
  induction ls with
  | nil => intro _; rfl
  | cons x t ih =>
    intro h
    rw [List.flatMap_cons, splitLines_no_newline (h x (List.mem_cons_self _ _)),
      ih (fun y hy => h y (List.mem_cons_of_mem _ hy))]
    rfl

theorem splitLines_joinLines_nlfree {ls : List Str} (h0 : ls ≠ [])
    (h : ∀ x ∈ ls, '\n' ∉ x) : splitLines (joinLines ls) = ls := by
  rw [splitLines_joinLines_flat ls h0, flatMap_splitLines_nlfree h]

theorem removeBinaryIndicators_flat {d : Str}
    (h : ∀ l ∈ splitLines d, isBinaryIndicator l = false) :
    removeBinaryIndicators d = joinLines (splitLines d) := by
  rw [removeBinaryIndicators, List.filter_eq_self.mpr]
  intro a ha
  rw [h a ha]
  rfl

theorem summarize_foldl_flat :
    ∀ (lines res : List Str),
      (∀ l ∈ lines, (isPre [' '] l && !(isPre "@@".toList l)) = false) →
      lines.foldl summarizeStep (res, []) = (res ++ lines, []) := by
  intro lines
  induction lines with
  | nil => intro res _; rw [List.foldl_nil, List.append_nil]
  | cons ln rest ih =>
    intro res h
    have hstep : summarizeStep (res, []) ln = (res ++ [ln], []) := by
      rw [summarizeStep, if_neg (by rw [h ln (List.mem_cons_self _ _)]; simp)]
      rw [show flushContext [] = [] from rfl, List.append_nil]
    rw [List.foldl_cons, hstep, ih (res ++ [ln])
      (fun l hl => h l (List.mem_cons_of_mem _ hl)), List.append_assoc]
    rfl

theorem summarizeContextLines_flat {d : Str}
    (h : ∀ l ∈ splitLines d, (isPre [' '] l && !(isPre "@@".toList l)) = false) :
    summarizeContextLines d = joinLines (splitLines d) := by
  rw [summarizeContextLines, summarize_foldl_flat _ [] h]
  rw [show flushContext [] = [] from rfl, List.append_nil, List.nil_append]

theorem compress_foldl_flat :
    ∀ (lines res : List Str),
      (∀ l ∈ lines, isWhitespaceOnly l = false) →
      lines.foldl compressStep (res, []) = (res ++ lines, []) := by
  intro lines
  induction lines with
  | nil => intro res _; rw [List.foldl_nil, List.append_nil]
  | cons ln rest ih =>
    intro res h
    have hstep : compressStep (res, []) ln = (res ++ [ln], []) := by
      rw [compressStep, if_neg (by rw [h ln (List.mem_cons_self _ _)]; simp)]
      rw [show flushWs [] = [] from rfl, List.append_nil]
    rw [List.foldl_cons, hstep, ih (res ++ [ln])
      (fun l hl => h l (List.mem_cons_of_mem _ hl)), List.append_assoc]
    rfl

theorem compressWhitespaceChanges_flat {d : Str}
    (h : ∀ l ∈ splitLines d, isWhitespaceOnly l = false) :
    compressWhitespaceChanges d = joinLines (splitLines d) := by
  rw [compressWhitespaceChanges, compress_foldl_flat _ [] h]
  rw [show flushWs [] = [] from rfl, List.append_nil, List.nil_append]

theorem artifact_lines :
    splitLines artifactDiff = artifactHeader :: List.replicate 501 artifactLine := by
  rw [artifactDiff]
  exact splitLines_head_replicate (by decide) (by decide) 501

theorem artifact_len : artifactDiff.length = 5522 := by
  rw [artifactDiff, List.length_append, length_flatten_replicate]
  decide

theorem artifact_no_d : 'd' ∉ artifactDiff := by
  rw [artifactDiff]
  intro hm
  rcases List.mem_append.mp hm with h' | h'
  · exact absurd h' (by decide)
  · rcases List.mem_flatten.mp h' with ⟨y, hy, hmy⟩
    rw [List.eq_of_mem_replicate hy] at hmy
    exact absurd hmy (by decide)

theorem artifact_sep_none : splitFirst DIFF_SEP artifactDiff = none := by
  refine splitFirst_none_of_no_occurrence (by decide) _ ?_
  intro s hs hne
  cases s with
  | nil => exact absurd rfl hne
  | cons c s' =>
    have hc : c ∈ artifactDiff := hs.subset (List.mem_cons_self _ _)
    have hcd : ¬('d' = c) := fun he => artifact_no_d (he ▸ hc)
    have hD : DIFF_SEP = 'd' :: "iff --git ".toList := by decide
    rw [hD]
    simp [isPre, hcd]

theorem optimizeDiff_artifact :
    optimizeDiff artifactDiff = optimizePipeline artifactDiff := by
  have hg1 : ¬(artifactDiff = [] ∨ (jsTrim artifactDiff).length = 0) := by
    rintro (h | h)
    · have hl := artifact_len
      rw [h] at hl
      simp at hl
    · have hat : '@' ∈ artifactDiff := by
        rw [artifactDiff]
        exact List.mem_append.mpr (Or.inl (by decide))
      exact jsTrim_ne_nil hat (by decide) (List.length_eq_zero.mp h)
  have hg2 : ¬(artifactDiff.length < 5000) := by
    rw [artifact_len]
    decide
  rw [optimizeDiff, if_neg hg1, if_neg hg2]
  dsimp only
  rw [jsSplit_of_none artifact_sep_none]
  rw [if_pos (by simp)]

theorem truncateFileDiff_eval {d hd : Str} {rest : List Str}
    (hsl : splitLines d = hd :: rest)
    (hhd : isHeaderLine hd = true)
    (hlen : MAX_LINES_PER_FILE < rest.length) :
    truncateFileDiff d = joinLines ([hd] ++ rest.take MAX_LINES_PER_FILE ++
      [truncMarker (rest.length - MAX_LINES_PER_FILE)]) := by
  rw [truncateFileDiff]
  simp only [hsl]
  rw [if_neg (by rw [List.length_cons]; omega)]
  rw [List.findIdx?_cons, if_pos hhd]
  dsimp only
  norm_num
  intro hc
  exact absurd hc (by omega)

theorem artifact_remove :
    removeBinaryIndicators artifactDiff =
      joinLines (artifactHeader :: List.replicate 501 artifactLine) := by
  have hbin : ∀ l ∈ splitLines artifactDiff, isBinaryIndicator l = false := by
    rw [artifact_lines]
    intro l hl
    rcases List.mem_cons.mp hl with rfl | hl'
    · decide
    · rw [List.eq_of_mem_replicate hl']
      decide
  rw [removeBinaryIndicators_flat hbin, artifact_lines]

theorem artifact_nl0 :
    ∀ x ∈ artifactHeader :: List.replicate 501 artifactLine, '\n' ∉ x := by
  intro x hx
  rcases List.mem_cons.mp hx with rfl | hx'
  · decide
  · rw [List.eq_of_mem_replicate hx']
    decide

theorem artifact_trunc :
    truncateFileDiff (removeBinaryIndicators artifactDiff) =
      joinLines ([artifactHeader] ++ List.replicate 500 artifactLine ++ [truncMarker 1]) := by
  have hres1 : splitLines (removeBinaryIndicators artifactDiff) =
      artifactHeader :: List.replicate 501 artifactLine := by
    rw [artifact_remove, splitLines_joinLines_nlfree (List.cons_ne_nil _ _) artifact_nl0]
  have h := truncateFileDiff_eval hres1 (by decide)
    (by rw [List.length_replicate]; decide)
  rw [h, List.take_replicate, List.length_replicate]
  simp only [MAX_LINES_PER_FILE]
  norm_num

theorem artifact_trunc_lines :
    splitLines (joinLines ([artifactHeader] ++ List.replicate 500 artifactLine ++
        [truncMarker 1])) =
      artifactHeader :: (List.replicate 500 artifactLine ++ [[], artifactMarkerLine]) := by
  rw [splitLines_joinLines_flat _ (by exact List.cons_ne_nil _ _)]
  rw [List.flatMap_append, List.flatMap_append]
  rw [show ([artifactHeader] : List Str).flatMap splitLines = [artifactHeader] from by
    rw [List.flatMap_cons, List.flatMap_nil, splitLines_no_newline (by decide), List.append_nil]]
  rw [flatMap_splitLines_nlfree (fun x hx => by
    rw [List.eq_of_mem_replicate hx]; decide)]
  rw [show ([truncMarker 1] : List Str).flatMap splitLines = [[], artifactMarkerLine] from by
    rw [List.flatMap_cons, List.flatMap_nil, List.append_nil]
    decide]
  rfl

theorem artifact_lines3_cases {l : Str}
    (hl : l ∈ artifactHeader :: (List.replicate 500 artifactLine ++ [[], artifactMarkerLine])) :
    l = artifactHeader ∨ l = artifactLine ∨ l = [] ∨ l = artifactMarkerLine := by
  rcases List.mem_cons.mp hl with rfl | hl'
  · exact Or.inl rfl
  · rcases List.mem_append.mp hl' with h' | h'
    · exact Or.inr (Or.inl (List.eq_of_mem_replicate h'))
    · rcases List.mem_cons.mp h' with rfl | h''
      · exact Or.inr (Or.inr (Or.inl rfl))
      · exact Or.inr (Or.inr (Or.inr (List.mem_singleton.mp h'')))

theorem artifact_nl3 :
    ∀ x ∈ artifactHeader :: (List.replicate 500 artifactLine ++ [[], artifactMarkerLine]),
      '\n' ∉ x := by
  intro x hx
  rcases artifact_lines3_cases hx with rfl | rfl | rfl | rfl <;> decide

theorem artifact_summarize :
    summarizeContextLines (joinLines ([artifactHeader] ++ List.replicate 500 artifactLine ++
        [truncMarker 1])) =
      joinLines (artifactHeader :: (List.replicate 500 artifactLine ++
        [[], artifactMarkerLine])) := by
  have hnoctx : ∀ l ∈ splitLines (joinLines ([artifactHeader] ++
      List.replicate 500 artifactLine ++ [truncMarker 1])),
      (isPre [' '] l && !(isPre "@@".toList l)) = false := by
    rw [artifact_trunc_lines]
    intro l hl
    rcases artifact_lines3_cases hl with rfl | rfl | rfl | rfl <;> decide
  rw [summarizeContextLines_flat hnoctx, artifact_trunc_lines]

theorem artifact_compress :
    compressWhitespaceChanges (joinLines (artifactHeader ::
        (List.replicate 500 artifactLine ++ [[], artifactMarkerLine]))) =
      joinLines (artifactHeader :: (List.replicate 500 artifactLine ++
        [[], artifactMarkerLine])) := by
  have hflat3 : splitLines (joinLines (artifactHeader ::
      (List.replicate 500 artifactLine ++ [[], artifactMarkerLine]))) =
      artifactHeader :: (List.replicate 500 artifactLine ++ [[], artifactMarkerLine]) :=
    splitLines_joinLines_nlfree (List.cons_ne_nil _ _) artifact_nl3
  have hws : ∀ l ∈ splitLines (joinLines (artifactHeader ::
      (List.replicate 500 artifactLine ++ [[], artifactMarkerLine]))),
      isWhitespaceOnly l = false := by
    rw [hflat3]
    intro l hl
    rcases artifact_lines3_cases hl with rfl | rfl | rfl | rfl <;> decide
  rw [compressWhitespaceChanges_flat hws, hflat3]

theorem artifact_pipeline :
    optimizePipeline artifactDiff =
      joinLines (artifactHeader :: (List.replicate 500 artifactLine ++
        [[], artifactMarkerLine])) := by
  rw [optimizePipeline, artifact_trunc, artifact_summarize, artifact_compress]

/-- C9: the claim as stated is false.  On a 5522-character single-chunk diff
of 502 non-empty lines, `optimizeDiff` truncates and the truncation marker's
leading newline leaves an empty output line that occurs nowhere in the input
and carries no summary marking (and is silently inserted, altering the line
structure). -/
theorem C9_counterexample :
    [] ∈ splitLines (optimizeDiff artifactDiff) ∧
    [] ∉ splitLines artifactDiff ∧
    isPre SUMMARY_PRE ([] : Str) = false := by
  refine ⟨?_, ?_, by decide⟩
  · rw [optimizeDiff_artifact, artifact_pipeline,
      splitLines_joinLines_nlfree (List.cons_ne_nil _ _) artifact_nl3]
    exact List.mem_cons_of_mem _ (List.mem_append.mpr (Or.inr (List.mem_cons_self _ _)))
  · rw [artifact_lines]
    intro hm
    rcases List.mem_cons.mp hm with h | h
    · exact absurd h (by decide)
    · exact absurd (List.eq_of_mem_replicate h) (by decide)

/-- Witness for C7 at a concrete duplicated-path diff. -/
theorem C7_theorem_witness :
    splitDiffByFiles none
      (buildDiff [("src/a.ts".toList, "+x".toList), ("src/a.ts".toList, "+y".toList)]) =
      [⟨"src/a.ts".toList,
        sectionOf "src/a.ts".toList "+x".toList ++
          '\n' :: sectionOf "src/a.ts".toList "+y".toList,
        (sectionOf "src/a.ts".toList "+x".toList ++
          '\n' :: sectionOf "src/a.ts".toList "+y".toList).length⟩] :=
  C7_theorem "src/a.ts".toList "+x".toList "+y".toList (by decide) (by decide) (by decide)

theorem jsSplitAux_ne_nil (sep : Str) : ∀ (f : Nat) (l : Str), jsSplitAux sep f l ≠ [] := by
  intro f l
  cases f with
  | zero => simp [jsSplitAux]
  | succ n =>
    rw [jsSplitAux]
    cases h : splitFirst sep l with
    | none => simp
    | some q =>
      obtain ⟨b, a⟩ := q
      simp

theorem splitLines_ne_nil (l : Str) : splitLines l ≠ [] :=
  jsSplitAux_ne_nil _ _ _

theorem splitLines_cons_form (l : Str) : ∃ h T, splitLines l = h :: T := by
  cases hl : splitLines l with
  | nil => exact absurd hl (splitLines_ne_nil l)
  | cons h T => exact ⟨h, T, rfl⟩

theorem splitLines_concat_form (l : Str) : ∃ X xl, splitLines l = X ++ [xl] := by
  have h := splitLines_ne_nil l
  exact ⟨(splitLines l).dropLast, (splitLines l).getLast h,
    (List.dropLast_append_getLast h).symm⟩

theorem splitLines_cons_nl (x : Str) : splitLines ('\n' :: x) = [] :: splitLines x := by
  have h := splitLines_append [] x
  rw [List.nil_append] at h
  rw [h]
  rfl

theorem splitLines_endnl (x : Str) : splitLines (x ++ ['\n']) = splitLines x ++ [[]] := by
  have h := splitLines_append x []
  exact h

theorem splitLines_glue : ∀ (x : Str) {y : Str} {X : List Str} {xl yh : Str} {Y : List Str},
    splitLines x = X ++ [xl] → splitLines y = yh :: Y →
    splitLines (x ++ y) = X ++ (xl ++ yh) :: Y := by
  intro x
  induction x with
  | nil =>
    intro y X xl yh Y hx hy
    have hnil : ([[]] : List Str) = X ++ [xl] := hx
    cases X with
    | nil =>
      have hxl : xl = [] := by
        rw [List.nil_append] at hnil
        injection hnil with h1
        exact h1.symm
      subst hxl
      simp only [List.nil_append]
      exact hy
    | cons X0 X' =>
      exfalso
      have := congrArg List.length hnil
      simp at this
  | cons c x' ih =>
    intro y X xl yh Y hx hy
    by_cases hc : c = '\n'
    · subst hc
      rw [splitLines_cons_nl] at hx
      cases X with
      | nil =>
        exfalso
        rw [List.nil_append] at hx
        have h1 : splitLines x' = [] := by
          have := congrArg List.tail hx
          simpa using this.symm
        exact splitLines_ne_nil x' h1
      | cons X0 X' =>
        rw [List.cons_append] at hx
        injection hx with h1 h2
        rw [List.cons_append, splitLines_cons_nl, ih h2 hy, ← h1, List.cons_append]
    · obtain ⟨h, r, ht, hxt⟩ := jsSplit_single_cons hc (x' ++ y)
      obtain ⟨h', r', hx', hcx'⟩ := jsSplit_single_cons hc x'
      have ht2 : splitLines (x' ++ y) = h :: r := ht
      have hxt2 : splitLines (c :: (x' ++ y)) = (c :: h) :: r := hxt
      have hx'2 : splitLines x' = h' :: r' := hx'
      have hcx'2 : splitLines (c :: x') = (c :: h') :: r' := hcx'
      rw [hcx'2] at hx
      cases X with
      | nil =>
        rw [List.nil_append] at hx
        injection hx with ha hb
        rw [hb] at hx'2
        have hxy := ih (X := []) (by rw [hx'2]; rfl) hy
        rw [List.nil_append] at hxy
        rw [hxy] at ht2
        injection ht2 with hh hr
        rw [List.cons_append, hxt2, List.nil_append, ← ha, List.cons_append, hh, hr]
      | cons X0 X' =>
        rw [List.cons_append] at hx
        injection hx with h1 h2
        have hxy := ih (X := h' :: X') (by rw [hx'2, h2]; rfl) hy
        rw [hxy] at ht2
        rw [List.cons_append] at ht2
        injection ht2 with hh hr
        rw [List.cons_append, hxt2, ← h1, ← hh, ← hr, List.cons_append]

theorem joinLines_jsSplitAux : ∀ (f : Nat) (l : Str), l.length ≤ f →
    joinLines (jsSplitAux ['\n'] f l) = l := by
  intro f
  induction f with
  | zero =>
    intro l hf
    obtain rfl := List.length_eq_zero.mp (Nat.le_zero.mp hf)
    rfl
  | succ n ih =>
    intro l hf
    rw [jsSplitAux]
    cases hs : splitFirst ['\n'] l with
    | none => rfl
    | some q =>
      obtain ⟨b, a⟩ := q
      have hba := splitFirst_eq_append hs
      have hlt : a.length < l.length := splitFirst_length_lt (by simp) hs
      have hrec := ih a (by omega)
      cases hL : jsSplitAux ['\n'] n a with
      | nil => exact absurd hL (jsSplitAux_ne_nil _ _ _)
      | cons L0 L' =>
        dsimp only
        rw [hL]
        show joinWith ['\n'] (b :: L0 :: L') = l
        rw [joinWith]
        rw [hL] at hrec
        show b ++ ['\n'] ++ joinWith ['\n'] (L0 :: L') = l
        rw [show joinWith ['\n'] (L0 :: L') = joinLines (L0 :: L') from rfl, hrec, hba]

theorem joinLines_splitLines (l : Str) : joinLines (splitLines l) = l :=
  joinLines_jsSplitAux l.length l (Nat.le_refl _)

theorem jsReplaceFirst_sep_pre {sep : Str} (hsep : sep ≠ []) (rest : Str) :
    jsReplaceFirst sep [] (sep ++ rest) = rest := by
  rw [jsReplaceFirst, splitFirst_sep_pre hsep]
  simp

theorem suffix_of_suffix_le {s₁ s₂ l : Str} (h₁ : s₁ <:+ l) (h₂ : s₂ <:+ l)
    (hle : s₁.length ≤ s₂.length) : s₁ <:+ s₂ := by
  obtain ⟨t₁, ht₁⟩ := h₁
  obtain ⟨t₂, ht₂⟩ := h₂
  have hlen : t₁.length + s₁.length = t₂.length + s₂.length := by
    have := congrArg List.length (ht₁.trans ht₂.symm)
    simpa using this
  have hk : t₁.length = t₂.length + (t₁.length - t₂.length) := by omega
  have hs1 : s₁ = List.drop (t₁.length - t₂.length) s₂ := by
    have hd : List.drop t₁.length (t₁ ++ s₁) = s₁ := List.drop_left _ _
    rw [ht₁, ← ht₂] at hd
    rw [hk, List.drop_append] at hd
    exact hd.symm
  rw [hs1]
  exact List.drop_suffix _ _

theorem suffix_concat_last {s u : Str} {c : Char} (hs : s <:+ u ++ [c]) (hne : s ≠ []) :
    ∃ s', s = s' ++ [c] := by
  obtain ⟨v, hv⟩ := hs
  cases hsr : s.reverse with
  | nil =>
    exfalso
    apply hne
    rw [← List.reverse_reverse s, hsr]
    rfl
  | cons d w =>
    have hsw : s = w.reverse ++ [d] := by
      rw [← List.reverse_reverse s, hsr]
      exact List.reverse_cons d w
    have hd : d = c := by
      have h2 := congrArg List.reverse hv
      rw [List.reverse_append, List.reverse_append, hsr] at h2
      rw [List.cons_append] at h2
      have h3 : ([c] : Str).reverse ++ u.reverse = c :: u.reverse := by simp
      rw [h3] at h2
      injection h2
    exact ⟨w.reverse, by rw [hsw, hd]⟩

theorem jsTrim_cons_head {c : Char} {t : Str} (hc : c.isWhitespace = false) :
    ∃ t', jsTrim (c :: t) = c :: t' := by
  rw [jsTrim]
  rw [List.dropWhile_cons, if_neg (by rw [hc]; simp)]
  have hsuf : (c :: t).reverse.dropWhile Char.isWhitespace <:+ (c :: t).reverse :=
    List.dropWhile_suffix _
  have hne : (c :: t).reverse.dropWhile Char.isWhitespace ≠ [] := by
    rw [Ne, List.dropWhile_eq_nil_iff]
    push_neg
    exact ⟨c, by simp, by rw [hc]; simp⟩
  have hrev : (c :: t).reverse = t.reverse ++ [c] := by simp
  rw [hrev] at hsuf hne ⊢
  obtain ⟨s', hs'⟩ := suffix_concat_last hsuf hne
  refine ⟨s'.reverse, ?_⟩
  rw [hs']
  simp

theorem sep_cons : DIFF_SEP = 'd' :: "iff --git ".toList := by decide

theorem isBinaryIndicator_sep (f : Str) : isBinaryIndicator (DIFF_SEP ++ f) = false := by
  rw [sep_cons, List.cons_append, isBinaryIndicator]
  obtain ⟨t', ht'⟩ := jsTrim_cons_head (c := 'd') (t := "iff --git ".toList ++ f) (by decide)
  rw [ht']
  have h1 : isPre "Binary files".toList ('d' :: t') = false := by
    rw [show "Binary files".toList = 'B' :: "inary files".toList from by decide]
    simp [isPre]
  rw [h1]
  rfl

theorem sep_line_not_ctx (f : Str) :
    (isPre [' '] (DIFF_SEP ++ f) && !(isPre "@@".toList (DIFF_SEP ++ f))) = false := by
  rw [sep_cons, List.cons_append]
  have h1 : isPre [' '] ('d' :: ("iff --git ".toList ++ f)) = false := by
    simp [isPre]
  rw [h1]
  rfl

theorem sep_line_not_ws (f : Str) : isWhitespaceOnly (DIFF_SEP ++ f) = false := by
  rw [sep_cons, List.cons_append, isWhitespaceOnly]
  have h1 : isPre ['+'] ('d' :: ("iff --git ".toList ++ f)) = false := by
    simp [isPre]
  have h2 : isPre ['-'] ('d' :: ("iff --git ".toList ++ f)) = false := by
    simp [isPre]
  rw [h1, h2]
  rfl

theorem suffix_lines_sub {diff w : Str} (hw : w <:+ diff)
    (hinit : w = diff ∨ ('\n' :: w) <:+ diff) :
    ∀ l ∈ splitLines w, l ∈ splitLines diff := by
  rcases hinit with rfl | hnl
  · exact fun l hl => hl
  · obtain ⟨pre, hpre⟩ := hnl
    intro l hl
    rw [← hpre, splitLines_append]
    exact List.mem_append_right _ hl

theorem summary_pre_cons : SUMMARY_PRE = '.' :: ".. (".toList := by decide

theorem marker_head {z : Str} (hz : isPre SUMMARY_PRE z = true) :
    ∃ t, z = '.' :: t := by
  obtain ⟨w, hw⟩ := isPre_iff.mp hz
  rw [summary_pre_cons] at hw
  exact ⟨".. (".toList ++ w, by rw [hw]; rfl⟩

theorem endline_not_binary {z : Str} (hz : z = [] ∨ isPre SUMMARY_PRE z = true) :
    isBinaryIndicator z = false := by
  rcases hz with rfl | hz
  · decide
  · obtain ⟨t, rfl⟩ := marker_head hz
    rw [isBinaryIndicator]
    obtain ⟨t', ht'⟩ := jsTrim_cons_head (c := '.') (t := t) (by decide)
    rw [ht']
    have h1 : isPre "Binary files".toList ('.' :: t') = false := by
      rw [show "Binary files".toList = 'B' :: "inary files".toList from by decide]
      simp [isPre]
    rw [h1]
    rfl

theorem endline_not_ctx {z : Str} (hz : z = [] ∨ isPre SUMMARY_PRE z = true) :
    (isPre [' '] z && !(isPre "@@".toList z)) = false := by
  rcases hz with rfl | hz
  · decide
  · obtain ⟨t, rfl⟩ := marker_head hz
    have h1 : isPre [' '] ('.' :: t) = false := by simp [isPre]
    rw [h1]
    rfl

theorem endline_not_ws {z : Str} (hz : z = [] ∨ isPre SUMMARY_PRE z = true) :
    isWhitespaceOnly z = false := by
  rcases hz with rfl | hz
  · decide
  · obtain ⟨t, rfl⟩ := marker_head hz
    rw [isWhitespaceOnly]
    have h1 : isPre ['+'] ('.' :: t) = false := by simp [isPre]
    have h2 : isPre ['-'] ('.' :: t) = false := by simp [isPre]
    rw [h1, h2]
    rfl

theorem removeBinaryIndicators_shape {d h : Str} {T : List Str}
    (hd : splitLines d = h :: T) (hh : isBinaryIndicator h = false) :
    splitLines (removeBinaryIndicators d) =
      h :: T.filter (fun l => !(isBinaryIndicator l)) := by
  have hmemh : h ∈ splitLines d := by rw [hd]; exact List.mem_cons_self _ _
  rw [removeBinaryIndicators, hd, List.filter_cons_of_pos (by rw [hh]; rfl)]
  rw [splitLines_joinLines_nlfree (List.cons_ne_nil _ _)]
  intro x hx
  rcases List.mem_cons.mp hx with rfl | hx'
  · exact mem_jsSplit_single hmemh
  · have hxd : x ∈ splitLines d := by
      rw [hd]
      exact List.mem_cons_of_mem _ (List.mem_filter.mp hx').1
    exact mem_jsSplit_single hxd

theorem splitLines_truncMarker (n : Nat) :
    splitLines (truncMarker n) =
      [[], SUMMARY_PRE ++ natToStr n ++
        " more lines truncated to reduce token usage) ...".toList] := by
  rw [truncMarker_eq, splitLines_cons_nl]
  have hnl : '\n' ∉ SUMMARY_PRE ++ natToStr n ++
      " more lines truncated to reduce token usage) ...".toList := by
    intro hm
    rcases List.mem_append.mp hm with h' | h'
    · rcases List.mem_append.mp h' with h'' | h''
      · exact absurd h'' (by decide)
      · exact natToStr_no_newline _ h''
    · exact absurd h' (by decide)
  rw [splitLines_no_newline hnl]

theorem truncateFileDiff_shape {d h : Str} {T : List Str} (hd : splitLines d = h :: T) :
    truncateFileDiff d = d ∨
    ∃ Q rc, truncateFileDiff d = joinLines ((h :: Q) ++ [truncMarker rc]) ∧
      ∀ q ∈ Q, q ∈ T := by
  rw [truncateFileDiff]
  simp only [hd]
  by_cases h1 : (h :: T).length ≤ MAX_LINES_PER_FILE
  · rw [if_pos h1]
    exact Or.inl rfl
  · rw [if_neg h1]
    cases hidx : List.findIdx? isHeaderLine (h :: T) with
    | some i =>
      dsimp only
      have ht1 : (((i : Nat) : Int) + 1).toNat = i + 1 := by omega
      rw [ht1]
      by_cases h2 : (List.drop (i + 1) (h :: T)).length ≤ MAX_LINES_PER_FILE
      · rw [if_pos h2]
        exact Or.inl rfl
      · rw [if_neg h2]
        rw [if_pos (by exact_mod_cast Int.ofNat_nonneg i)]
        rw [List.take_succ_cons, List.drop_succ_cons]
        right
        refine ⟨List.take i T ++ List.take MAX_LINES_PER_FILE (List.drop i T),
          (List.drop i T).length - MAX_LINES_PER_FILE, ?_, ?_⟩
        · simp only [List.cons_append, List.append_assoc]
        · intro q hq
          rcases List.mem_append.mp hq with h' | h'
          · exact List.mem_of_mem_take h'
          · exact List.mem_of_mem_drop (List.mem_of_mem_take h')
    | none =>
      dsimp only
      have ht0 : ((-1 : Int) + 1).toNat = 0 := by decide
      rw [ht0, List.drop_zero]
      by_cases h2 : (h :: T).length ≤ MAX_LINES_PER_FILE
      · rw [if_pos h2]
        exact Or.inl rfl
      · rw [if_neg h2]
        rw [if_neg (by decide)]
        right
        rw [show MAX_LINES_PER_FILE = 499 + 1 from rfl, List.take_succ_cons]
        refine ⟨List.take (499 + 1 - 1) T, (h :: T).length - (499 + 1), ?_, ?_⟩
        · simp only [List.nil_append, List.cons_append, List.append_assoc]
        · intro q hq
          exact List.mem_of_mem_take hq

theorem summarize_foldl_res_prefix :
    ∀ (L res ctx : List Str), ∃ E, (L.foldl summarizeStep (res, ctx)).1 = res ++ E := by
  intro L
  induction L with
  | nil => intro res ctx; exact ⟨[], by simp⟩
  | cons ln rest ih =>
    intro res ctx
    rw [List.foldl_cons, summarizeStep]
    split
    · exact ih res (ctx ++ [ln])
    · obtain ⟨E, hE⟩ := ih (res ++ flushContext ctx ++ [ln]) []
      exact ⟨flushContext ctx ++ [ln] ++ E, by rw [hE]; simp⟩

theorem compress_foldl_res_prefix :
    ∀ (L res ctx : List Str), ∃ E, (L.foldl compressStep (res, ctx)).1 = res ++ E := by
  intro L
  induction L with
  | nil => intro res ctx; exact ⟨[], by simp⟩
  | cons ln rest ih =>
    intro res ctx
    rw [List.foldl_cons, compressStep]
    split
    · exact ih res (ctx ++ [ln])
    · obtain ⟨E, hE⟩ := ih (res ++ flushWs ctx ++ [ln]) []
      exact ⟨flushWs ctx ++ [ln] ++ E, by rw [hE]; simp⟩

theorem summarizeStep_start (h : Str)
    (hh : (isPre [' '] h && !(isPre "@@".toList h)) = false) :
    summarizeStep ([], []) h = ([h], []) := by
  rw [summarizeStep, if_neg (by rw [hh]; simp)]
  rfl

theorem compressStep_start (h : Str) (hh : isWhitespaceOnly h = false) :
    compressStep ([], []) h = ([h], []) := by
  rw [compressStep, if_neg (by rw [hh]; simp)]
  rfl

theorem summarizeContextLines_shape_last {d h : Str} {T : List Str}
    (hd : splitLines d = h :: T)
    (hh : (isPre [' '] h && !(isPre "@@".toList h)) = false) :
    ∃ U, splitLines (summarizeContextLines d) = h :: U := by
  have hJ := @summarize_foldl_joinEl d (h :: T) [] []
    (by rw [hd]; exact fun l hl => hl) (by simp) (by simp)
  rw [List.foldl_cons, summarizeStep_start h hh] at hJ
  obtain ⟨E, hE⟩ := summarize_foldl_res_prefix T [h] []
  rw [summarizeContextLines, hd, List.foldl_cons, summarizeStep_start h hh]
  refine ⟨E ++ flushContext (T.foldl summarizeStep ([h], [])).2, ?_⟩
  rw [hE]
  have hassoc : ([h] ++ E) ++ flushContext (T.foldl summarizeStep ([h], [])).2 =
      h :: (E ++ flushContext (T.foldl summarizeStep ([h], [])).2) := by
    simp
  rw [hassoc, splitLines_joinLines_nlfree (List.cons_ne_nil _ _)]
  intro x hx
  rcases List.mem_cons.mp hx with rfl | hx'
  · exact mem_jsSplit_single (show x ∈ splitLines d by rw [hd]; exact List.mem_cons_self _ _)
  · have hx2 : x ∈ (T.foldl summarizeStep ([h], [])).1 ++
        flushContext (T.foldl summarizeStep ([h], [])).2 := by
      rcases List.mem_append.mp hx' with h' | h'
      · exact List.mem_append_left _ (by rw [hE]; exact List.mem_append_right _ h')
      · exact List.mem_append_right _ h'
    rcases hJ x hx2 with hin | ⟨_, hnl⟩
    · exact mem_jsSplit_single hin
    · exact hnl

theorem compressWhitespaceChanges_shape_last {d h : Str} {T : List Str}
    (hd : splitLines d = h :: T) (hh : isWhitespaceOnly h = false) :
    ∃ U, splitLines (compressWhitespaceChanges d) = h :: U := by
  have hJ := @compress_foldl_joinEl d (h :: T) [] []
    (by rw [hd]; exact fun l hl => hl) (by simp) (by simp)
  rw [List.foldl_cons, compressStep_start h hh] at hJ
  obtain ⟨E, hE⟩ := compress_foldl_res_prefix T [h] []
  rw [compressWhitespaceChanges, hd, List.foldl_cons, compressStep_start h hh]
  refine ⟨E ++ flushWs (T.foldl compressStep ([h], [])).2, ?_⟩
  rw [hE]
  have hassoc : ([h] ++ E) ++ flushWs (T.foldl compressStep ([h], [])).2 =
      h :: (E ++ flushWs (T.foldl compressStep ([h], [])).2) := by
    simp
  rw [hassoc, splitLines_joinLines_nlfree (List.cons_ne_nil _ _)]
  intro x hx
  rcases List.mem_cons.mp hx with rfl | hx'
  · exact mem_jsSplit_single (show x ∈ splitLines d by rw [hd]; exact List.mem_cons_self _ _)
  · have hx2 : x ∈ (T.foldl compressStep ([h], [])).1 ++
        flushWs (T.foldl compressStep ([h], [])).2 := by
      rcases List.mem_append.mp hx' with h' | h'
      · exact List.mem_append_left _ (by rw [hE]; exact List.mem_append_right _ h')
      · exact List.mem_append_right _ h'
    rcases hJ x hx2 with hin | ⟨_, hnl⟩
    · exact mem_jsSplit_single hin
    · exact hnl

theorem summarizeContextLines_shape_mid {d h z : Str} {T : List Str}
    (hd : splitLines d = h :: (T ++ [z]))
    (hh : (isPre [' '] h && !(isPre "@@".toList h)) = false)
    (hz : z = [] ∨ isPre SUMMARY_PRE z = true) :
    ∃ U, splitLines (summarizeContextLines d) = h :: U ++ [z] := by
  have hlines : ∀ l ∈ h :: T, l ∈ splitLines d := by
    intro l hl
    rw [hd]
    rcases List.mem_cons.mp hl with rfl | hl'
    · exact List.mem_cons_self _ _
    · exact List.mem_cons_of_mem _ (List.mem_append_left _ hl')
  have hJ := @summarize_foldl_joinEl d (h :: T) [] [] hlines (by simp) (by simp)
  rw [List.foldl_cons, summarizeStep_start h hh] at hJ
  obtain ⟨E, hE⟩ := summarize_foldl_res_prefix T [h] []
  rw [summarizeContextLines, hd, List.foldl_cons, summarizeStep_start h hh,
    List.foldl_append, List.foldl_cons, List.foldl_nil]
  have hzstep : summarizeStep (T.foldl summarizeStep ([h], [])) z =
      ((T.foldl summarizeStep ([h], [])).1 ++
        flushContext (T.foldl summarizeStep ([h], [])).2 ++ [z], []) := by
    rw [summarizeStep, if_neg (by rw [endline_not_ctx hz]; simp)]
  rw [hzstep]
  refine ⟨E ++ flushContext (T.foldl summarizeStep ([h], [])).2, ?_⟩
  rw [show flushContext [] = [] from rfl, List.append_nil, hE]
  have hassoc : ([h] ++ E) ++ flushContext (T.foldl summarizeStep ([h], [])).2 ++ [z] =
      h :: ((E ++ flushContext (T.foldl summarizeStep ([h], [])).2) ++ [z]) := by
    simp
  rw [hassoc, splitLines_joinLines_nlfree (List.cons_ne_nil _ _), ← List.cons_append]
  intro x hx
  rcases List.mem_cons.mp hx with rfl | hx'
  · exact mem_jsSplit_single (show x ∈ splitLines d by rw [hd]; exact List.mem_cons_self _ _)
  · rcases List.mem_append.mp hx' with h' | h'
    · have hx2 : x ∈ (T.foldl summarizeStep ([h], [])).1 ++
          flushContext (T.foldl summarizeStep ([h], [])).2 := by
        rcases List.mem_append.mp h' with h'' | h''
        · exact List.mem_append_left _ (by rw [hE]; exact List.mem_append_right _ h'')
        · exact List.mem_append_right _ h''
      rcases hJ x hx2 with hin | ⟨_, hnl⟩
      · exact mem_jsSplit_single hin
      · exact hnl
    · rw [List.mem_singleton.mp h']
      refine mem_jsSplit_single (show z ∈ splitLines d from ?_)
      rw [hd]
      exact List.mem_cons_of_mem _ (List.mem_append_right _ (List.mem_singleton.mpr rfl))

theorem compressWhitespaceChanges_shape_mid {d h z : Str} {T : List Str}
    (hd : splitLines d = h :: (T ++ [z]))
    (hh : isWhitespaceOnly h = false)
    (hz : z = [] ∨ isPre SUMMARY_PRE z = true) :
    ∃ U, splitLines (compressWhitespaceChanges d) = h :: U ++ [z] := by
  have hlines : ∀ l ∈ h :: T, l ∈ splitLines d := by
    intro l hl
    rw [hd]
    rcases List.mem_cons.mp hl with rfl | hl'
    · exact List.mem_cons_self _ _
    · exact List.mem_cons_of_mem _ (List.mem_append_left _ hl')
  have hJ := @compress_foldl_joinEl d (h :: T) [] [] hlines (by simp) (by simp)
  rw [List.foldl_cons, compressStep_start h hh] at hJ
  obtain ⟨E, hE⟩ := compress_foldl_res_prefix T [h] []
  rw [compressWhitespaceChanges, hd, List.foldl_cons, compressStep_start h hh,
    List.foldl_append, List.foldl_cons, List.foldl_nil]
  have hzstep : compressStep (T.foldl compressStep ([h], [])) z =
      ((T.foldl compressStep ([h], [])).1 ++
        flushWs (T.foldl compressStep ([h], [])).2 ++ [z], []) := by
    rw [compressStep, if_neg (by rw [endline_not_ws hz]; simp)]
  rw [hzstep]
  refine ⟨E ++ flushWs (T.foldl compressStep ([h], [])).2, ?_⟩
  rw [show flushWs [] = [] from rfl, List.append_nil, hE]
  have hassoc : ([h] ++ E) ++ flushWs (T.foldl compressStep ([h], [])).2 ++ [z] =
      h :: ((E ++ flushWs (T.foldl compressStep ([h], [])).2) ++ [z]) := by
    simp
  rw [hassoc, splitLines_joinLines_nlfree (List.cons_ne_nil _ _), ← List.cons_append]
  intro x hx
  rcases List.mem_cons.mp hx with rfl | hx'
  · exact mem_jsSplit_single (show x ∈ splitLines d by rw [hd]; exact List.mem_cons_self _ _)
  · rcases List.mem_append.mp hx' with h' | h'
    · have hx2 : x ∈ (T.foldl compressStep ([h], [])).1 ++
          flushWs (T.foldl compressStep ([h], [])).2 := by
        rcases List.mem_append.mp h' with h'' | h''
        · exact List.mem_append_left _ (by rw [hE]; exact List.mem_append_right _ h'')
        · exact List.mem_append_right _ h''
      rcases hJ x hx2 with hin | ⟨_, hnl⟩
      · exact mem_jsSplit_single hin
      · exact hnl
    · rw [List.mem_singleton.mp h']
      refine mem_jsSplit_single (show z ∈ splitLines d from ?_)
      rw [hd]
      exact List.mem_cons_of_mem _ (List.mem_append_right _ (List.mem_singleton.mpr rfl))

theorem splitLines_sep_append (v : Str) :
    ∃ vh vT, splitLines v = vh :: vT ∧
      splitLines (DIFF_SEP ++ v) = (DIFF_SEP ++ vh) :: vT := by
  obtain ⟨vh, vT, hv⟩ := splitLines_cons_form v
  have hsepl : splitLines (DIFF_SEP : Str) = [] ++ [DIFF_SEP] := by
    rw [splitLines_no_newline (by decide)]
    rfl
  have hglue := splitLines_glue DIFF_SEP hsepl hv
  rw [List.nil_append] at hglue
  exact ⟨vh, vT, hv, hglue⟩

theorem splitLines_strip_sep {v f : Str} {R : List Str}
    (h : splitLines (DIFF_SEP ++ v) = (DIFF_SEP ++ f) :: R) : splitLines v = f :: R := by
  obtain ⟨vh, vT, hv, hglue⟩ := splitLines_sep_append v
  rw [hglue] at h
  injection h with h1 h2
  have hvf : vh = f := List.append_cancel_left h1
  rw [hv, hvf, h2]

theorem joinLines_cons_head (x : Str) (xs : List Str) :
    ∃ zr, joinLines (x :: xs) = x ++ zr := by
  cases xs with
  | nil => exact ⟨[], by simp [joinLines, joinWith]⟩
  | cons y r =>
    refine ⟨['\n'] ++ joinWith ['\n'] (y :: r), ?_⟩
    rw [show joinLines (x :: y :: r) = x ++ ['\n'] ++ joinWith ['\n'] (y :: r) from rfl]
    rw [List.append_assoc]

theorem strip_push {s f : Str} {R : List Str}
    (h : splitLines s = (DIFF_SEP ++ f) :: R) :
    ∃ v, s = DIFF_SEP ++ v ∧ jsReplaceFirst DIFF_SEP [] s = v ∧ splitLines v = f :: R := by
  obtain ⟨zr, hzr⟩ := joinLines_cons_head (DIFF_SEP ++ f) R
  have hs : s = DIFF_SEP ++ (f ++ zr) := by
    rw [← joinLines_splitLines s, h, hzr, List.append_assoc]
  refine ⟨f ++ zr, hs, ?_, ?_⟩
  · rw [hs, jsReplaceFirst_sep_pre (by decide)]
  · apply splitLines_strip_sep
    rw [← hs, h]

theorem splitLines_joinLines_truncOut {h : Str} {Q : List Str} (rc : Nat)
    (hnl : ∀ x ∈ h :: Q, '\n' ∉ x) :
    splitLines (joinLines ((h :: Q) ++ [truncMarker rc])) =
      h :: ((Q ++ [[]]) ++ [SUMMARY_PRE ++ natToStr rc ++
        " more lines truncated to reduce token usage) ...".toList]) := by
  rw [splitLines_joinLines_flat _ (by simp)]
  rw [List.flatMap_append, flatMap_splitLines_nlfree hnl]
  rw [show ([truncMarker rc] : List Str).flatMap splitLines =
    splitLines (truncMarker rc) from by
      rw [List.flatMap_cons, List.flatMap_nil, List.append_nil]]
  rw [splitLines_truncMarker]
  simp

theorem mline_marker (rc : Nat) :
    isPre SUMMARY_PRE (SUMMARY_PRE ++ natToStr rc ++
      " more lines truncated to reduce token usage) ...".toList) = true := by
  rw [List.append_assoc]
  exact isPre_self_append _ _

theorem filter_endnl (T : List Str) :
    (T ++ [[]]).filter (fun l => !(isBinaryIndicator l)) =
      T.filter (fun l => !(isBinaryIndicator l)) ++ [[]] := by
  rw [List.filter_append]
  congr 1

theorem optimizePipeline_shape_mid {w f : Str} {T : List Str}
    (hw : splitLines w = (DIFF_SEP ++ f) :: (T ++ [[]])) :
    ∃ U z, splitLines (optimizePipeline w) = ((DIFF_SEP ++ f) :: U) ++ [z] ∧
      (z = [] ∨ isPre SUMMARY_PRE z = true) := by
  rw [optimizePipeline]
  have h1 : splitLines (removeBinaryIndicators w) =
      (DIFF_SEP ++ f) :: (T.filter (fun l => !(isBinaryIndicator l)) ++ [[]]) := by
    rw [removeBinaryIndicators_shape hw (isBinaryIndicator_sep f), filter_endnl]
  rcases truncateFileDiff_shape h1 with h2 | ⟨Q, rc, h2, hQ⟩
  · have h2' : splitLines (truncateFileDiff (removeBinaryIndicators w)) =
        (DIFF_SEP ++ f) :: (T.filter (fun l => !(isBinaryIndicator l)) ++ [[]]) := by
      rw [h2]
      exact h1
    obtain ⟨U3, h3⟩ := summarizeContextLines_shape_mid h2' (sep_line_not_ctx f) (Or.inl rfl)
    have h3' : splitLines (summarizeContextLines (truncateFileDiff
        (removeBinaryIndicators w))) = (DIFF_SEP ++ f) :: (U3 ++ [[]]) := by
      rw [h3, List.cons_append]
    obtain ⟨U4, h4⟩ := compressWhitespaceChanges_shape_mid h3' (sep_line_not_ws f)
      (Or.inl rfl)
    exact ⟨U4, [], h4, Or.inl rfl⟩
  · have hnlQ : ∀ x ∈ (DIFF_SEP ++ f) :: Q, '\n' ∉ x := by
      intro x hx
      rcases List.mem_cons.mp hx with rfl | hx'
      · exact mem_jsSplit_single (show (DIFF_SEP ++ f) ∈ splitLines w by
          rw [hw]; exact List.mem_cons_self _ _)
      · exact mem_jsSplit_single (show x ∈ splitLines (removeBinaryIndicators w) by
          rw [h1]; exact List.mem_cons_of_mem _ (hQ x hx'))
    have h2l : splitLines (truncateFileDiff (removeBinaryIndicators w)) =
        (DIFF_SEP ++ f) :: ((Q ++ [[]]) ++ [SUMMARY_PRE ++ natToStr rc ++
          " more lines truncated to reduce token usage) ...".toList]) := by
      rw [h2, splitLines_joinLines_truncOut rc hnlQ]
    obtain ⟨U3, h3⟩ := summarizeContextLines_shape_mid h2l (sep_line_not_ctx f)
      (Or.inr (mline_marker rc))
    have h3' : splitLines (summarizeContextLines (truncateFileDiff
        (removeBinaryIndicators w))) = (DIFF_SEP ++ f) ::
          (U3 ++ [SUMMARY_PRE ++ natToStr rc ++
            " more lines truncated to reduce token usage) ...".toList]) := by
      rw [h3, List.cons_append]
    obtain ⟨U4, h4⟩ := compressWhitespaceChanges_shape_mid h3' (sep_line_not_ws f)
      (Or.inr (mline_marker rc))
    exact ⟨U4, _, h4, Or.inr (mline_marker rc)⟩

theorem optimizePipeline_shape_last {w f : Str} {T : List Str}
    (hw : splitLines w = (DIFF_SEP ++ f) :: T) :
    ∃ U, splitLines (optimizePipeline w) = (DIFF_SEP ++ f) :: U := by
  rw [optimizePipeline]
  have h1 : splitLines (removeBinaryIndicators w) =
      (DIFF_SEP ++ f) :: T.filter (fun l => !(isBinaryIndicator l)) :=
    removeBinaryIndicators_shape hw (isBinaryIndicator_sep f)
  rcases truncateFileDiff_shape h1 with h2 | ⟨Q, rc, h2, hQ⟩
  · have h2' : splitLines (truncateFileDiff (removeBinaryIndicators w)) =
        (DIFF_SEP ++ f) :: T.filter (fun l => !(isBinaryIndicator l)) := by
      rw [h2]
      exact h1
    obtain ⟨U3, h3⟩ := summarizeContextLines_shape_last h2' (sep_line_not_ctx f)
    obtain ⟨U4, h4⟩ := compressWhitespaceChanges_shape_last h3 (sep_line_not_ws f)
    exact ⟨U4, h4⟩
  · have hnlQ : ∀ x ∈ (DIFF_SEP ++ f) :: Q, '\n' ∉ x := by
      intro x hx
      rcases List.mem_cons.mp hx with rfl | hx'
      · exact mem_jsSplit_single (show (DIFF_SEP ++ f) ∈ splitLines w by
          rw [hw]; exact List.mem_cons_self _ _)
      · exact mem_jsSplit_single (show x ∈ splitLines (removeBinaryIndicators w) by
          rw [h1]; exact List.mem_cons_of_mem _ (hQ x hx'))
    have h2l : splitLines (truncateFileDiff (removeBinaryIndicators w)) =
        (DIFF_SEP ++ f) :: ((Q ++ [[]]) ++ [SUMMARY_PRE ++ natToStr rc ++
          " more lines truncated to reduce token usage) ...".toList]) := by
      rw [h2, splitLines_joinLines_truncOut rc hnlQ]
    obtain ⟨U3, h3⟩ := summarizeContextLines_shape_last h2l (sep_line_not_ctx f)
    obtain ⟨U4, h4⟩ := compressWhitespaceChanges_shape_last h3 (sep_line_not_ws f)
    exact ⟨U4, h4⟩

theorem lines_OK_of_w {diff w f : Str} {T : List Str}
    (hw : splitLines w = (DIFF_SEP ++ f) :: T)
    (hhead : (DIFF_SEP ++ f) ∈ splitLines diff)
    (hT : ∀ l ∈ T, l ∈ splitLines diff ∨ l = []) :
    ∀ l ∈ splitLines w, OptLineOK diff l := by
  intro l hl
  rw [hw] at hl
  rcases List.mem_cons.mp hl with rfl | hl'
  · exact Or.inl hhead
  · rcases hT l hl' with h | h
    · exact Or.inl h
    · exact Or.inr (Or.inr h)

theorem pipeline_lines_OK {diff w : Str}
    (hw : ∀ l ∈ splitLines w, OptLineOK diff l) :
    ∀ l ∈ splitLines (optimizePipeline w), OptLineOK diff l := by
  intro l hl
  rcases optimizePipeline_lines hl with h | h | h
  · exact hw l h
  · exact Or.inr (Or.inl h)
  · exact Or.inr (Or.inr h)

theorem removeBinary_lines_OK {diff w : Str}
    (hw : ∀ l ∈ splitLines w, OptLineOK diff l) :
    ∀ l ∈ splitLines (removeBinaryIndicators w), OptLineOK diff l := by
  intro l hl
  rcases removeBinaryIndicators_lines hl with h | h
  · exact hw l h
  · exact Or.inr (Or.inr h)

theorem optimizeChunkStep_out_mid {diff c rest : Str} (acc : List Str)
    (hc : ∃ c', c = c' ++ ['\n'])
    (hsub : ∀ l ∈ splitLines ((DIFF_SEP ++ c) ++ rest), l ∈ splitLines diff) :
    optimizeChunkStep acc c = acc ∨
      ∃ out, optimizeChunkStep acc c = acc ++ [out] ∧ OutMid diff out := by
  obtain ⟨c', rfl⟩ := hc
  obtain ⟨vh, vT, hv, hsep⟩ := splitLines_sep_append c'
  have hwshape : splitLines (DIFF_SEP ++ (c' ++ ['\n'])) =
      ((DIFF_SEP ++ vh) :: vT) ++ [[]] := by
    rw [show DIFF_SEP ++ (c' ++ ['\n']) = (DIFF_SEP ++ c') ++ ['\n'] from
      (List.append_assoc _ _ _).symm]
    rw [splitLines_endnl, hsep]
  have hXsub : ∀ l ∈ (DIFF_SEP ++ vh) :: vT, l ∈ splitLines diff := by
    intro l hl
    obtain ⟨rh, rT, hr⟩ := splitLines_cons_form rest
    have hglue := splitLines_glue (DIFF_SEP ++ (c' ++ ['\n'])) hwshape hr
    apply hsub
    rw [hglue]
    exact List.mem_append_left _ hl
  have hwshape2 : splitLines (DIFF_SEP ++ (c' ++ ['\n'])) =
      (DIFF_SEP ++ vh) :: (vT ++ [[]]) := by
    rw [hwshape, List.cons_append]
  have hhead : (DIFF_SEP ++ vh) ∈ splitLines diff := hXsub _ (List.mem_cons_self _ _)
  have hTok : ∀ l ∈ vT ++ [[]], l ∈ splitLines diff ∨ l = [] := by
    intro l hl
    rcases List.mem_append.mp hl with h' | h'
    · exact Or.inl (hXsub _ (List.mem_cons_of_mem _ h'))
    · exact Or.inr (List.mem_singleton.mp h')
  have hallOK : ∀ l ∈ splitLines (DIFF_SEP ++ (c' ++ ['\n'])), OptLineOK diff l :=
    lines_OK_of_w hwshape2 hhead hTok
  rw [optimizeChunkStep]
  by_cases hlen : 2000 < (DIFF_SEP ++ (c' ++ ['\n'])).length
  · rw [if_pos hlen]
    obtain ⟨U, z, hUz, hz⟩ := optimizePipeline_shape_mid hwshape2
    by_cases htrim :
        jsTrim (optimizePipeline (DIFF_SEP ++ (c' ++ ['\n']))) = jsTrim DIFF_SEP
    · rw [if_pos htrim]
      exact Or.inl rfl
    · rw [if_neg htrim]
      have hUz2 : splitLines (optimizePipeline (DIFF_SEP ++ (c' ++ ['\n']))) =
          (DIFF_SEP ++ vh) :: (U ++ [z]) := by
        rw [hUz, List.cons_append]
      obtain ⟨v, hsv, hrep, hvlines⟩ := strip_push hUz2
      right
      refine ⟨v, by rw [hrep], vh, U, z, ?_, hhead, ?_, hz⟩
      · rw [hvlines, List.cons_append]
      · intro u hu
        exact pipeline_lines_OK hallOK u
          (by rw [hUz2]; exact List.mem_cons_of_mem _ (List.mem_append_left _ hu))
  · rw [if_neg hlen]
    have h1 : splitLines (removeBinaryIndicators (DIFF_SEP ++ (c' ++ ['\n']))) =
        (DIFF_SEP ++ vh) :: (vT.filter (fun l => !(isBinaryIndicator l)) ++ [[]]) := by
      rw [removeBinaryIndicators_shape hwshape2 (isBinaryIndicator_sep vh), filter_endnl]
    by_cases htrim :
        jsTrim (removeBinaryIndicators (DIFF_SEP ++ (c' ++ ['\n']))) ≠ jsTrim DIFF_SEP
    · rw [if_pos htrim]
      obtain ⟨v, hsv, hrep, hvlines⟩ := strip_push h1
      right
      refine ⟨v, by rw [hrep], vh, vT.filter (fun l => !(isBinaryIndicator l)), [],
        ?_, hhead, ?_, Or.inl rfl⟩
      · rw [hvlines, List.cons_append]
      · intro u hu
        refine removeBinary_lines_OK hallOK u ?_
        rw [h1]
        exact List.mem_cons_of_mem _ (List.mem_append_left _ hu)
    · rw [if_neg htrim]
      exact Or.inl rfl

theorem optimizeChunkStep_out_last {diff c : Str} (acc : List Str)
    (hsub : ∀ l ∈ splitLines (DIFF_SEP ++ c), l ∈ splitLines diff) :
    optimizeChunkStep acc c = acc ∨
      ∃ out, optimizeChunkStep acc c = acc ++ [out] ∧ OutLast diff out := by
  obtain ⟨vh, vT, hv, hsep⟩ := splitLines_sep_append c
  have hhead : (DIFF_SEP ++ vh) ∈ splitLines diff :=
    hsub _ (by rw [hsep]; exact List.mem_cons_self _ _)
  have hallOK : ∀ l ∈ splitLines (DIFF_SEP ++ c), OptLineOK diff l :=
    fun l hl => Or.inl (hsub l hl)
  rw [optimizeChunkStep]
  by_cases hlen : 2000 < (DIFF_SEP ++ c).length
  · rw [if_pos hlen]
    obtain ⟨U, hU⟩ := optimizePipeline_shape_last hsep
    by_cases htrim : jsTrim (optimizePipeline (DIFF_SEP ++ c)) = jsTrim DIFF_SEP
    · rw [if_pos htrim]
      exact Or.inl rfl
    · rw [if_neg htrim]
      obtain ⟨v, hsv, hrep, hvlines⟩ := strip_push hU
      right
      refine ⟨v, by rw [hrep], vh, U, hvlines, hhead, ?_⟩
      intro u hu
      exact pipeline_lines_OK hallOK u
        (by rw [hU]; exact List.mem_cons_of_mem _ hu)
  · rw [if_neg hlen]
    have h1 : splitLines (removeBinaryIndicators (DIFF_SEP ++ c)) =
        (DIFF_SEP ++ vh) :: vT.filter (fun l => !(isBinaryIndicator l)) :=
      removeBinaryIndicators_shape hsep (isBinaryIndicator_sep vh)
    by_cases htrim : jsTrim (removeBinaryIndicators (DIFF_SEP ++ c)) ≠ jsTrim DIFF_SEP
    · rw [if_pos htrim]
      obtain ⟨v, hsv, hrep, hvlines⟩ := strip_push h1
      right
      refine ⟨v, by rw [hrep], vh, vT.filter (fun l => !(isBinaryIndicator l)),
        hvlines, hhead, ?_⟩
      intro u hu
      refine removeBinary_lines_OK hallOK u ?_
      rw [h1]
      exact List.mem_cons_of_mem _ hu
    · rw [if_neg htrim]
      exact Or.inl rfl

theorem mid_chunk_endnl {diff c a' : Str}
    (hS : ((DIFF_SEP ++ c) ++ (DIFF_SEP ++ a')) <:+ diff)
    (hnl : ('\n' :: (DIFF_SEP ++ a')) <:+ diff) :
    ∃ c', c = c' ++ ['\n'] := by
  have hsub : ('\n' :: (DIFF_SEP ++ a')) <:+ ((DIFF_SEP ++ c) ++ (DIFF_SEP ++ a')) := by
    apply suffix_of_suffix_le hnl hS
    have h11 : DIFF_SEP.length = 11 := by decide
    simp only [List.length_cons, List.length_append, h11]
    omega
  obtain ⟨t, ht⟩ := hsub
  have ht2 : (t ++ ['\n']) ++ (DIFF_SEP ++ a') = (DIFF_SEP ++ c) ++ (DIFF_SEP ++ a') := by
    rw [← ht, List.append_assoc]
    rfl
  have hc : t ++ ['\n'] = DIFF_SEP ++ c := List.append_cancel_right ht2
  cases hcr : c.reverse with
  | nil =>
    exfalso
    have hcnil : c = [] := by rw [← List.reverse_reverse c, hcr]; rfl
    rw [hcnil, List.append_nil] at hc
    have h1 := congrArg List.reverse hc
    rw [List.reverse_append] at h1
    have h2 : '\n' :: t.reverse = DIFF_SEP.reverse := by simpa using h1
    have h3 : DIFF_SEP.reverse = ' ' :: "tig-- ffid".toList := by decide
    rw [h3] at h2
    injection h2 with h4 _
    exact absurd h4 (by decide)
  | cons d w =>
    have hcw : c = w.reverse ++ [d] := by
      rw [← List.reverse_reverse c, hcr]
      exact List.reverse_cons d w
    have hd : d = '\n' := by
      have h1 := congrArg List.reverse hc
      rw [List.reverse_append, List.reverse_append, hcr] at h1
      have h2 : '\n' :: t.reverse = d :: (w ++ DIFF_SEP.reverse) := by simpa using h1
      injection h2 with h4 _
      exact h4.symm
    exact ⟨w.reverse, by rw [hcw, hd]⟩

theorem fold_chunks_out {diff : Str}
    (hsep : ∀ s, s <:+ diff → isPre DIFF_SEP s = true →
      s = diff ∨ ('\n' :: s) <:+ diff) :
    ∀ (fuel : Nat) (a : Str), a.length ≤ fuel →
      (DIFF_SEP ++ a) <:+ diff →
      ((DIFF_SEP ++ a) = diff ∨ ('\n' :: (DIFF_SEP ++ a)) <:+ diff) →
      ∀ acc : List Str,
      ∃ outs : List Str,
        (jsSplitAux DIFF_SEP fuel a).foldl optimizeChunkStep acc = acc ++ outs ∧
        (∀ b ∈ outs, OutLast diff b) ∧
        (∀ b ∈ outs.dropLast, OutMid diff b) := by
  intro fuel
  induction fuel with
  | zero =>
    intro a _ hsuf hinit acc
    rw [jsSplitAux, List.foldl_cons, List.foldl_nil]
    have hsub : ∀ l ∈ splitLines (DIFF_SEP ++ a), l ∈ splitLines diff :=
      suffix_lines_sub hsuf hinit
    rcases optimizeChunkStep_out_last acc hsub with h | ⟨out, hstep, hOut⟩
    · exact ⟨[], by rw [h, List.append_nil], by simp, by simp⟩
    · refine ⟨[out], by rw [hstep], ?_, by simp⟩
      intro b hb
      rw [List.mem_singleton.mp hb]
      exact hOut
  | succ n ih =>
    intro a ha hsuf hinit acc
    rw [jsSplitAux]
    cases hs : splitFirst DIFF_SEP a with
    | none =>
      rw [List.foldl_cons, List.foldl_nil]
      have hsub : ∀ l ∈ splitLines (DIFF_SEP ++ a), l ∈ splitLines diff :=
        suffix_lines_sub hsuf hinit
      rcases optimizeChunkStep_out_last acc hsub with h | ⟨out, hstep, hOut⟩
      · exact ⟨[], by rw [h, List.append_nil], by simp, by simp⟩
      · refine ⟨[out], by rw [hstep], ?_, by simp⟩
        intro b hb
        rw [List.mem_singleton.mp hb]
        exact hOut
    | some q =>
      obtain ⟨c, a'⟩ := q
      have hca : a = c ++ DIFF_SEP ++ a' := splitFirst_eq_append hs
      have hassoc : DIFF_SEP ++ a = ((DIFF_SEP ++ c) ++ (DIFF_SEP ++ a')) := by
        rw [hca]
        simp only [List.append_assoc]
      have hsufS' : (DIFF_SEP ++ a') <:+ diff :=
        List.IsSuffix.trans ⟨DIFF_SEP ++ c, hassoc.symm⟩ hsuf
      have hpre : isPre DIFF_SEP (DIFF_SEP ++ a') = true := isPre_self_append _ _
      have hne : (DIFF_SEP ++ a') ≠ diff := by
        intro he
        have h1 : (DIFF_SEP ++ a).length ≤ diff.length := hsuf.length_le
        rw [← he] at h1
        have h2 : a.length = c.length + DIFF_SEP.length + a'.length := by
          rw [hca]; simp [List.length_append]; omega
        have h11 : DIFF_SEP.length = 11 := by decide
        simp only [List.length_append] at h1
        omega
      have hinit' : ('\n' :: (DIFF_SEP ++ a')) <:+ diff := by
        rcases hsep _ hsufS' hpre with h | h
        · exact absurd h hne
        · exact h
      have hcend : ∃ c', c = c' ++ ['\n'] :=
        mid_chunk_endnl (by rw [← hassoc]; exact hsuf) hinit'
      have hsub : ∀ l ∈ splitLines ((DIFF_SEP ++ c) ++ (DIFF_SEP ++ a')),
          l ∈ splitLines diff := by
        rw [← hassoc]
        exact suffix_lines_sub hsuf hinit
      have hlen' : a'.length ≤ n := by
        have hlt := splitFirst_length_lt (show DIFF_SEP ≠ [] by decide) hs
        omega
      rw [List.foldl_cons]
      rcases optimizeChunkStep_out_mid acc hcend hsub with hstep | ⟨out, hstep, hOut⟩
      · rw [hstep]
        exact ih a' hlen' hsufS' (Or.inr hinit') acc
      · rw [hstep]
        obtain ⟨outs, hfold, hlast, hmid⟩ := ih a' hlen' hsufS' (Or.inr hinit') (acc ++ [out])
        refine ⟨out :: outs, by rw [hfold]; simp, ?_, ?_⟩
        · intro b hb
          rcases List.mem_cons.mp hb with rfl | hb'
          · obtain ⟨f, U, ul, hsp, hh, hU, hul⟩ := hOut
            refine ⟨f, U ++ [ul], by rw [hsp, List.cons_append], hh, ?_⟩
            intro u hu
            rcases List.mem_append.mp hu with h' | h'
            · exact hU u h'
            · rw [List.mem_singleton.mp h']
              rcases hul with rfl | hm
              · exact Or.inr (Or.inr rfl)
              · exact Or.inr (Or.inl hm)
          · exact hlast b hb'
        · intro b hb
          cases houts : outs with
          | nil =>
            rw [houts] at hb
            simp at hb
          | cons o os =>
            rw [houts, List.dropLast_cons₂] at hb
            rcases List.mem_cons.mp hb with rfl | hb'
            · exact hOut
            · rw [houts] at hmid
              exact hmid b hb'

theorem join_outs_lines {diff : Str} :
    ∀ outs : List Str, outs ≠ [] →
      (∀ b ∈ outs, OutLast diff b) →
      (∀ b ∈ outs.dropLast, OutMid diff b) →
      ∃ f R, splitLines (DIFF_SEP ++ joinWith DIFF_SEP outs) = (DIFF_SEP ++ f) :: R ∧
        (DIFF_SEP ++ f) ∈ splitLines diff ∧ ∀ u ∈ R, OptLineOK diff u := by
  intro outs
  induction outs with
  | nil => intro h; exact absurd rfl h
  | cons b rest ih =>
    intro _ hlast hmid
    cases rest with
    | nil =>
      obtain ⟨f, U, hsp, hh, hU⟩ := hlast b (List.mem_cons_self _ _)
      obtain ⟨vh, vT, hv, hsv⟩ := splitLines_sep_append b
      rw [hsp] at hv
      injection hv with hv1 hv2
      rw [joinWith]
      refine ⟨f, U, ?_, hh, hU⟩
      rw [hsv, hv1, hv2]
    | cons b' rest' =>
      obtain ⟨f, U, ul, hsp, hh, hU, hul⟩ :=
        hmid b (by rw [List.dropLast_cons₂]; exact List.mem_cons_self _ _)
      obtain ⟨vh, vT, hv, hsv⟩ := splitLines_sep_append b
      rw [hsp] at hv
      injection hv with hv1 hv2
      have hb : splitLines (DIFF_SEP ++ b) = ((DIFF_SEP ++ f) :: U) ++ [ul] := by
        rw [hsv, hv1, ← hv2]
        rfl
      obtain ⟨f', R', hJ, hh', hR'⟩ := ih (List.cons_ne_nil _ _)
        (fun o ho => hlast o (List.mem_cons_of_mem _ ho))
        (fun o ho => hmid o (by rw [List.dropLast_cons₂]; exact List.mem_cons_of_mem _ ho))
      have hstr : DIFF_SEP ++ joinWith DIFF_SEP (b :: b' :: rest') =
          (DIFF_SEP ++ b) ++ (DIFF_SEP ++ joinWith DIFF_SEP (b' :: rest')) := by
        rw [joinWith]
        simp only [List.append_assoc]
      have hglue := splitLines_glue (DIFF_SEP ++ b) hb hJ
      refine ⟨f, U ++ (ul ++ (DIFF_SEP ++ f')) :: R', ?_, hh, ?_⟩
      · rw [hstr, hglue, List.cons_append]
      · intro u hu
        rcases List.mem_append.mp hu with hu' | hu'
        · exact hU u hu'
        · rcases List.mem_cons.mp hu' with rfl | hu''
          · rcases hul with rfl | hm
            · rw [List.nil_append]
              exact Or.inl hh'
            · exact Or.inr (Or.inl (isPre_append _ hm))
          · exact hR' u hu''

theorem optimizeDiff_lines_OK {diff : Str}
    (hsep : ∀ s, s <:+ diff → isPre DIFF_SEP s = true →
      s = diff ∨ ('\n' :: s) <:+ diff) :
    ∀ line ∈ splitLines (optimizeDiff diff), OptLineOK diff line := by
  intro line hline
  rw [optimizeDiff] at hline
  split at hline
  · exact Or.inl hline
  · split at hline
    · exact Or.inl hline
    · rename_i hblank hbig
      dsimp only at hline
      split at hline
      · exact optimizePipeline_lines hline
      · rename_i hlen
        cases hs0 : splitFirst DIFF_SEP diff with
        | none =>
          rw [jsSplit_of_none hs0] at hlen
          simp at hlen
        | some q =>
          obtain ⟨c₀, a₀⟩ := q
          have hca : diff = c₀ ++ DIFF_SEP ++ a₀ := splitFirst_eq_append hs0
          cases hm : diff.length with
          | zero =>
            have hdn : diff = [] := List.length_eq_zero.mp hm
            have hnone : splitFirst DIFF_SEP ([] : Str) = none := by decide
            rw [hdn, hnone] at hs0
            exact Option.noConfusion hs0
          | succ m =>
            have hchunks : jsSplit DIFF_SEP diff = c₀ :: jsSplitAux DIFF_SEP m a₀ := by
              rw [jsSplit, hm, jsSplitAux, hs0]
            rw [hchunks] at hline
            simp only [List.tail_cons, List.headD_cons] at hline
            have hsuf₀ : (DIFF_SEP ++ a₀) <:+ diff := by
              refine ⟨c₀, ?_⟩
              rw [hca]
              simp only [List.append_assoc]
            have hinit₀ := hsep _ hsuf₀ (isPre_self_append _ _)
            have ha₀ : a₀.length ≤ m := by
              have := splitFirst_length_lt (show DIFF_SEP ≠ [] by decide) hs0
              omega
            obtain ⟨outs, hfold, hlast, hmid⟩ :=
              fold_chunks_out hsep m a₀ ha₀ hsuf₀ hinit₀ [c₀]
            have hc₀ : ∃ P, splitLines c₀ = P ++ [[]] ∧
                ∀ l ∈ P, l ∈ splitLines diff := by
              rcases hinit₀ with he | ⟨t, ht⟩
              · have hdca : diff = c₀ ++ (DIFF_SEP ++ a₀) := by
                  rw [hca]; simp only [List.append_assoc]
                rw [← he] at hdca
                have hc0len : c₀.length = 0 := by
                  have := congrArg List.length hdca
                  simp only [List.length_append] at this
                  omega
                have hc0 : c₀ = [] := List.length_eq_zero.mp hc0len
                refine ⟨[], ?_, by simp⟩
                rw [hc0]
                decide
              · have hdca : diff = c₀ ++ (DIFF_SEP ++ a₀) := by
                  rw [hca]; simp only [List.append_assoc]
              -- derive c₀ ends with a newline from the aligned suffix
                have ht2 : (t ++ ['\n']) ++ (DIFF_SEP ++ a₀) = c₀ ++ (DIFF_SEP ++ a₀) := by
                  rw [← hdca, ← ht, List.append_assoc]
                  rfl
                have hc0 : c₀ = t ++ ['\n'] := (List.append_cancel_right ht2).symm
                refine ⟨splitLines t, ?_, ?_⟩
                · rw [hc0, splitLines_endnl]
                · intro l hl
                  have hdt : diff = t ++ '\n' :: (DIFF_SEP ++ a₀) := by
                    rw [hdca, hc0, List.append_assoc]
                    rfl
                  rw [hdt, splitLines_append]
                  exact List.mem_append_left _ hl
            obtain ⟨P, hPsp, hP⟩ := hc₀
            rw [hfold] at hline
            cases houts : outs with
            | nil =>
              rw [houts] at hline
              rw [show ([c₀] ++ [] : List Str) = [c₀] by rfl, joinWith] at hline
              rw [hPsp] at hline
              rcases List.mem_append.mp hline with h | h
              · exact Or.inl (hP line h)
              · rw [List.mem_singleton.mp h]
                exact Or.inr (Or.inr rfl)
            | cons o os =>
              rw [houts] at hline
              obtain ⟨f, R, hJ, hh, hR⟩ := join_outs_lines (o :: os)
                (List.cons_ne_nil _ _) (by rw [← houts]; exact hlast)
                (by rw [← houts]; exact hmid)
              have hstr : joinWith DIFF_SEP ([c₀] ++ o :: os) =
                  c₀ ++ (DIFF_SEP ++ joinWith DIFF_SEP (o :: os)) := by
                rw [List.singleton_append, joinWith]
                simp only [List.append_assoc]
              rw [hstr] at hline
              rw [splitLines_glue c₀ hPsp hJ] at hline
              rcases List.mem_append.mp hline with h | h
              · exact Or.inl (hP line h)
              · rcases List.mem_cons.mp h with rfl | h'
                · rw [List.nil_append]
                  exact Or.inl hh
                · exact hR line h'

theorem hsep_of_no_d {l : Str} (hd : 'd' ∉ l) :
    ∀ s, s <:+ l → isPre DIFF_SEP s = true → s = l ∨ ('\n' :: s) <:+ l := by
  intro s hs hp
  exfalso
  obtain ⟨t, hts⟩ := isPre_iff.mp hp
  apply hd
  apply hs.subset
  rw [hts, sep_cons]
  exact List.mem_cons_self _ _

/-- C9 (amended): for any diff in which every occurrence of the
`diff --git ` separator starts a line (every suffix beginning with the
separator is the whole diff or is preceded by a newline — true of every
well-formed git diff), every line of `optimizeDiff`'s output is a line of
the input, or a summary line beginning with `... (`, or an empty line;
consequently every addition or deletion line of the output occurs in the
input with its `+`/`-` prefix unchanged. Without the line-initial-separator
hypothesis the property fails: see `optimizeDiff_boundary_splice`. -/
theorem C9_amended (diff : Str)
    (hsep : ∀ s, s <:+ diff → isPre DIFF_SEP s = true →
      s = diff ∨ ('\n' :: s) <:+ diff) :
    ∀ line ∈ splitLines (optimizeDiff diff),
      (line ∈ splitLines diff ∨ isPre SUMMARY_PRE line = true ∨ line = []) ∧
      ((isPre ['+'] line || isPre ['-'] line) = true → line ∈ splitLines diff) := by
  intro line hline
  have htri : line ∈ splitLines diff ∨ isPre SUMMARY_PRE line = true ∨ line = [] :=
    optimizeDiff_lines_OK hsep line hline
  refine ⟨htri, ?_⟩
  intro hpm
  rcases htri with h1 | h1 | h1
  · exact h1
  · exfalso
    have hdot : line.get? 0 = SUMMARY_PRE.get? 0 :=
      isPre_get? h1 (by rw [SUMMARY_PRE]; decide)
    rcases Bool.or_eq_true_iff.mp hpm with hp | hp
    · have := isPre_get? hp (i := 0) (by decide)
      rw [hdot] at this
      exact absurd this (by rw [SUMMARY_PRE]; decide)
    · have := isPre_get? hp (i := 0) (by decide)
      rw [hdot] at this
      exact absurd this (by rw [SUMMARY_PRE]; decide)
  · subst h1
    simp [isPre] at hpm

/-- Witness for C9 (amended) at a concrete small diff (returned unchanged by
the size guard, and containing no `d` at all, hence no separator) and a
concrete output line. -/
theorem C9_amended_witness :
    (("+a".toList ∈ splitLines "+a\n-b".toList ∨
      isPre SUMMARY_PRE "+a".toList = true ∨ "+a".toList = ([] : Str)) ∧
    ((isPre ['+'] ("+a".toList) || isPre ['-'] ("+a".toList)) = true →
      "+a".toList ∈ splitLines "+a\n-b".toList)) :=
  C9_amended ("+a\n-b".toList) (hsep_of_no_d (by decide)) ("+a".toList) (by decide)
theorem isPre_append_of_le (p w v : Str) (h : p.length ≤ w.length) :
    isPre p (w ++ v) = isPre p w := by
  induction p generalizing w with
  | nil => rfl
  | cons a as ih =>
    cases w with
    | nil => simp at h
    | cons b bs =>
      simp only [List.cons_append, isPre]
      show (decide (a = b) && isPre as (bs ++ v)) = (decide (a = b) && isPre as bs)
      rw [ih bs (by simp only [List.length_cons] at h; omega)]

theorem splitFirst_self_append {sep : Str} (hne : sep ≠ []) (t : Str) :
    splitFirst sep (sep ++ t) = some ([], t) := by
  cases sep with
  | nil => exact absurd rfl hne
  | cons a as =>
    rw [List.cons_append, splitFirst,
      if_pos (by rw [← List.cons_append]; exact isPre_self_append _ t)]
    rw [← List.cons_append]
    simp only [List.length_cons, List.cons_append, List.drop_succ_cons, List.drop_left]

theorem splitFirst_mid {sep : Str} (hne : sep ≠ []) :
    ∀ (u v : Str),
      (∀ i, i < u.length → isPre sep (List.drop i (u ++ sep)) = false) →
      splitFirst sep (u ++ sep ++ v) = some (u, v) := by
  intro u
  induction u with
  | nil =>
    intro v _
    simp only [List.nil_append]
    exact splitFirst_self_append hne v
  | cons a u' ih =>
    intro v hcond
    have hstr : (a :: u') ++ sep ++ v = a :: (u' ++ sep ++ v) := by simp
    rw [hstr, splitFirst]
    have hfalse : isPre sep (a :: (u' ++ sep ++ v)) = false := by
      have h0 := hcond 0 (by simp)
      rw [List.drop_zero] at h0
      have heq : a :: (u' ++ sep ++ v) = ((a :: u') ++ sep) ++ v := by simp
      rw [heq, isPre_append_of_le sep ((a :: u') ++ sep) v
        (by rw [List.length_append]; omega), h0]
    rw [if_neg (by rw [hfalse]; exact Bool.false_ne_true)]
    have hcond' : ∀ i, i < u'.length →
        isPre sep (List.drop i (u' ++ sep)) = false := by
      intro i hi
      have := hcond (i + 1) (by simp only [List.length_cons]; omega)
      rw [show (a :: u') ++ sep = a :: (u' ++ sep) from by simp,
        List.drop_succ_cons] at this
      exact this
    rw [ih v hcond']
    rfl

theorem splitFirst_none_of_no_d {l : Str} (hd : 'd' ∉ l) :
    splitFirst DIFF_SEP l = none := by
  induction l with
  | nil => decide
  | cons a as ih =>
    rw [splitFirst]
    have hna : isPre DIFF_SEP (a :: as) = false := by
      cases hp : isPre DIFF_SEP (a :: as) with
      | false => rfl
      | true =>
        exfalso
        have hg := isPre_get? hp (i := 0) (by decide)
        have hg2 : (a :: as).get? 0 = some 'd' := by
          rw [hg, sep_cons]
          rfl
        have ha : a = 'd' := by
          injection hg2 with h'
        exact hd (by rw [← ha]; exact List.mem_cons_self _ _)
    rw [if_neg (by rw [hna]; exact Bool.false_ne_true)]
    rw [ih (fun h => hd (List.mem_cons_of_mem _ h))]
    rfl

theorem splicePad_no_d : 'd' ∉ splicePad := by
  intro h
  obtain ⟨l, hl, hm⟩ := List.mem_flatten.mp h
  have := List.eq_of_mem_replicate hl
  subst this
  revert hm
  decide

theorem splicePad_len : splicePad.length = 4950 := by
  rw [splicePad, length_flatten_replicate]
  decide

theorem spliceDiff_len : spliceDiff.length = 5032 := by
  rw [spliceDiff, List.length_append, splicePad_len,
    show spliceFront.length = 82 from by decide]

theorem spliceDiff_decomp : spliceDiff =
    DIFF_SEP ++ (spliceC1 ++ DIFF_SEP ++ (spliceC2 ++ DIFF_SEP ++ spliceC3)) := by
  rw [spliceDiff, spliceC3,
    show spliceFront =
      DIFF_SEP ++ spliceC1 ++ DIFF_SEP ++ spliceC2 ++ DIFF_SEP ++ "a/h b/h".toList
      from by decide]
  simp [List.append_assoc]

theorem splice_chunks :
    jsSplit DIFF_SEP spliceDiff = [[], spliceC1, spliceC2, spliceC3] := by
  have hne : DIFF_SEP ≠ ([] : Str) := by decide
  have h0 : splitFirst DIFF_SEP spliceDiff =
      some ([], spliceC1 ++ DIFF_SEP ++ (spliceC2 ++ DIFF_SEP ++ spliceC3)) := by
    rw [spliceDiff_decomp]
    exact splitFirst_self_append hne _
  have h1 : splitFirst DIFF_SEP
      (spliceC1 ++ DIFF_SEP ++ (spliceC2 ++ DIFF_SEP ++ spliceC3)) =
      some (spliceC1, spliceC2 ++ DIFF_SEP ++ spliceC3) :=
    splitFirst_mid hne _ _ (by decide)
  have h2 : splitFirst DIFF_SEP (spliceC2 ++ DIFF_SEP ++ spliceC3) =
      some (spliceC2, spliceC3) :=
    splitFirst_mid hne _ _ (by decide)
  have h3 : splitFirst DIFF_SEP spliceC3 = none := by
    apply splitFirst_none_of_no_d
    intro hd
    rw [spliceC3] at hd
    rcases List.mem_append.mp hd with h | h
    · exact absurd h (by decide)
    · exact splicePad_no_d h
  rw [jsSplit_of_splitFirst hne h0, jsSplit_of_splitFirst hne h1,
    jsSplit_of_splitFirst hne h2, jsSplit_of_none h3]

theorem splice_step1 :
    optimizeChunkStep [[]] spliceC1 = [[], "a/f b/f\n+x".toList] := by decide

theorem splice_step2 :
    optimizeChunkStep [[], "a/f b/f\n+x".toList] spliceC2 =
      [[], "a/f b/f\n+x".toList, spliceC2] := by decide

theorem splice_step3 (acc : List Str) :
    optimizeChunkStep acc spliceC3 = acc ∨
      ∃ x, optimizeChunkStep acc spliceC3 = acc ++ [x] := by
  rw [optimizeChunkStep]
  have hlen : 2000 < (DIFF_SEP ++ spliceC3).length := by
    rw [List.length_append, spliceC3, List.length_append, splicePad_len]
    decide
  rw [if_pos hlen]
  by_cases h : jsTrim (optimizePipeline (DIFF_SEP ++ spliceC3)) = jsTrim DIFF_SEP
  · rw [if_pos h]
    exact Or.inl rfl
  · rw [if_neg h]
    exact Or.inr ⟨_, rfl⟩

theorem spliceDiff_guard1 : ¬ (spliceDiff = [] ∨ (jsTrim spliceDiff).length = 0) := by
  intro h
  have hcons : spliceDiff = 'd' ::
      ("iff --git a/f b/f\n+x\nBinary files q differdiff --git a/g b/g\n+ydiff --git a/h b/h".toList
        ++ splicePad) := by
    rw [spliceDiff,
      show spliceFront = 'd' ::
        "iff --git a/f b/f\n+x\nBinary files q differdiff --git a/g b/g\n+ydiff --git a/h b/h".toList
        from by decide, List.cons_append]
  rcases h with h | h
  · rw [hcons] at h
    exact List.noConfusion h
  · rw [hcons] at h
    obtain ⟨t', ht'⟩ := jsTrim_cons_head (show ('d').isWhitespace = false from by decide)
    rw [ht'] at h
    simp at h

theorem splice_boundary_mem :
    spliceLine ∈
      splitLines ("diff --git a/f b/f\n+xdiff --git a/g b/g".toList) := by decide

theorem optimizeDiff_boundary_splice :
    spliceLine ∈ splitLines (optimizeDiff spliceDiff) ∧
      spliceLine ∉ splitLines spliceDiff ∧
      isPre SUMMARY_PRE spliceLine = false ∧ spliceLine ≠ [] ∧
      isPre ['+'] spliceLine = true := by
  have hguard2 : ¬ spliceDiff.length < 5000 := by rw [spliceDiff_len]; omega
  have hopt : optimizeDiff spliceDiff =
      joinWith DIFF_SEP ((jsSplit DIFF_SEP spliceDiff).tail.foldl optimizeChunkStep
        [(jsSplit DIFF_SEP spliceDiff).headD []]) := by
    rw [optimizeDiff, if_neg spliceDiff_guard1, if_neg hguard2]
    dsimp only
    rw [if_neg (by rw [splice_chunks]; decide)]
  rw [splice_chunks] at hopt
  simp only [List.tail_cons, List.headD_cons] at hopt
  rw [List.foldl_cons, splice_step1, List.foldl_cons, splice_step2,
    List.foldl_cons, List.foldl_nil] at hopt
  have hmain : spliceLine ∈ splitLines (optimizeDiff spliceDiff) := by
    rcases splice_step3 [[], "a/f b/f\n+x".toList, spliceC2] with h3 | ⟨x, h3⟩
    · rw [h3] at hopt
      rw [hopt]
      rw [show joinWith DIFF_SEP [[], "a/f b/f\n+x".toList, spliceC2] =
        "diff --git a/f b/f\n+xdiff --git a/g b/g".toList ++ '\n' :: "+y".toList
        from by decide]
      rw [splitLines_append]
      exact List.mem_append_left _ splice_boundary_mem
    · rw [h3] at hopt
      rw [hopt]
      have hjoin : joinWith DIFF_SEP ([[], "a/f b/f\n+x".toList, spliceC2] ++ [x]) =
          ([] : Str) ++ DIFF_SEP ++
            ("a/f b/f\n+x".toList ++ DIFF_SEP ++ (spliceC2 ++ DIFF_SEP ++ x)) := by
        rw [show ([[], "a/f b/f\n+x".toList, spliceC2] ++ [x] : List Str) =
          [[], "a/f b/f\n+x".toList, spliceC2, x] from rfl]
        rw [joinWith, joinWith, joinWith, joinWith]
      have hform : ([] : Str) ++ DIFF_SEP ++
          ("a/f b/f\n+x".toList ++ DIFF_SEP ++ (spliceC2 ++ DIFF_SEP ++ x)) =
          "diff --git a/f b/f\n+xdiff --git a/g b/g".toList ++
            '\n' :: ("+y".toList ++ (DIFF_SEP ++ x)) := by
        rw [show spliceC2 = "a/g b/g".toList ++ '\n' :: "+y".toList from by decide]
        rw [show "diff --git a/f b/f\n+xdiff --git a/g b/g".toList =
          ([] : Str) ++ DIFF_SEP ++
            ("a/f b/f\n+x".toList ++ DIFF_SEP ++ "a/g b/g".toList) from by decide]
        simp only [List.append_assoc, List.nil_append, List.cons_append]
      rw [hjoin, hform, splitLines_append]
      exact List.mem_append_left _ splice_boundary_mem
  have hnotin : spliceLine ∉ splitLines spliceDiff := by
    have hdec : spliceDiff =
        "diff --git a/f b/f\n+x\nBinary files q differdiff --git a/g b/g".toList ++
          '\n' :: ("+ydiff --git a/h b/h".toList ++ splicePad) := by
      rw [spliceDiff,
        show spliceFront =
          "diff --git a/f b/f\n+x\nBinary files q differdiff --git a/g b/g".toList ++
            '\n' :: "+ydiff --git a/h b/h".toList from by decide]
      simp only [List.append_assoc, List.cons_append]
    rw [hdec, splitLines_append, splicePad,
      splitLines_head_replicate (by decide) (by decide) 450]
    intro hmem
    rcases List.mem_append.mp hmem with h | h
    · exact absurd h (by decide)
    · rcases List.mem_cons.mp h with h | h
      · exact absurd h (by decide)
      · exact absurd (List.eq_of_mem_replicate h) (by decide)
  exact ⟨hmain, hnotin, by decide, by decide, by decide⟩
